import Mathlib

/-!
Intel Broadwell serial-IO I2C slave driver: transfer engine and ioctl compiler.

A shallow embedding of `system/udev/intel-serialio/i2c/slave.c`.

* The controller is seen through its registers.  Every register read takes the
  next value of a finite list of hardware responses; when the list is used up the
  run is cut off (`stalled`), which is how a spin loop that never ends shows up.
* Everything the driver does to the controller is appended to a trace of events.
* Memory is a map from addresses to bytes; segment buffers are addresses.
* `int` is 32 bits wide, `size_t` and `uintptr_t` are 64 bits wide (the driver is
  built for x86-64 only).
-/

namespace I2cSlave

/-! ## Declarations the driver takes from headers -/

/-- Constants of `intel_broadwell_serialio/reg.h`, `controller.h`,
`ddk/protocol/i2c.h` and `magenta/types.h`.  None of these headers is among the
sources, so their values are parameters of the model. -/
structure Consts where
  I2C_7BIT_ADDRESS : Nat
  I2C_10BIT_ADDRESS : Nat
  CTL_ADDRESSING_MODE : Nat
  CTL_ADDRESSING_MODE_7BIT : Nat
  CTL_ADDRESSING_MODE_10BIT : Nat
  TAR_ADD_WIDTH : Nat
  TAR_ADD_WIDTH_7BIT : Nat
  TAR_ADD_WIDTH_10BIT : Nat
  TAR_ADD_IC_TAR : Nat
  I2C_EN_ENABLE : Nat
  I2C_STA_CA : Nat
  I2C_STA_TFCE : Nat
  I2C_STA_TFNF : Nat
  I2C_STA_RFNE : Nat
  DATA_CMD_RESTART : Nat
  DATA_CMD_STOP : Nat
  DATA_CMD_CMD : Nat
  DATA_CMD_DAT : Nat
  DATA_CMD_CMD_WRITE : Nat
  DATA_CMD_CMD_READ : Nat
  INTR_STOP_DETECTION : Nat
  NO_ERROR : Int
  ERR_BAD_STATE : Int
  ERR_INVALID_ARGS : Int
  ERR_NO_MEMORY : Int

/-- The values used by the DesignWare block of the Broadwell serial-IO I2C
controller and by the Magenta error header; used for concrete runs only. -/
def bdw : Consts where
  I2C_7BIT_ADDRESS := 7
  I2C_10BIT_ADDRESS := 10
  CTL_ADDRESSING_MODE := 4
  CTL_ADDRESSING_MODE_7BIT := 0
  CTL_ADDRESSING_MODE_10BIT := 1
  TAR_ADD_WIDTH := 12
  TAR_ADD_WIDTH_7BIT := 0
  TAR_ADD_WIDTH_10BIT := 1
  TAR_ADD_IC_TAR := 0
  I2C_EN_ENABLE := 0
  I2C_STA_CA := 5
  I2C_STA_TFCE := 2
  I2C_STA_TFNF := 1
  I2C_STA_RFNE := 3
  DATA_CMD_RESTART := 10
  DATA_CMD_STOP := 9
  DATA_CMD_CMD := 8
  DATA_CMD_DAT := 0
  DATA_CMD_CMD_WRITE := 0
  DATA_CMD_CMD_READ := 1
  INTR_STOP_DETECTION := 512
  NO_ERROR := 0
  ERR_BAD_STATE := -20
  ERR_INVALID_ARGS := -10
  ERR_NO_MEMORY := -4

/-- The fields of a command word do not overlap: eight data bits, one command
bit, the stop bit and the restart bit, all inside the 32-bit register. -/
def Consts.cmdFieldsOk (C : Consts) : Prop :=
  C.DATA_CMD_DAT + 8 ≤ C.DATA_CMD_CMD ∧ C.DATA_CMD_CMD < C.DATA_CMD_STOP ∧
  C.DATA_CMD_STOP < C.DATA_CMD_RESTART ∧ C.DATA_CMD_RESTART < 32 ∧
  C.DATA_CMD_CMD_WRITE < 2 ∧ C.DATA_CMD_CMD_READ < 2

instance (C : Consts) : Decidable C.cmdFieldsOk := by
  unfold Consts.cmdFieldsOk; infer_instance

/-! ## Machine state -/

/-- Registers of the controller that the slave driver touches. -/
inductive Reg where
  | i2c_sta
  | ctl
  | tar_add
  | i2c_en
  | data_cmd
  | raw_intr_stat
  | clr_stop_det
  deriving DecidableEq, Repr

/-- What the driver does to the controller, in program order. -/
inductive Event where
  | lock
  | unlock
  | rd (r : Reg) (v : Nat)
  | wr (r : Reg) (v : Nat)
  deriving DecidableEq, Repr

/-- State threaded through a run.  `hw` holds the values the coming register
reads will return, `trace` the events so far (oldest first), `mem` the bytes of
memory, and `stalled` tells that a read found `hw` empty: from then on nothing
happens any more. -/
structure Machine where
  hw : List Nat
  trace : List Event
  mem : Nat → Nat
  stalled : Bool

/-- A 32-bit register value. -/
def u32 (x : Nat) : Nat := x % 2 ^ 32

/-- Value of `*REG32(r)`. -/
def Machine.read (m : Machine) (r : Reg) : Nat × Machine :=
  match m.stalled, m.hw with
  | false, v :: hw => (v, { m with hw := hw, trace := m.trace ++ [Event.rd r v] })
  | _, _ => (0, { m with stalled := true })

/-- Effect of `*REG32(r) = v`. -/
def Machine.write (m : Machine) (r : Reg) (v : Nat) : Machine :=
  if m.stalled then m else { m with trace := m.trace ++ [Event.wr r (u32 v)] }

/-- Effect of `*buf = v` on a `uint8_t* buf`. -/
def Machine.store (m : Machine) (addr v : Nat) : Machine :=
  if m.stalled then m
  else { m with mem := fun a => if a = addr then v % 256 else m.mem a }

/-- Effect of `mxr_mutex_lock` / `mxr_mutex_unlock` on the controller mutex. -/
def Machine.log (m : Machine) (e : Event) : Machine :=
  if m.stalled then m else { m with trace := m.trace ++ [e] }

/-- Modelled from the spec: the macro `RMWREG32(addr, startbit, width, val)` of
the register header, which is not among the sources.  The spec calls it an
atomic update of a named bitfield: the register is read, the field of `width`
bits at `startbit` is replaced by `val`, and the result is written back. -/
def Machine.RMWREG32 (m : Machine) (r : Reg) (startbit width val : Nat) : Machine :=
  let old := (m.read r).1
  let m1 := (m.read r).2
  let mask := (2 ^ width - 1) <<< startbit
  m1.write r ((u32 old ^^^ (u32 old &&& mask)) ||| (val <<< startbit))

/-- Outcome of `while (stay(*REG32(r)));` on the pending responses: the events
of the reads made and the responses left (`none`: they ran out while spinning). -/
def spin (r : Reg) (stay : Nat → Bool) : List Nat → List Event × Option (List Nat)
  | [] => ([], none)
  | v :: hw =>
    if stay v then (Event.rd r v :: (spin r stay hw).1, (spin r stay hw).2)
    else ([Event.rd r v], some hw)

/-- Outcome of `while (test(*REG32(r1))) *REG32(r2);` on the pending responses. -/
def drain (r1 r2 : Reg) (test : Nat → Bool) : List Nat → List Event × Option (List Nat)
  | [] => ([], none)
  | [v] => ([Event.rd r1 v], if test v then none else some [])
  | v :: d :: hw =>
    if test v then
      (Event.rd r1 v :: Event.rd r2 d :: (drain r1 r2 test hw).1, (drain r1 r2 test hw).2)
    else ([Event.rd r1 v], some (d :: hw))

/-- Outcome of the loop of lines 157-160,
`while ((*sta & CA) || !(*sta & TFCE));`, where the second read of the status
register is only made when the first did not already decide the condition. -/
def spin2 (busy : Nat → Bool) (empty : Nat → Bool) :
    List Nat → List Event × Option (List Nat)
  | [] => ([], none)
  | [a] => ([Event.rd Reg.i2c_sta a], none)
  | a :: b :: hw =>
    if busy a then
      (Event.rd Reg.i2c_sta a :: (spin2 busy empty (b :: hw)).1, (spin2 busy empty (b :: hw)).2)
    else if empty b then
      ([Event.rd Reg.i2c_sta a, Event.rd Reg.i2c_sta b], some hw)
    else
      (Event.rd Reg.i2c_sta a :: Event.rd Reg.i2c_sta b :: (spin2 busy empty hw).1,
        (spin2 busy empty hw).2)

/-- Runs one of the loops above on a machine. -/
def Machine.loop (m : Machine) (f : List Nat → List Event × Option (List Nat)) : Machine :=
  if m.stalled then m
  else
    match (f m.hw).2 with
    | some hw => { m with hw := hw, trace := m.trace ++ (f m.hw).1 }
    | none => { m with hw := [], trace := m.trace ++ (f m.hw).1, stalled := true }

/-! ## The transfer engine -/

/-- The slave device as `intel_broadwell_serialio_i2c_slave_transfer` sees it:
whether `dev->parent` is set, and the address fixed at initialisation. -/
structure SlaveDev where
  has_parent : Bool
  chip_address_width : Nat
  chip_address : Nat

/-- One `i2c_slave_segment_t`.  Its declaration (`ddk/protocol/i2c.h`) is not
among the sources; every segment this file builds stores 0 or 1 in `read`, so the
field is a direction flag (`true`: read).  `len` is assigned to an `int`, `buf`
is the address of the first byte. -/
structure Segment where
  read : Bool
  len : Int
  buf : Nat
  deriving DecidableEq, Repr

/-- Number of times the body of `while (len--)` runs for an `int len`: `len`
itself when it is not negative, and the two's-complement count down to zero
otherwise. -/
def loopCount (len : Int) : Nat := (len % 2 ^ 32).toNat

/-- Test `i2c_sta & (0x1 << bit)`. -/
def staBit (bit : Nat) (i2c_sta : Nat) : Bool := i2c_sta &&& (1 <<< bit) != 0

/-- Condition of the idle wait: `(i2c_sta & (0x1 << I2C_STA_CA)) ||
!(i2c_sta & (0x1 << I2C_STA_TFCE))`. -/
def notIdle (C : Consts) (i2c_sta : Nat) : Bool :=
  staBit C.I2C_STA_CA i2c_sta || !staBit C.I2C_STA_TFCE i2c_sta

/-- One run of the body of `while (len--)` (lines 113-141) for a segment of
direction `read`; `n` is the value of `len` after the decrement, `restart` the
value of the local `restart` on entry, `buf` the value of the local `buf`. -/
def byteBody (C : Consts) (read : Bool) (n restart buf : Nat) (m : Machine) : Machine :=
  let cmd := restart <<< C.DATA_CMD_RESTART
  let stop := if n = 0 then 1 <<< C.DATA_CMD_STOP else 0
  if read then
    let m1 := m.write Reg.data_cmd (cmd ||| (C.DATA_CMD_CMD_READ <<< C.DATA_CMD_CMD) ||| stop)
    let m2 := m1.loop (spin Reg.i2c_sta (fun v => !staBit C.I2C_STA_RFNE v))
    (m2.read Reg.data_cmd).2.store buf (m2.read Reg.data_cmd).1
  else
    let m1 := m.loop (spin Reg.i2c_sta (fun v => !staBit C.I2C_STA_TFNF v))
    m1.write Reg.data_cmd
      (cmd ||| ((m1.mem buf % 256) <<< C.DATA_CMD_DAT) |||
        (C.DATA_CMD_CMD_WRITE <<< C.DATA_CMD_CMD) ||| stop)

/-- The loop `while (len--)` of lines 112-142 for one segment; the first
argument is the number of iterations still to run, `restart` and `buf` are the
locals of these names (`restart = 0` and `buf++` after every iteration). -/
def byteLoop (C : Consts) (read : Bool) : Nat → Nat → Nat → Machine → Machine
  | 0, _, _, m => m
  | n + 1, restart, buf, m => byteLoop C read n 0 (buf + 1) (byteBody C read n restart buf m)

/-- The loop `while (segment_count--)` of lines 103-145; `last_read` is the
local of that name. -/
def segmentLoop (C : Consts) : Bool → List Segment → Machine → Machine
  | _, [], m => m
  | last_read, s :: rest, m =>
    let restart := if last_read = s.read then 1 else 0
    segmentLoop C s.read rest (byteLoop C s.read (loopCount s.len) restart s.buf m)

/-- Initial value of `last_read` (lines 99-101); the direction 0 is write. -/
def initLastRead : List Segment → Bool
  | [] => false
  | s :: _ => s.read

/-- Lines 81-166 of `intel_broadwell_serialio_i2c_slave_transfer`: everything
done once both checks have passed. -/
def transferBody (C : Consts) (dev : SlaveDev) (ctl_addr_mode_bit tar_add_addr_mode_bit : Nat)
    (segments : List Segment) (m : Machine) : Machine :=
  let m := m.log Event.lock
  -- Wait for the bus to become idle.
  let m := m.loop (spin Reg.i2c_sta (notIdle C))
  -- Set the target address value and width.
  let m := m.RMWREG32 Reg.ctl C.CTL_ADDRESSING_MODE 1 ctl_addr_mode_bit
  let m := m.write Reg.tar_add
    ((tar_add_addr_mode_bit <<< C.TAR_ADD_WIDTH) ||| (dev.chip_address <<< C.TAR_ADD_IC_TAR))
  -- Enable the controller.
  let m := m.RMWREG32 Reg.i2c_en C.I2C_EN_ENABLE 1 1
  let m := segmentLoop C (initLastRead segments) segments m
  let m := m.loop (drain Reg.raw_intr_stat Reg.clr_stop_det
    (fun v => v &&& C.INTR_STOP_DETECTION != 0))
  -- Wait for the bus to become idle.
  let m := m.loop (spin Reg.i2c_sta (notIdle C))
  let m := m.loop (spin2 (staBit C.I2C_STA_CA) (staBit C.I2C_STA_TFCE))
  let m := m.loop (drain Reg.i2c_sta Reg.data_cmd (staBit C.I2C_STA_RFNE))
  m.log Event.unlock

/-- The function `intel_broadwell_serialio_i2c_slave_transfer`.  The result is
the status returned (`none` when the run was cut off inside a spin loop and the
call has not returned) and the machine at that point. -/
def intel_broadwell_serialio_i2c_slave_transfer (C : Consts) (dev : SlaveDev)
    (segments : List Segment) (m : Machine) : Option Int × Machine :=
  if !dev.has_parent then (some C.ERR_BAD_STATE, m)
  else if dev.chip_address_width = C.I2C_7BIT_ADDRESS then
    let m1 := transferBody C dev C.CTL_ADDRESSING_MODE_7BIT C.TAR_ADD_WIDTH_7BIT segments m
    (if m1.stalled then none else some C.NO_ERROR, m1)
  else if dev.chip_address_width = C.I2C_10BIT_ADDRESS then
    let m1 := transferBody C dev C.CTL_ADDRESSING_MODE_10BIT C.TAR_ADD_WIDTH_10BIT segments m
    (if m1.stalled then none else some C.NO_ERROR, m1)
  else (some C.ERR_INVALID_ARGS, m)

/-- The word an event writes to the data/command register, if it is such a
write. -/
def cmdWord : Event → Option Nat
  | Event.wr Reg.data_cmd w => some w
  | _ => none

/-- The words written to the data/command register, in order. -/
def cmdWords (trace : List Event) : List Nat := trace.filterMap cmdWord

/-- Whether the restart bit of a command word is set. -/
def restartBit (C : Consts) (w : Nat) : Bool := w.testBit C.DATA_CMD_RESTART

/-- Whether the stop bit of a command word is set. -/
def stopBit (C : Consts) (w : Nat) : Bool := w.testBit C.DATA_CMD_STOP

/-- A machine about to start: pending hardware responses `hw`, memory `mem`. -/
def Machine.init (hw : List Nat) (mem : Nat → Nat) : Machine :=
  { hw := hw, trace := [], mem := mem, stalled := false }

/-! ## The character-device entry points -/

/-- Conversion of a value to `int`. -/
def wrapInt (x : Int) : Int := (x + 2 ^ 31) % 2 ^ 32 - 2 ^ 31

/-- Conversion of a value to `size_t` (or `uintptr_t`). -/
def sz (x : Int) : Nat := (x % 2 ^ 64).toNat

/-- The function `intel_broadwell_serialio_i2c_slave_read`: one read segment
`{.read = 1, .buf = buf, .len = count}` handed to the transfer, whose status is
returned as it is. -/
def intel_broadwell_serialio_i2c_slave_read (C : Consts) (dev : SlaveDev)
    (buf count : Nat) (m : Machine) : Option Int × Machine :=
  intel_broadwell_serialio_i2c_slave_transfer C dev
    [{ read := true, len := wrapInt count, buf := buf }] m

/-- The function `intel_broadwell_serialio_i2c_slave_write`: one write segment
`{.read = 0, .buf = buf, .len = count}` handed to the transfer, whose status is
returned as it is. -/
def intel_broadwell_serialio_i2c_slave_write (C : Consts) (dev : SlaveDev)
    (buf count : Nat) (m : Machine) : Option Int × Machine :=
  intel_broadwell_serialio_i2c_slave_transfer C dev
    [{ read := false, len := wrapInt count, buf := buf }] m

/-! ## The ioctl request compiler -/

/-- The record type `i2c_slave_ioctl_segment_t`.  Its declaration
(`ddk/protocol/i2c.h`) is not among the sources, so the layout is a parameter:
`base_size` is `offsetof(i2c_slave_ioctl_segment_t, buf)`, `get_read mem a` tells
whether the field `read` of the record at address `a` is non-zero, and
`get_len mem a` is the value of its field `len`. -/
structure IoctlLayout where
  base_size : Nat
  get_read : (Nat → Nat) → Nat → Bool
  get_len : (Nat → Nat) → Nat → Int

/-- Locals of the first walk (lines 196-227). -/
structure Walk where
  size : Nat
  read_len : Nat
  write_len : Nat
  segment_count : Nat
  segment_addr : Nat
  deriving DecidableEq, Repr

/-- Body of the loop of lines 202-227 (entered with `size != 0`); an error is
the status stored before `goto slave_transfer_ioctl_finish_2`. -/
def pass1Step (C : Consts) (L : IoctlLayout) (mem : Nat → Nat) (s : Walk) : Except Int Walk :=
  let len := wrapInt (L.get_len mem s.segment_addr)
  if s.size < L.base_size then Except.error C.ERR_INVALID_ARGS
  else
    let rd := L.get_read mem s.segment_addr
    let read_len := if rd then sz (s.read_len + len) else s.read_len
    let write_len := if rd then s.write_len else sz (s.write_len + len)
    let consumed := if rd then L.base_size else sz (L.base_size + len)
    if consumed > s.size then Except.error C.ERR_INVALID_ARGS
    else Except.ok
      { size := s.size - consumed
        read_len := read_len
        write_len := write_len
        segment_count := s.segment_count + 1
        segment_addr := sz (s.segment_addr + consumed) }

/-- The loop `while (size)` of lines 202-227, run for at most `fuel` tests of
its condition (`none`: the fuel did not suffice). -/
def pass1 (C : Consts) (L : IoctlLayout) (mem : Nat → Nat) : Nat → Walk → Option (Except Int Walk)
  | 0, _ => none
  | fuel + 1, s =>
    if s.size = 0 then some (Except.ok s)
    else
      match pass1Step C L mem s with
      | Except.error e => some (Except.error e)
      | Except.ok s1 => pass1 C L mem fuel s1

/-- Locals of the second walk (lines 240-268); `segments` holds the entries
written through `cur_segment` so far, in order. -/
structure Build where
  size : Nat
  segment_addr : Nat
  out_addr : Nat
  segments : List Segment
  deriving DecidableEq, Repr

/-- Body of the loop of lines 244-268. -/
def pass2Step (L : IoctlLayout) (mem : Nat → Nat) (b : Build) : Build :=
  let len := wrapInt (L.get_len mem b.segment_addr)
  if L.get_read mem b.segment_addr then
    { size := sz (b.size - L.base_size)
      segment_addr := sz (b.segment_addr + L.base_size)
      out_addr := sz (b.out_addr + len)
      segments := b.segments ++ [{ read := true, len := len, buf := b.out_addr }] }
  else
    { size := sz (b.size - sz (L.base_size + len))
      segment_addr := sz (b.segment_addr + sz (L.base_size + len))
      out_addr := b.out_addr
      segments := b.segments ++
        [{ read := false, len := len, buf := sz (b.segment_addr + L.base_size) }] }

/-- The loop `while (size)` of lines 244-268, run for at most `fuel` tests of
its condition (`none`: the fuel did not suffice). -/
def pass2 (L : IoctlLayout) (mem : Nat → Nat) : Nat → Build → Option Build
  | 0, _ => none
  | fuel + 1, b => if b.size = 0 then some b else pass2 L mem fuel (pass2Step L mem b)

/-- Start state of the first walk (lines 196-200). -/
def walkInit (in_buf in_len : Nat) : Walk :=
  { size := in_len, read_len := 0, write_len := 0, segment_count := 0, segment_addr := in_buf }

/-- Start state of the second walk (lines 240-243). -/
def buildInit (in_buf in_len out_buf : Nat) : Build :=
  { size := in_len, segment_addr := in_buf, out_addr := out_buf, segments := [] }

/-- What a call of the ioctl leaves behind: the value returned (`none` when the
delegated transfer was cut off), the segment array built by the second walk
(`none` when the call ended before building it), and the machine. -/
structure IoctlResult where
  status : Option Int
  segments : Option (List Segment)
  m : Machine

/-- The function `intel_broadwell_serialio_i2c_slave_transfer_ioctl`.
`alloc_ok` tells whether `calloc` returns a non-null pointer; `fuel` bounds each
of the two walks (`none`: it did not suffice).  The value stored by
`status = write_len` is kept as it is, without narrowing to `mx_status_t`, whose
declaration is not among the sources. -/
def intel_broadwell_serialio_i2c_slave_transfer_ioctl (C : Consts) (L : IoctlLayout)
    (dev : SlaveDev) (in_buf in_len out_buf out_len : Nat) (alloc_ok : Bool) (fuel : Nat)
    (m : Machine) : Option IoctlResult :=
  match pass1 C L m.mem fuel (walkInit in_buf in_len) with
  | none => none
  | some (Except.error e) => some { status := some e, segments := none, m := m }
  | some (Except.ok w) =>
    if out_len < w.write_len then
      some { status := some C.ERR_INVALID_ARGS, segments := none, m := m }
    else if !alloc_ok then
      some { status := some C.ERR_NO_MEMORY, segments := none, m := m }
    else
      match pass2 L m.mem fuel (buildInit in_buf in_len out_buf) with
      | none => none
      | some b =>
        let r := intel_broadwell_serialio_i2c_slave_transfer C dev b.segments m
        some
          { status := r.1.map (fun status => if status = C.NO_ERROR then (w.write_len : Int) else status)
            segments := some b.segments
            m := r.2 }

/-- Little-endian 32-bit word at address `a`. -/
def le32 (mem : Nat → Nat) (a : Nat) : Nat :=
  mem a % 256 + 256 * (mem (a + 1) % 256) + 65536 * (mem (a + 2) % 256) +
    16777216 * (mem (a + 3) % 256)

/-- Modelled from the spec: the wire record of the ioctl, whose declaration is
not among the sources.  The spec gives a header made of a direction and a length
field followed by the inline payload; here both are `int` fields, so the payload
starts at offset 8.  Used for concrete runs only, all of which declare small
non-negative lengths: the spec calls the length `u16-ish`, and for these lengths
the width and the sign of the field make no difference (`u16Layout` reads them
the same). -/
def intLayout : IoctlLayout where
  base_size := 8
  get_read := fun mem a => le32 mem a != 0
  get_len := fun mem a => wrapInt (le32 mem (a + 4))

/-- Memory holding the bytes `bytes` from address `base` on and zero elsewhere. -/
def memOf (base : Nat) (bytes : List Nat) : Nat → Nat :=
  fun a => if base ≤ a then bytes.getD (a - base) 0 else 0

/-! ## The restart rule in the words of the specification -/

/-- For every byte of the request, segment after segment and byte after byte,
whether its command word is to carry the restart bit: it is the first byte of its
segment, and the segment is segment 0 (`prev = none`) or has the direction of the
segment before it (`prev`). -/
def restartPlacement : Option Bool → List Segment → List Bool
  | _, [] => []
  | prev, s :: rest =>
    (List.range (loopCount s.len)).map
        (fun j => decide (j = 0 ∧ (prev = none ∨ prev = some s.read))) ++
      restartPlacement (some s.read) rest

/-! ## Where the code puts the stop bit -/

/-- For every byte of the request, segment after segment and byte after byte,
whether it is the last byte of its segment. -/
def lastByteOfSegment : List Segment → List Bool
  | [] => []
  | s :: rest =>
    (List.range (loopCount s.len)).map (fun j => decide (j + 1 = loopCount s.len)) ++
      lastByteOfSegment rest

/-! ## Observers of the first walk -/

/-- The locals of the first walk at the record boundary reached after `k` runs
of the loop body, when the walk gets that far (`none`: the loop has ended or an
iteration has failed before). -/
def pass1Reach (C : Consts) (L : IoctlLayout) (mem : Nat → Nat) : Nat → Walk → Option Walk
  | 0, s => some s
  | k + 1, s =>
    if s.size = 0 then none
    else
      match pass1Step C L mem s with
      | Except.error _ => none
      | Except.ok s1 => pass1Reach C L mem k s1

/-- A record of the input as the first walk sees it: the address it starts at,
its direction and its declared length. -/
structure Record where
  start : Nat
  read : Bool
  len : Int
  deriving DecidableEq, Repr

/-- The records that the first walk passes (those whose iteration does not
fail), in order. -/
def pass1Records (C : Consts) (L : IoctlLayout) (mem : Nat → Nat) : Nat → Walk → List Record
  | 0, _ => []
  | fuel + 1, s =>
    if s.size = 0 then []
    else
      match pass1Step C L mem s with
      | Except.error _ => []
      | Except.ok s1 =>
        { start := s.segment_addr, read := L.get_read mem s.segment_addr,
          len := wrapInt (L.get_len mem s.segment_addr) } :: pass1Records C L mem fuel s1

/-- Sum of the declared lengths of the records of one direction. -/
def declaredTotal (read : Bool) (rs : List Record) : Int :=
  ((rs.filter (fun r => r.read == read)).map (fun r => r.len)).sum

/-- The segment array in the words of the specification: one segment per
record, in order, with the direction and length of the record; a write segment
points at the payload behind its header, a read segment at the output cursor
`out`, which the length of every read record moves on. -/
def segmentsOf (base_size : Nat) : Nat → List Record → List Segment
  | _, [] => []
  | out, r :: rs =>
    if r.read then
      { read := true, len := r.len, buf := out } :: segmentsOf base_size (sz (out + r.len)) rs
    else
      { read := false, len := r.len, buf := sz (r.start + base_size) } ::
        segmentsOf base_size out rs

/-- The region `[a.buf, a.buf + a.len)` ends where, or before, the region of `b`
starts. -/
def regionBefore (a b : Segment) : Prop := (a.buf : Int) + a.len ≤ b.buf

instance (a b : Segment) : Decidable (regionBefore a b) := by
  unfold regionBefore; infer_instance

/-- The regions `[a.buf, a.buf + a.len)` and `[b.buf, b.buf + b.len)` have no
byte in common. -/
def regionsDisjoint (a b : Segment) : Prop := regionBefore a b ∨ regionBefore b a

instance (a b : Segment) : Decidable (regionsDisjoint a b) := by
  unfold regionsDisjoint; infer_instance

/-! ## Concrete inputs -/

/-- A slave with a parent controller and a 7-bit address 0x50. -/
def dev7 : SlaveDev := { has_parent := true, chip_address_width := 7, chip_address := 80 }

/-- Status value with TX FIFO empty and not full, bus idle, RX FIFO empty. -/
def staIdle : Nat := 6

/-- Status value as `staIdle`, with a byte waiting in the RX FIFO. -/
def staRx : Nat := 14

/-- Hardware responses up to the first segment: idle status, then the values of
the control and enable registers read by the two read-modify-write updates. -/
def hwSetup : List Nat := [staIdle, 0, 0]

/-- Hardware responses after the last segment: no stop detection pending, idle
status for both idle waits, RX FIFO empty. -/
def hwFinish : List Nat := [0, staIdle, staIdle, staIdle, staIdle]

/-- The bytes of memory from `addr` on that a call left behind. -/
def IoctlResult.bytes (r : IoctlResult) (addr n : Nat) : List Nat :=
  (List.range n).map (fun i => r.m.mem (addr + i))

/-! ## Observers of the register trace -/

/-- Whether an event is an access to a register of the controller. -/
def Event.isAccess : Event → Bool
  | Event.rd _ _ => true
  | Event.wr _ _ => true
  | _ => false

/-- Whether an event is a write to a register of the controller. -/
def Event.isWrite : Event → Bool
  | Event.wr _ _ => true
  | _ => false

/-- The machine `m1` is `m` after some more events, all of which satisfy `P`. -/
def Machine.Grows (P : Event → Prop) (m m1 : Machine) : Prop :=
  ∃ evs, m1.trace = m.trace ++ evs ∧ ∀ e ∈ evs, P e

/-- Whether the device passes the two checks of lines 60-79: it has a parent, and
its address width is one of the two known widths. -/
def passesChecks (C : Consts) (dev : SlaveDev) : Bool :=
  dev.has_parent && (dev.chip_address_width == C.I2C_7BIT_ADDRESS ||
    dev.chip_address_width == C.I2C_10BIT_ADDRESS)

/-- A slave with a parent controller and an address width of 8, which is neither
of the two known widths. -/
def dev8 : SlaveDev := { has_parent := true, chip_address_width := 8, chip_address := 80 }

/-- A slave without parent, with a 7-bit address. -/
def devOrphan : SlaveDev := { has_parent := false, chip_address_width := 7, chip_address := 80 }

/-- The register and value of an event that writes a register. -/
def writeOf : Event → Option (Reg × Nat)
  | Event.wr r v => some (r, v)
  | _ => none

/-- The register writes of a trace, in order. -/
def writesOf (trace : List Event) : List (Reg × Nat) := trace.filterMap writeOf

/-- The value that `RMWREG32(addr, startbit, width, val)` writes back when it has
read `old`. -/
def rmwValue (old startbit width val : Nat) : Nat :=
  u32 ((u32 old ^^^ (u32 old &&& ((2 ^ width - 1) <<< startbit))) ||| (val <<< startbit))

/-- The command code carried by a command word: the bit at `DATA_CMD_CMD`. -/
def cmdCode (C : Consts) (w : Nat) : Nat := (w >>> C.DATA_CMD_CMD) % 2

/-- The data field of a command word: the eight bits from `DATA_CMD_DAT` up. -/
def dataField (C : Consts) (w : Nat) : Nat := (w >>> C.DATA_CMD_DAT) % 256

/-- Command code and data field of a command word. -/
def cmdFields (C : Consts) (w : Nat) : Nat × Nat := (cmdCode C w, dataField C w)

/-- The command code and data field expected of each command word of a request,
one entry per byte, by segment and then by byte offset: the write code with byte
`j` of the buffer (as found in `mem`) for a write segment, the read code with no
data for a read segment. -/
def wordPlan (C : Consts) (mem : Nat → Nat) : List Segment → List (Nat × Nat)
  | [] => []
  | s :: rest =>
    (List.range (loopCount s.len)).map
      (fun j => if s.read then (C.DATA_CMD_CMD_READ, 0)
        else (C.DATA_CMD_CMD_WRITE, mem (s.buf + j) % 256)) ++ wordPlan C mem rest

/-- No byte of a write segment is a byte of a read segment of the request. -/
def writeBuffersApart (segs : List Segment) : Prop :=
  ∀ s ∈ segs, s.read = false → ∀ t ∈ segs, t.read = true →
    ∀ j, j < loopCount s.len → ∀ k, k < loopCount t.len → s.buf + j ≠ t.buf + k

/-- Sum of the lengths of the segments of a request. -/
def totalLen (segs : List Segment) : Int := (segs.map (fun s => s.len)).sum

instance (segs : List Segment) : Decidable (writeBuffersApart segs) := by
  unfold writeBuffersApart; infer_instance

/-- The value an event reads from the data/command register, if it is such a
read. -/
def rxRead : Event → Option Nat
  | Event.rd Reg.data_cmd v => some v
  | _ => none

/-- The values read from the data/command register, in order. -/
def rxReads (trace : List Event) : List Nat := trace.filterMap rxRead

/-- Addresses of the bytes of the read segments of a request, by segment and
then by byte offset. -/
def readAddrs : List Segment → List Nat
  | [] => []
  | s :: rest =>
    (if s.read then (List.range (loopCount s.len)).map (fun j => s.buf + j) else []) ++
      readAddrs rest

/-- Memory after the low 8 bits of the values `vals` have been stored one after
the other at the addresses `addrs` (as far as both lists go). -/
def writeBack (mem : Nat → Nat) : List Nat → List Nat → Nat → Nat
  | a :: addrs, v :: vals => writeBack (fun x => if x = a then v % 256 else mem x) addrs vals
  | _, _ => mem

/-- Responses to `n` iterations of `while (len--)` by a controller that is ready
at the first poll: for a write byte a status with only TFNF set, for a read byte
a status with only RFNE set and then the received value `d`. -/
def readyBytes (C : Consts) (read : Bool) (d : Nat) : Nat → List Nat
  | 0 => []
  | n + 1 =>
    (if read then [1 <<< C.I2C_STA_RFNE, d] else [1 <<< C.I2C_STA_TFNF]) ++
      readyBytes C read d n

/-- Responses to the segment loop by a controller that is ready at every poll. -/
def readySegments (C : Consts) (d : Nat) : List Segment → List Nat
  | [] => []
  | s :: rest => readyBytes C s.read d (loopCount s.len) ++ readySegments C d rest

/-- Responses to a whole transfer by a controller that is ready at every poll:
the bus is idle (a status with only TFCE set), the control and enable registers
read 0, no stop is pending and the RX FIFO is empty at the end. -/
def readyHw (C : Consts) (d : Nat) (segs : List Segment) : List Nat :=
  [1 <<< C.I2C_STA_TFCE, 0, 0] ++ readySegments C d segs ++
    [0, 1 <<< C.I2C_STA_TFCE, 1 <<< C.I2C_STA_TFCE, 1 <<< C.I2C_STA_TFCE, 0]

/-- The local `ctl_addr_mode_bit` (lines 68-75) of a slave that passes the
checks. -/
def ctl_addr_mode_bit (C : Consts) (dev : SlaveDev) : Nat :=
  if dev.chip_address_width = C.I2C_7BIT_ADDRESS then C.CTL_ADDRESSING_MODE_7BIT
  else C.CTL_ADDRESSING_MODE_10BIT

/-- The local `tar_add_addr_mode_bit` (lines 68-75) of a slave that passes the
checks. -/
def tar_add_addr_mode_bit (C : Consts) (dev : SlaveDev) : Nat :=
  if dev.chip_address_width = C.I2C_7BIT_ADDRESS then C.TAR_ADD_WIDTH_7BIT
  else C.TAR_ADD_WIDTH_10BIT

/-- The command codes expected of the command words of a request, one per byte,
by segment and then by byte offset. -/
def codePlan (C : Consts) : List Segment → List Nat
  | [] => []
  | s :: rest =>
    List.replicate (loopCount s.len)
        (if s.read then C.DATA_CMD_CMD_READ else C.DATA_CMD_CMD_WRITE) ++ codePlan C rest

/-- The command code and data field expected of each command word of a request
when memory is `mem` at the start and the bytes `rx` are received, in this
order, by the read segments: a read segment stores its bytes in its buffer
before the next segment is reached, and a write segment sends what its buffer
holds when it is reached. -/
def wordPlanFrom (C : Consts) : (Nat → Nat) → List Nat → List Segment → List (Nat × Nat)
  | _, _, [] => []
  | mem, rx, s :: rest =>
    if s.read then
      (List.range (loopCount s.len)).map (fun _ => (C.DATA_CMD_CMD_READ, 0)) ++
        wordPlanFrom C
          (writeBack mem ((List.range (loopCount s.len)).map (fun j => s.buf + j)) rx)
          (rx.drop (loopCount s.len)) rest
    else
      (List.range (loopCount s.len)).map
          (fun j => (C.DATA_CMD_CMD_WRITE, mem (s.buf + j) % 256)) ++
        wordPlanFrom C mem rx rest

/-- Whether a command word is a read command. -/
def isReadCmd (C : Consts) (w : Nat) : Bool := cmdCode C w == C.DATA_CMD_CMD_READ

/-- One event of the exchange with the data/command register.  The flag tells
whether a read command has been written whose byte has not been read yet: a
command word sets it when it is a read command and clears it otherwise, a read
of the register clears it, and that read answers the command when the flag was
set. -/
def rxStep (C : Consts) (pending : Bool) (e : Event) : Bool × Option Nat :=
  match cmdWord e, rxRead e with
  | some w, _ => (isReadCmd C w, none)
  | none, some d => (false, if pending then some d else none)
  | none, none => (pending, none)

/-- The values read from the data/command register in answer to read commands,
in order: for every read command the first read of the register after it. -/
def rxAfterCmd (C : Consts) : Bool → List Event → List Nat
  | _, [] => []
  | pending, e :: t => (rxStep C pending e).2.toList ++ rxAfterCmd C (rxStep C pending e).1 t

/-- The flag of `rxStep` after the events of a trace. -/
def pendingAfter (C : Consts) : Bool → List Event → Bool
  | pending, [] => pending
  | pending, e :: t => pendingAfter C (rxStep C pending e).1 t

end I2cSlave

namespace Atfork

/-! # The fork handlers of `pthread_atfork.c`

The second source file keeps a doubly linked list of handler records behind the
static pointer `funcs`.  Pointers are natural numbers, 0 being the null pointer,
and so are the addresses of the callbacks.  Calling a callback is recorded as an
event; the callbacks themselves are not part of the source and are taken to
leave the list alone. -/

/-- The record `struct atfork_funcs`. -/
structure atfork_funcs where
  prepare : Nat
  parent : Nat
  child : Nat
  prev : Nat
  next : Nat
  deriving DecidableEq, Repr

/-- What the fork handlers do that can be seen from outside, in program order. -/
inductive ForkEvent where
  | lock
  | unlock
  | call (f : Nat)
  deriving DecidableEq, Repr

/-- The static `funcs`, the records on the heap, and the events so far. -/
structure State where
  funcs : Nat
  heap : Nat → atfork_funcs
  trace : List ForkEvent

/-- Effect of `mxr_mutex_lock(&lock)`, `mxr_mutex_unlock(&lock)` or a call of a
callback: the event is appended. -/
def State.log (s : State) (e : ForkEvent) : State := { s with trace := s.trace ++ [e] }

/-- The loop `for (p = funcs; p; p = p->next)` of lines 21-25, entered with the
current value of `p`, run for at most `fuel` tests of its condition (`none`: the
fuel did not suffice). -/
def prepareLoop : Nat → Nat → State → Option State
  | 0, _, _ => none
  | fuel + 1, p, s =>
    if p = 0 then some s
    else
      let s1 := if (s.heap p).prepare ≠ 0 then s.log (ForkEvent.call (s.heap p).prepare) else s
      prepareLoop fuel (s1.heap p).next { s1 with funcs := p }

/-- The loop `for (p = funcs; p; p = p->prev)` of lines 27-33. -/
def resumeLoop (who : Int) : Nat → Nat → State → Option State
  | 0, _, _ => none
  | fuel + 1, p, s =>
    if p = 0 then some s
    else
      let s1 :=
        if who = 0 ∧ (s.heap p).parent ≠ 0 then s.log (ForkEvent.call (s.heap p).parent)
        else if who ≠ 0 ∧ (s.heap p).child ≠ 0 then s.log (ForkEvent.call (s.heap p).child)
        else s
      resumeLoop who fuel (s1.heap p).prev { s1 with funcs := p }

/-- The function `__fork_handler`. -/
def __fork_handler (who : Int) (fuel : Nat) (s : State) : Option State :=
  if s.funcs = 0 then some s
  else if who < 0 then prepareLoop fuel s.funcs (s.log ForkEvent.lock)
  else (resumeLoop who fuel s.funcs s).map (fun s1 => s1.log ForkEvent.unlock)

/-- The function `pthread_atfork`.  `new` is the pointer that `malloc` returns
(0 when it fails); `malloc` is not part of the source. -/
def pthread_atfork (new prepare parent child : Nat) (s : State) : Int × State :=
  if new = 0 then (-1, s)
  else
    let s1 := s.log ForkEvent.lock
    let heap1 : Nat → atfork_funcs := fun x =>
      if x = new then
        { prepare := prepare, parent := parent, child := child, prev := 0, next := s1.funcs }
      else s1.heap x
    let heap2 : Nat → atfork_funcs :=
      if s1.funcs ≠ 0 then
        fun x => if x = s1.funcs then { heap1 s1.funcs with prev := new } else heap1 x
      else heap1
    (0, ({ funcs := new, heap := heap2, trace := s1.trace } : State).log ForkEvent.unlock)

/-- One call of `pthread_atfork`: the pointer `malloc` returns for it and the
three callbacks. -/
structure Registration where
  addr : Nat
  prepare : Nat
  parent : Nat
  child : Nat
  deriving DecidableEq, Repr

/-- A sequence of calls of `pthread_atfork`, in order: the values returned and
the state after the last. -/
def registerAll : List Registration → State → List Int × State
  | [], s => ([], s)
  | r :: rest, s =>
    ((pthread_atfork r.addr r.prepare r.parent r.child s).1 ::
        (registerAll rest (pthread_atfork r.addr r.prepare r.parent r.child s).2).1,
      (registerAll rest (pthread_atfork r.addr r.prepare r.parent r.child s).2).2)

/-- The events of calling the callbacks `fs` in order, null pointers left out. -/
def calls (fs : List Nat) : List ForkEvent := (fs.filter (fun f => f ≠ 0)).map ForkEvent.call

/-- Address of the first record of a list of registrations (0 for none). -/
def headAddr : List Registration → Nat
  | [] => 0
  | r :: _ => r.addr

/-- The records of `l` are on the heap with their callbacks, and following
`link` from each leads to the next one of `l`, and from the last to null. -/
def Linked (link : atfork_funcs → Nat) (heap : Nat → atfork_funcs) : List Registration → Prop
  | [] => True
  | r :: t =>
    r.addr ≠ 0 ∧ (heap r.addr).prepare = r.prepare ∧ (heap r.addr).parent = r.parent ∧
      (heap r.addr).child = r.child ∧ link (heap r.addr) = headAddr t ∧ Linked link heap t

/-- A state before any registration: `funcs` is null, as a static is. -/
def State.start : State :=
  { funcs := 0
    heap := fun _ => { prepare := 0, parent := 0, child := 0, prev := 0, next := 0 }
    trace := [] }

/-- Two registrations: the first with all three callbacks, the second without a
parent callback. -/
def twoHandlers : List Registration :=
  [{ addr := 16, prepare := 1, parent := 2, child := 3 },
   { addr := 32, prepare := 4, parent := 0, child := 6 }]

/-- The state of the list after the registrations `R` (oldest first): `funcs`
points at the newest record, `next` leads from each record to the one registered
before it and `prev` to the one registered after it. -/
def Registered (R : List Registration) (s : State) : Prop :=
  s.funcs = headAddr R.reverse ∧ Linked (fun n => n.next) s.heap R.reverse ∧
    Linked (fun n => n.prev) s.heap R

end Atfork

namespace I2cSlave

/-! ## Bits of a command word -/

theorem testBit_false_of_lt_of_le {x k i : Nat} (hx : x < 2 ^ k) (hk : k ≤ i) :
    x.testBit i = false :=
  Nat.testBit_lt_two_pow (lt_of_lt_of_le hx (Nat.pow_le_pow_right (by decide) hk))

theorem testBit_shl_of_lt {x k s i : Nat} (hx : x < 2 ^ k) (hi : s + k ≤ i) :
    (x <<< s).testBit i = false := by
  rw [Nat.testBit_shiftLeft]
  have : x.testBit (i - s) = false := testBit_false_of_lt_of_le hx (by omega)
  simp [this]

theorem testBit_shl_of_gt {x s i : Nat} (hi : i < s) : (x <<< s).testBit i = false := by
  rw [Nat.testBit_shiftLeft]
  have : ¬ i ≥ s := by omega
  simp [this]

theorem testBit_one_shl (s i : Nat) : ((1 : Nat) <<< s).testBit i = decide (s = i) := by
  rw [Nat.one_shiftLeft, Nat.testBit_two_pow]

theorem testBit_flag_shl {r s : Nat} (hr : r ≤ 1) : (r <<< s).testBit s = decide (r = 1) := by
  rw [Nat.testBit_shiftLeft]
  have h : r = 0 ∨ r = 1 := by omega
  rcases h with h | h <;> simp [h]

theorem restartBit_write_word (C : Consts) (hC : C.cmdFieldsOk) {restart byte stop : Nat}
    (hr : restart ≤ 1) (hb : byte < 256) (hs : stop = 0 ∨ stop = 1 <<< C.DATA_CMD_STOP) :
    restartBit C (u32 (restart <<< C.DATA_CMD_RESTART ||| byte <<< C.DATA_CMD_DAT |||
      C.DATA_CMD_CMD_WRITE <<< C.DATA_CMD_CMD ||| stop)) = decide (restart = 1) := by
  obtain ⟨h1, h2, h3, h4, h5, h6⟩ := hC
  have hb8 : byte < 2 ^ 8 := hb
  have hw1 : C.DATA_CMD_CMD_WRITE < 2 ^ 1 := h5
  have hst : stop.testBit C.DATA_CMD_RESTART = false := by
    rcases hs with hs | hs
    · simp [hs]
    · rw [hs, testBit_one_shl]; simp; omega
  unfold restartBit u32
  rw [Nat.testBit_mod_two_pow, Nat.testBit_or, Nat.testBit_or, Nat.testBit_or,
    testBit_flag_shl hr, testBit_shl_of_lt hb8 (by omega), testBit_shl_of_lt hw1 (by omega), hst]
  simp [h4]

theorem restartBit_read_word (C : Consts) (hC : C.cmdFieldsOk) {restart stop : Nat}
    (hr : restart ≤ 1) (hs : stop = 0 ∨ stop = 1 <<< C.DATA_CMD_STOP) :
    restartBit C (u32 (restart <<< C.DATA_CMD_RESTART |||
      C.DATA_CMD_CMD_READ <<< C.DATA_CMD_CMD ||| stop)) = decide (restart = 1) := by
  obtain ⟨h1, h2, h3, h4, h5, h6⟩ := hC
  have hw1 : C.DATA_CMD_CMD_READ < 2 ^ 1 := h6
  have hst : stop.testBit C.DATA_CMD_RESTART = false := by
    rcases hs with hs | hs
    · simp [hs]
    · rw [hs, testBit_one_shl]; simp; omega
  unfold restartBit u32
  rw [Nat.testBit_mod_two_pow, Nat.testBit_or, Nat.testBit_or,
    testBit_flag_shl hr, testBit_shl_of_lt hw1 (by omega), hst]
  simp [h4]

/-! ## What each operation adds to the command words -/

theorem cmdWords_append (a b : List Event) : cmdWords (a ++ b) = cmdWords a ++ cmdWords b := by
  simp [cmdWords]

theorem cmdWords_spin (r : Reg) (stay : Nat → Bool) (hw : List Nat) :
    cmdWords (spin r stay hw).1 = [] := by
  induction hw with
  | nil => rfl
  | cons v hw ih =>
    unfold spin
    split
    · simpa [cmdWords, cmdWord] using ih
    · simp [cmdWords, cmdWord]

theorem cmdWords_drain (r1 r2 : Reg) (test : Nat → Bool) (hw : List Nat) :
    cmdWords (drain r1 r2 test hw).1 = [] := by
  induction hw using drain.induct r1 r2 test with
  | case1 => rfl
  | case2 v => simp [drain, cmdWords, cmdWord]
  | case3 v d hw h ih => simpa [drain, h, cmdWords, cmdWord] using ih
  | case4 v d hw h => simp [drain, h, cmdWords, cmdWord]

theorem cmdWords_spin2 (busy empty : Nat → Bool) (hw : List Nat) :
    cmdWords (spin2 busy empty hw).1 = [] := by
  induction hw using spin2.induct busy empty with
  | case1 => rfl
  | case2 a => simp [spin2, cmdWords, cmdWord]
  | case3 a b hw h ih => simpa [spin2, h, cmdWords, cmdWord] using ih
  | case4 a b hw h1 h2 => simp [spin2, h1, h2, cmdWords, cmdWord]
  | case5 a b hw h1 h2 ih => simpa [spin2, h1, h2, cmdWords, cmdWord] using ih

theorem loop_of_stalled {m : Machine} (h : m.stalled = true)
    (f : List Nat → List Event × Option (List Nat)) : m.loop f = m := by
  simp [Machine.loop, h]

theorem write_of_stalled {m : Machine} (h : m.stalled = true) (r : Reg) (v : Nat) :
    m.write r v = m := by
  simp [Machine.write, h]

theorem store_of_stalled {m : Machine} (h : m.stalled = true) (a v : Nat) :
    m.store a v = m := by
  simp [Machine.store, h]

theorem log_of_stalled {m : Machine} (h : m.stalled = true) (e : Event) : m.log e = m := by
  simp [Machine.log, h]

theorem read_of_stalled {m : Machine} (h : m.stalled = true) (r : Reg) : (m.read r).2 = m := by
  cases m with
  | mk hw trace mem stalled =>
    simp only at h
    subst h
    rfl

theorem RMWREG32_of_stalled {m : Machine} (h : m.stalled = true) (r : Reg) (a b c : Nat) :
    m.RMWREG32 r a b c = m := by
  unfold Machine.RMWREG32
  simp only [read_of_stalled h]
  exact write_of_stalled h _ _

theorem cmdWords_loop (m : Machine) (f : List Nat → List Event × Option (List Nat))
    (hf : ∀ hw, cmdWords (f hw).1 = []) : cmdWords (m.loop f).trace = cmdWords m.trace := by
  unfold Machine.loop
  split
  · rfl
  · split <;> simp [cmdWords_append, hf]

theorem cmdWords_read (m : Machine) (r : Reg) :
    cmdWords (m.read r).2.trace = cmdWords m.trace := by
  unfold Machine.read
  split
  · simp [cmdWords_append, cmdWords, cmdWord]
  · rfl

theorem cmdWords_store (m : Machine) (a v : Nat) :
    cmdWords (m.store a v).trace = cmdWords m.trace := by
  unfold Machine.store
  split <;> rfl

theorem cmdWords_write_data {m : Machine} (h : m.stalled = false) (v : Nat) :
    cmdWords (m.write Reg.data_cmd v).trace = cmdWords m.trace ++ [u32 v] := by
  simp [Machine.write, h, cmdWords, cmdWord]

theorem cmdWords_write_other (m : Machine) {r : Reg} (hr : r ≠ Reg.data_cmd) (v : Nat) :
    cmdWords (m.write r v).trace = cmdWords m.trace := by
  unfold Machine.write
  split
  · rfl
  · cases r <;> simp_all [cmdWords, cmdWord]

theorem cmdWords_RMWREG32 (m : Machine) {r : Reg} (hr : r ≠ Reg.data_cmd) (a b c : Nat) :
    cmdWords (m.RMWREG32 r a b c).trace = cmdWords m.trace := by
  unfold Machine.RMWREG32
  simp only [cmdWords_write_other _ hr, cmdWords_read]

theorem cmdWords_lock (m : Machine) : cmdWords (m.log Event.lock).trace = cmdWords m.trace := by
  unfold Machine.log
  split <;> simp [cmdWords, cmdWord]

theorem cmdWords_unlock (m : Machine) :
    cmdWords (m.log Event.unlock).trace = cmdWords m.trace := by
  unfold Machine.log
  split <;> simp [cmdWords, cmdWord]

/-! ## The segment loop and the restart bit -/

theorem byteBody_of_stalled (C : Consts) (read : Bool) (n restart buf : Nat) {m : Machine}
    (h : m.stalled = true) : byteBody C read n restart buf m = m := by
  unfold byteBody
  cases read
  · simp only [Bool.false_eq_true, if_false, loop_of_stalled h, write_of_stalled h]
  · simp only [if_true, loop_of_stalled h, write_of_stalled h, read_of_stalled h,
      store_of_stalled h]

theorem byteLoop_of_stalled (C : Consts) (read : Bool) (n restart buf : Nat) {m : Machine}
    (h : m.stalled = true) : byteLoop C read n restart buf m = m := by
  induction n generalizing restart buf with
  | zero => rfl
  | succ n ih =>
    unfold byteLoop
    rw [byteBody_of_stalled C _ _ _ _ h]
    exact ih 0 (buf + 1)

theorem segmentLoop_of_stalled (C : Consts) (last : Bool) (segs : List Segment) {m : Machine}
    (h : m.stalled = true) : segmentLoop C last segs m = m := by
  induction segs generalizing last with
  | nil => rfl
  | cons s rest ih =>
    unfold segmentLoop
    simp only [byteLoop_of_stalled C _ _ _ _ h]
    exact ih s.read

/-- One iteration writes at most one command word; when it writes none the
machine is stalled, and the word it writes has the restart bit that the local
`restart` asks for. -/
theorem byteBody_restart (C : Consts) (hC : C.cmdFieldsOk) (read : Bool) (n restart buf : Nat)
    (m : Machine) (hr : restart ≤ 1) :
    (cmdWords (byteBody C read n restart buf m).trace = cmdWords m.trace ∧
        (byteBody C read n restart buf m).stalled = true) ∨
      ∃ w, cmdWords (byteBody C read n restart buf m).trace = cmdWords m.trace ++ [w] ∧
        restartBit C w = decide (restart = 1) := by
  have hstop : (if n = 0 then 1 <<< C.DATA_CMD_STOP else 0) = 0 ∨
      (if n = 0 then 1 <<< C.DATA_CMD_STOP else 0) = 1 <<< C.DATA_CMD_STOP := by
    split <;> simp
  cases hm : m.stalled
  · cases read
    · simp only [byteBody, Bool.false_eq_true, if_false]
      cases hm1 : (m.loop (spin Reg.i2c_sta (fun v => !staBit C.I2C_STA_TFNF v))).stalled
      · right
        refine ⟨?w1, ?h1, ?h2⟩
        case h1 =>
          rw [cmdWords_write_data hm1, cmdWords_loop _ _ (cmdWords_spin _ _)]
          exact rfl
        case h2 => exact restartBit_write_word C hC hr (Nat.mod_lt _ (by decide)) hstop
      · left
        rw [write_of_stalled hm1, cmdWords_loop _ _ (cmdWords_spin _ _)]
        exact ⟨rfl, hm1⟩
    · right
      simp only [byteBody, if_true]
      refine ⟨?w2, ?h3, ?h4⟩
      case h3 =>
        rw [cmdWords_store, cmdWords_read, cmdWords_loop _ _ (cmdWords_spin _ _),
          cmdWords_write_data hm]
        exact rfl
      case h4 => exact restartBit_read_word C hC hr hstop
  · left
    rw [byteBody_of_stalled C _ _ _ _ hm]
    exact ⟨rfl, hm⟩

theorem range_succ_map_first (n : Nat) (p : Prop) [Decidable p] :
    (List.range (n + 1)).map (fun j => decide (j = 0 ∧ p)) =
      decide p :: (List.range n).map (fun j => decide (j = 0 ∧ (0 : Nat) = 1)) := by
  rw [List.range_succ_eq_map, List.map_cons, List.map_map]
  congr 1
  · simp
  · apply List.map_congr_left
    intro j _
    simp

theorem byteLoop_restart (C : Consts) (hC : C.cmdFieldsOk) (read : Bool) (n : Nat) :
    ∀ (restart buf : Nat) (m : Machine), restart ≤ 1 →
      ∃ ws, cmdWords (byteLoop C read n restart buf m).trace = cmdWords m.trace ++ ws ∧
        ws.map (restartBit C) <+: (List.range n).map (fun j => decide (j = 0 ∧ restart = 1)) ∧
        ((byteLoop C read n restart buf m).stalled = false → ws.length = n) := by
  induction n with
  | zero =>
    intro restart buf m _
    exact ⟨[], by simp [byteLoop], by simp, fun _ => rfl⟩
  | succ n ih =>
    intro restart buf m hr
    unfold byteLoop
    rcases byteBody_restart C hC read n restart buf m hr with ⟨h1, h2⟩ | ⟨w, h1, h2⟩
    · refine ⟨[], ?_, by simp, ?_⟩
      · rw [byteLoop_of_stalled C _ _ _ _ h2, h1]; simp
      · rw [byteLoop_of_stalled C _ _ _ _ h2, h2]; simp
    · obtain ⟨ws, h3, h4, h5⟩ := ih 0 (buf + 1) (byteBody C read n restart buf m) (by omega)
      refine ⟨w :: ws, ?_, ?_, ?_⟩
      · rw [h3, h1]; simp
      · rw [range_succ_map_first, List.map_cons, h2]
        exact (List.prefix_cons_inj _).mpr h4
      · intro hs
        simp [h5 hs]

theorem stalled_of_byteLoop (C : Consts) (read : Bool) (n restart buf : Nat) (m : Machine)
    (h : (byteLoop C read n restart buf m).stalled = false) : m.stalled = false := by
  cases hm : m.stalled
  · rfl
  · rw [byteLoop_of_stalled C _ _ _ _ hm, hm] at h; exact h

theorem segmentLoop_restart (C : Consts) (hC : C.cmdFieldsOk) (segs : List Segment) :
    ∀ (last : Bool) (prev : Option Bool) (m : Machine),
      (prev = none → last = initLastRead segs) → (∀ b, prev = some b → last = b) →
      ∃ ws, cmdWords (segmentLoop C last segs m).trace = cmdWords m.trace ++ ws ∧
        ws.map (restartBit C) <+: restartPlacement prev segs ∧
        ((segmentLoop C last segs m).stalled = false →
          ws.map (restartBit C) = restartPlacement prev segs) := by
  induction segs with
  | nil =>
    intro last prev m _ _
    exact ⟨[], by simp [segmentLoop], by simp [restartPlacement], fun _ => by simp [restartPlacement]⟩
  | cons s rest ih =>
    intro last prev m hnone hsome
    unfold segmentLoop restartPlacement
    have hflag : ((if last = s.read then 1 else 0 : Nat) = 1) ↔
        (prev = none ∨ prev = some s.read) := by
      cases prev with
      | none =>
        have : last = s.read := hnone rfl
        simp [this]
      | some b =>
        have : last = b := hsome b rfl
        subst this
        by_cases hb : last = s.read <;> simp [hb]
    have hmap : (List.range (loopCount s.len)).map
          (fun j => decide (j = 0 ∧ (prev = none ∨ prev = some s.read))) =
        (List.range (loopCount s.len)).map
          (fun j => decide (j = 0 ∧ (if last = s.read then 1 else 0 : Nat) = 1)) := by
      apply List.map_congr_left
      intro j _
      simp only [hflag]
    obtain ⟨ws1, h1, h2, h3⟩ := byteLoop_restart C hC s.read (loopCount s.len)
      (if last = s.read then 1 else 0) s.buf m (by split <;> omega)
    obtain ⟨ws2, h4, h5, h6⟩ := ih s.read (some s.read)
      (byteLoop C s.read (loopCount s.len) (if last = s.read then 1 else 0) s.buf m)
      (by intro h; cases h) (by intro b hb; cases hb; rfl)
    rw [hmap]
    cases hst : (byteLoop C s.read (loopCount s.len) (if last = s.read then 1 else 0) s.buf m).stalled
    · have hlen := h3 hst
      have heq : ws1.map (restartBit C) = (List.range (loopCount s.len)).map
          (fun j => decide (j = 0 ∧ (if last = s.read then 1 else 0 : Nat) = 1)) := by
        apply List.IsPrefix.eq_of_length h2
        simp [hlen]
      refine ⟨ws1 ++ ws2, ?_, ?_, ?_⟩
      · rw [h4, h1, List.append_assoc]
      · rw [List.map_append, heq]
        exact (List.prefix_append_right_inj _).mpr h5
      · intro hs
        rw [List.map_append, heq, h6 hs]
    · refine ⟨ws1, ?_, ?_, ?_⟩
      · rw [segmentLoop_of_stalled C _ _ hst, h1]
      · exact h2.trans (List.prefix_append _ _)
      · intro hs
        rw [segmentLoop_of_stalled C _ _ hst, hst] at hs
        cases hs

theorem running_before (f : Machine → Machine) (hf : ∀ m : Machine, m.stalled = true → f m = m)
    {m : Machine} (h : (f m).stalled = false) : m.stalled = false := by
  cases hm : m.stalled
  · rfl
  · rw [hf m hm, hm] at h; exact h

/-- The command words of a whole transfer body are those of its segment loop. -/
theorem transferBody_words (C : Consts) (dev : SlaveDev) (a b : Nat) (segs : List Segment)
    (m : Machine) :
    ∃ m1 : Machine, cmdWords m1.trace = cmdWords m.trace ∧
      cmdWords (transferBody C dev a b segs m).trace =
        cmdWords (segmentLoop C (initLastRead segs) segs m1).trace ∧
      ((transferBody C dev a b segs m).stalled = false →
        (segmentLoop C (initLastRead segs) segs m1).stalled = false) := by
  refine ⟨((((m.log Event.lock).loop (spin Reg.i2c_sta (notIdle C))).RMWREG32 Reg.ctl
      C.CTL_ADDRESSING_MODE 1 a).write Reg.tar_add
        ((b <<< C.TAR_ADD_WIDTH) ||| (dev.chip_address <<< C.TAR_ADD_IC_TAR))).RMWREG32
          Reg.i2c_en C.I2C_EN_ENABLE 1 1, ?_, ?_, ?_⟩
  · rw [cmdWords_RMWREG32 _ (by decide), cmdWords_write_other _ (by decide),
      cmdWords_RMWREG32 _ (by decide), cmdWords_loop _ _ (cmdWords_spin _ _), cmdWords_lock]
  · unfold transferBody
    simp only []
    rw [cmdWords_unlock, cmdWords_loop _ _ (cmdWords_drain _ _ _),
      cmdWords_loop _ _ (cmdWords_spin2 _ _), cmdWords_loop _ _ (cmdWords_spin _ _),
      cmdWords_loop _ _ (cmdWords_drain _ _ _)]
  · intro h
    unfold transferBody at h
    simp only [] at h
    have h1 := running_before (fun m => m.log Event.unlock)
      (fun m hm => log_of_stalled hm _) h
    have h2 := running_before (fun m => m.loop _) (fun m hm => loop_of_stalled hm _) h1
    have h3 := running_before (fun m => m.loop _) (fun m hm => loop_of_stalled hm _) h2
    have h4 := running_before (fun m => m.loop _) (fun m hm => loop_of_stalled hm _) h3
    exact running_before (fun m => m.loop _) (fun m hm => loop_of_stalled hm _) h4

theorem transferBody_restart (C : Consts) (hC : C.cmdFieldsOk) (dev : SlaveDev) (a b : Nat)
    (segs : List Segment) (hw : List Nat) (mem : Nat → Nat) :
    (cmdWords (transferBody C dev a b segs (Machine.init hw mem)).trace).map (restartBit C) <+:
        restartPlacement none segs ∧
      ((transferBody C dev a b segs (Machine.init hw mem)).stalled = false →
        (cmdWords (transferBody C dev a b segs (Machine.init hw mem)).trace).map (restartBit C) =
          restartPlacement none segs) := by
  obtain ⟨m1, h1, h2, h3⟩ := transferBody_words C dev a b segs (Machine.init hw mem)
  obtain ⟨ws, h4, h5, h6⟩ := segmentLoop_restart C hC segs (initLastRead segs) none m1
    (fun _ => rfl) (by intro b hb; cases hb)
  have hnil : cmdWords m1.trace = [] := by rw [h1]; rfl
  rw [h2, h4, hnil, List.nil_append]
  exact ⟨h5, fun h => h6 (h3 h)⟩

/-! ## The first walk -/

theorem pass1_of_reach (C : Consts) (L : IoctlLayout) (mem : Nat → Nat) (k : Nat) :
    ∀ (s s1 : Walk), pass1Reach C L mem k s = some s1 →
      ∀ fuel, pass1 C L mem (k + fuel) s = pass1 C L mem fuel s1 := by
  induction k with
  | zero =>
    intro s s1 h fuel
    simp only [pass1Reach, Option.some.injEq] at h
    subst h
    simp
  | succ k ih =>
    intro s s1 h fuel
    have hk : k + 1 + fuel = (k + fuel) + 1 := by omega
    rw [hk]
    unfold pass1Reach at h
    split at h
    · cases h
    · rename_i hsz
      split at h
      · cases h
      · rename_i s2 hstep
        simp only [pass1, hsz, if_false, hstep]
        exact ih s2 s1 h fuel

theorem pass1Step_truncated (C : Consts) (L : IoctlLayout) (mem : Nat → Nat) (s : Walk)
    (h : s.size < L.base_size) : pass1Step C L mem s = Except.error C.ERR_INVALID_ARGS := by
  simp [pass1Step, h]

theorem sz_of_nonneg_lt {x : Int} (h0 : 0 ≤ x) (h1 : x < 2 ^ 64) : (sz x : Int) = x := by
  unfold sz
  rw [Int.emod_eq_of_lt h0 h1]
  exact Int.toNat_of_nonneg h0

theorem wrapInt_lt (x : Int) : wrapInt x < 2 ^ 31 := by
  unfold wrapInt
  have := Int.emod_lt_of_pos (x + 2 ^ 31) (show (0 : Int) < 2 ^ 32 by norm_num)
  omega

theorem wrapInt_ge (x : Int) : -(2 ^ 31) ≤ wrapInt x := by
  unfold wrapInt
  have := Int.emod_nonneg (x + 2 ^ 31) (show (2 : Int) ^ 32 ≠ 0 by norm_num)
  omega

theorem pass1Step_overrun (C : Consts) (L : IoctlLayout) (mem : Nat → Nat) (s : Walk)
    (hL : L.base_size < 2 ^ 32) (hw : L.get_read mem s.segment_addr = false)
    (h : (s.size : Int) < L.base_size + wrapInt (L.get_len mem s.segment_addr)) :
    pass1Step C L mem s = Except.error C.ERR_INVALID_ARGS := by
  unfold pass1Step
  simp only [hw, Bool.false_eq_true, if_false]
  split
  · rfl
  · rename_i hsz
    have hlt := wrapInt_lt (L.get_len mem s.segment_addr)
    have hge := wrapInt_ge (L.get_len mem s.segment_addr)
    have hc : (sz ((L.base_size : Int) + wrapInt (L.get_len mem s.segment_addr)) : Int) =
        L.base_size + wrapInt (L.get_len mem s.segment_addr) := by
      apply sz_of_nonneg_lt
      · omega
      · have : (L.base_size : Int) < 2 ^ 32 := by exact_mod_cast hL
        omega
    have : sz ((L.base_size : Int) + wrapInt (L.get_len mem s.segment_addr)) > s.size := by
      have : (s.size : Int) < sz ((L.base_size : Int) + wrapInt (L.get_len mem s.segment_addr)) := by
        rw [hc]; exact h
      exact_mod_cast this
    rw [if_pos this]

theorem pass1Step_read (C : Consts) (L : IoctlLayout) (mem : Nat → Nat) (s : Walk)
    (hsz : L.base_size ≤ s.size) (hr : L.get_read mem s.segment_addr = true) :
    pass1Step C L mem s = Except.ok
      { size := s.size - L.base_size
        read_len := sz (s.read_len + wrapInt (L.get_len mem s.segment_addr))
        write_len := s.write_len
        segment_count := s.segment_count + 1
        segment_addr := sz (s.segment_addr + L.base_size) } := by
  unfold pass1Step
  have h1 : ¬ s.size < L.base_size := by omega
  have h2 : ¬ L.base_size > s.size := by omega
  simp only [hr, if_true, h1, h2, if_false]

theorem ioctl_of_pass1_error (C : Consts) (L : IoctlLayout) (dev : SlaveDev)
    (in_buf in_len out_buf out_len : Nat) (alloc_ok : Bool) (fuel : Nat) (m : Machine) (e : Int)
    (h : pass1 C L m.mem fuel (walkInit in_buf in_len) = some (Except.error e)) :
    intel_broadwell_serialio_i2c_slave_transfer_ioctl C L dev in_buf in_len out_buf out_len
      alloc_ok fuel m = some { status := some e, segments := none, m := m } := by
  unfold intel_broadwell_serialio_i2c_slave_transfer_ioctl
  rw [h]

theorem pass1_fails_at (C : Consts) (L : IoctlLayout) (mem : Nat → Nat) (k : Nat) (s0 s : Walk)
    (hreach : pass1Reach C L mem k s0 = some s) (hne : s.size ≠ 0)
    (hstep : pass1Step C L mem s = Except.error C.ERR_INVALID_ARGS) (fuel : Nat) (hf : k < fuel) :
    pass1 C L mem fuel s0 = some (Except.error C.ERR_INVALID_ARGS) := by
  obtain ⟨f, rfl⟩ : ∃ f, fuel = k + (f + 1) := ⟨fuel - k - 1, by omega⟩
  rw [pass1_of_reach C L mem k s0 s hreach]
  unfold pass1
  rw [if_neg hne, hstep]

/-! ## The second walk repeats the first -/

theorem sz_natCast {n : Nat} (h : n < 2 ^ 64) : sz (n : Int) = n := by
  have h1 : ((sz (n : Int) : Nat) : Int) = (n : Int) :=
    sz_of_nonneg_lt (Int.natCast_nonneg n) (by exact_mod_cast h)
  exact_mod_cast h1

theorem sz_sub {a b : Nat} (hb : b ≤ a) (ha : a < 2 ^ 64) : sz ((a : Int) - (b : Int)) = a - b := by
  have h : ((a : Int) - (b : Int)) = ((a - b : Nat) : Int) := by omega
  rw [h]
  exact sz_natCast (by omega)

/-- What a successful iteration of the first walk tells about the record. -/
theorem pass1Step_ok (C : Consts) (L : IoctlLayout) (mem : Nat → Nat) (s s1 : Walk)
    (h : pass1Step C L mem s = Except.ok s1) :
    L.base_size ≤ s.size ∧
      (if L.get_read mem s.segment_addr then L.base_size
        else sz (L.base_size + wrapInt (L.get_len mem s.segment_addr))) ≤ s.size ∧
      s1 = { size := s.size - (if L.get_read mem s.segment_addr then L.base_size
                else sz (L.base_size + wrapInt (L.get_len mem s.segment_addr)))
             read_len := if L.get_read mem s.segment_addr then
                sz (s.read_len + wrapInt (L.get_len mem s.segment_addr)) else s.read_len
             write_len := if L.get_read mem s.segment_addr then s.write_len
                else sz (s.write_len + wrapInt (L.get_len mem s.segment_addr))
             segment_count := s.segment_count + 1
             segment_addr := sz (s.segment_addr +
                (if L.get_read mem s.segment_addr then L.base_size
                  else sz (L.base_size + wrapInt (L.get_len mem s.segment_addr)))) } := by
  cases hr : L.get_read mem s.segment_addr
  · simp only [pass1Step, hr, Bool.false_eq_true, if_false] at h
    split at h
    · cases h
    · split at h
      · cases h
      · simp only [Except.ok.injEq] at h
        subst h
        refine ⟨by omega, by simp only [Bool.false_eq_true, if_false]; omega, ?_⟩
        simp only [Bool.false_eq_true, if_false]
  · simp only [pass1Step, hr, if_true] at h
    split at h
    · cases h
    · simp only [Except.ok.injEq] at h
      subst h
      refine ⟨by omega, by simp only [if_true]; omega, ?_⟩
      simp only [if_true]

theorem pass2Step_of_pass1Step (C : Consts) (L : IoctlLayout) (mem : Nat → Nat) (s s1 : Walk)
    (h : pass1Step C L mem s = Except.ok s1) (hsz : s.size < 2 ^ 64) (cur : Nat)
    (segs : List Segment) :
    pass2Step L mem (Build.mk s.size s.segment_addr cur segs) =
      Build.mk s1.size s1.segment_addr
        (if L.get_read mem s.segment_addr then
          sz (cur + wrapInt (L.get_len mem s.segment_addr)) else cur)
        (segs ++ segmentsOf L.base_size cur
          [Record.mk s.segment_addr (L.get_read mem s.segment_addr)
            (wrapInt (L.get_len mem s.segment_addr))]) := by
  obtain ⟨h1, h2, rfl⟩ := pass1Step_ok C L mem s s1 h
  unfold pass2Step
  cases hr : L.get_read mem s.segment_addr
  · simp only [hr, Bool.false_eq_true, if_false] at h2 ⊢
    simp only [segmentsOf, Bool.false_eq_true, if_false]
    rw [sz_sub h2 hsz]
  · simp only [if_true, segmentsOf]
    rw [sz_sub h1 hsz]

theorem segmentsOf_cons_append (base cur : Nat) (r : Record) (rs : List Record) :
    segmentsOf base cur (r :: rs) =
      segmentsOf base cur [r] ++ segmentsOf base (if r.read then sz (cur + r.len) else cur) rs := by
  cases hr : r.read <;> simp [segmentsOf, hr]

theorem pass2_mirrors (C : Consts) (L : IoctlLayout) (mem : Nat → Nat) (fuel : Nat) :
    ∀ (s w : Walk), pass1 C L mem fuel s = some (Except.ok w) → s.size < 2 ^ 64 →
      ∀ (cur : Nat) (segs : List Segment),
        ∃ b, pass2 L mem fuel (Build.mk s.size s.segment_addr cur segs) = some b ∧ b.size = 0 ∧
          b.segments = segs ++ segmentsOf L.base_size cur (pass1Records C L mem fuel s) := by
  induction fuel with
  | zero =>
    intro s w h
    simp [pass1] at h
  | succ fuel ih =>
    intro s w h hsz cur segs
    by_cases h0 : s.size = 0
    · refine ⟨Build.mk s.size s.segment_addr cur segs, ?_, h0, ?_⟩
      · simp only [pass2, h0, if_true]
      · simp [pass1Records, h0, segmentsOf]
    · simp only [pass1, h0, if_false] at h
      cases hstep : pass1Step C L mem s with
      | error e => rw [hstep] at h; simp at h
      | ok s1 =>
        rw [hstep] at h
        simp only at h
        have hs1 : s1.size < 2 ^ 64 := by
          obtain ⟨_, _, rfl⟩ := pass1Step_ok C L mem s s1 hstep
          simp only
          omega
        obtain ⟨b, hb1, hb2, hb3⟩ := ih s1 w h hs1
          (if L.get_read mem s.segment_addr then
            sz (cur + wrapInt (L.get_len mem s.segment_addr)) else cur)
          (segs ++ segmentsOf L.base_size cur
            [Record.mk s.segment_addr (L.get_read mem s.segment_addr)
              (wrapInt (L.get_len mem s.segment_addr))])
        refine ⟨b, ?_, hb2, ?_⟩
        · simp only [pass2, h0, if_false]
          rw [pass2Step_of_pass1Step C L mem s s1 hstep hsz]
          exact hb1
        · rw [hb3]
          simp only [pass1Records, h0, if_false, hstep]
          rw [List.append_assoc]
          congr 1
          exact (segmentsOf_cons_append L.base_size cur _ _).symm

/-! ## Facts about the records of an accepted input -/

theorem sz_add_nat {a b : Nat} (h : a + b < 2 ^ 64) : sz ((a : Int) + (b : Int)) = a + b := by
  have h1 : ((a : Int) + (b : Int)) = ((a + b : Nat) : Int) := by push_cast; rfl
  rw [h1]
  exact sz_natCast h

theorem sz_emod (x : Int) : ((sz x : Nat) : Int) = x % 2 ^ 64 := by
  unfold sz
  exact Int.toNat_of_nonneg (Int.emod_nonneg x (by norm_num))

theorem sz_sz_add (a : Int) (x : Int) : sz ((sz a : Int) + x) = sz (a + x) := by
  unfold sz
  rw [Int.toNat_of_nonneg (Int.emod_nonneg a (by norm_num)), Int.emod_add_emod]

/-- The bytes a record takes from the input. -/
theorem pass1Records_bounds (C : Consts) (L : IoctlLayout) (mem : Nat → Nat) (E : Nat)
    (hE : E < 2 ^ 64) (fuel : Nat) :
    ∀ s : Walk, s.segment_addr + s.size = E →
      ∀ r ∈ pass1Records C L mem fuel s, s.segment_addr ≤ r.start ∧
        r.start + (if r.read then L.base_size else sz (L.base_size + r.len)) ≤ E := by
  induction fuel with
  | zero => intro s _ r hr; simp [pass1Records] at hr
  | succ fuel ih =>
    intro s hs r hr
    by_cases h0 : s.size = 0
    · simp [pass1Records, h0] at hr
    · cases hstep : pass1Step C L mem s with
      | error e => simp [pass1Records, h0, hstep] at hr
      | ok s1 =>
        simp only [pass1Records, h0, if_false, hstep, List.mem_cons] at hr
        obtain ⟨h1, h2, h3⟩ := pass1Step_ok C L mem s s1 hstep
        rcases hr with hr | hr
        · subst hr
          simp only
          exact ⟨le_refl _, by omega⟩
        · have haddr : s1.segment_addr = s.segment_addr +
              (if L.get_read mem s.segment_addr then L.base_size
                else sz (L.base_size + wrapInt (L.get_len mem s.segment_addr))) := by
            rw [h3]
            simp only
            exact sz_add_nat (by omega)
          have hsize : s1.size = s.size -
              (if L.get_read mem s.segment_addr then L.base_size
                else sz (L.base_size + wrapInt (L.get_len mem s.segment_addr))) := by
            rw [h3]
          obtain ⟨h4, h5⟩ := ih s1 (by omega) r hr
          exact ⟨by omega, h5⟩

theorem declaredTotal_cons (read : Bool) (r : Record) (rs : List Record) :
    declaredTotal read (r :: rs) =
      (if r.read = read then r.len else 0) + declaredTotal read rs := by
  unfold declaredTotal
  by_cases h : r.read = read
  · simp [List.filter_cons, h]
  · have : (r.read == read) = false := by simpa using h
    simp [List.filter_cons, h, this]

theorem sz_lt (x : Int) : sz x < 2 ^ 64 := by
  have h : ((sz x : Nat) : Int) < 2 ^ 64 := by
    rw [sz_emod]
    exact Int.emod_lt_of_pos x (by norm_num)
  exact_mod_cast h

/-- The totals and the count that the first walk accumulates. -/
theorem pass1_totals (C : Consts) (L : IoctlLayout) (mem : Nat → Nat) (fuel : Nat) :
    ∀ s w : Walk, pass1 C L mem fuel s = some (Except.ok w) →
      s.write_len < 2 ^ 64 → s.read_len < 2 ^ 64 →
      w.segment_count = s.segment_count + (pass1Records C L mem fuel s).length ∧
      w.write_len = sz (s.write_len + declaredTotal false (pass1Records C L mem fuel s)) ∧
      w.read_len = sz (s.read_len + declaredTotal true (pass1Records C L mem fuel s)) ∧
      w.size = 0 := by
  induction fuel with
  | zero => intro s w h; simp [pass1] at h
  | succ fuel ih =>
    intro s w h hwl hrl
    by_cases h0 : s.size = 0
    · simp only [pass1, h0, if_true, Option.some.injEq, Except.ok.injEq] at h
      subst h
      simp only [pass1Records, h0, if_true, List.length_nil, Nat.add_zero, declaredTotal,
        List.filter_nil, List.map_nil, List.sum_nil, Int.add_zero, true_and, and_true]
      exact ⟨(sz_natCast hwl).symm, (sz_natCast hrl).symm⟩
    · simp only [pass1, h0, if_false] at h
      cases hstep : pass1Step C L mem s with
      | error e => rw [hstep] at h; simp at h
      | ok s1 =>
        rw [hstep] at h
        simp only at h
        obtain ⟨h1, h2, h3⟩ := pass1Step_ok C L mem s s1 hstep
        have hw1 : s1.write_len < 2 ^ 64 := by
          rw [h3]; simp only; split
          · exact hwl
          · exact sz_lt _
        have hr1 : s1.read_len < 2 ^ 64 := by
          rw [h3]; simp only; split
          · exact sz_lt _
          · exact hrl
        obtain ⟨i1, i2, i3, i4⟩ := ih s1 w h hw1 hr1
        simp only [pass1Records, h0, if_false, hstep, List.length_cons, declaredTotal_cons]
        refine ⟨?_, ?_, ?_, i4⟩
        · rw [i1, h3]; simp only; omega
        · rw [i2, h3]; simp only
          cases hr : L.get_read mem s.segment_addr
          · simp only [Bool.false_eq_true, if_false, if_true]
            rw [sz_sz_add, Int.add_assoc]
          · simp only [if_true, Bool.true_eq_false, if_false, Int.zero_add]
        · rw [i3, h3]; simp only
          cases hr : L.get_read mem s.segment_addr
          · simp only [Bool.false_eq_true, if_false, Int.zero_add]
          · simp only [if_true]
            rw [sz_sz_add, Int.add_assoc]

theorem pass1Records_len (C : Consts) (L : IoctlLayout) (mem : Nat → Nat) (fuel : Nat) :
    ∀ s : Walk, ∀ r ∈ pass1Records C L mem fuel s, r.len < 2 ^ 31 := by
  induction fuel with
  | zero => intro s r hr; simp [pass1Records] at hr
  | succ fuel ih =>
    intro s r hr
    by_cases h0 : s.size = 0
    · simp [pass1Records, h0] at hr
    · cases hstep : pass1Step C L mem s with
      | error e => simp [pass1Records, h0, hstep] at hr
      | ok s1 =>
        simp only [pass1Records, h0, if_false, hstep, List.mem_cons] at hr
        rcases hr with hr | hr
        · subst hr; exact wrapInt_lt _
        · exact ih s1 r hr

/-- Every segment of `segmentsOf` has the direction and length of its record,
and a write segment points at the payload of its record, inside the input. -/
theorem segmentsOf_forall₂ (base in_buf E : Nat) (hL : base < 2 ^ 32) (hE : E < 2 ^ 64)
    (rs : List Record) :
    (∀ r ∈ rs, in_buf ≤ r.start ∧ r.start + (if r.read then base else sz (base + r.len)) ≤ E) →
    (∀ r ∈ rs, 0 ≤ r.len ∧ r.len < 2 ^ 31) →
    ∀ cur : Nat, List.Forall₂
      (fun r sg => sg.read = r.read ∧ sg.len = r.len ∧
        (r.read = false → sg.buf = r.start + base ∧ in_buf ≤ r.start ∧
          ((r.start + base : Nat) : Int) + r.len ≤ (E : Nat)))
      rs (segmentsOf base cur rs) := by
  induction rs with
  | nil => intro _ _ cur; simp [segmentsOf]
  | cons r rs ih =>
    intro hb hl cur
    have hb0 := hb r (List.mem_cons_self _ _)
    have hl0 := hl r (List.mem_cons_self _ _)
    have hb1 : ∀ x ∈ rs, in_buf ≤ x.start ∧
        x.start + (if x.read then base else sz (base + x.len)) ≤ E :=
      fun x hx => hb x (List.mem_cons_of_mem _ hx)
    have hl1 : ∀ x ∈ rs, 0 ≤ x.len ∧ x.len < 2 ^ 31 :=
      fun x hx => hl x (List.mem_cons_of_mem _ hx)
    cases hr : r.read
    · simp only [segmentsOf, hr, Bool.false_eq_true, if_false]
      refine List.Forall₂.cons ⟨hr.symm, rfl, fun _ => ?_⟩ (ih hb1 hl1 cur)
      simp only [hr, Bool.false_eq_true, if_false] at hb0
      have hc : ((sz ((base : Int) + r.len) : Nat) : Int) = (base : Int) + r.len := by
        apply sz_of_nonneg_lt
        · omega
        · have : (base : Int) < 2 ^ 32 := by exact_mod_cast hL
          omega
      have hsum : ((r.start + base : Nat) : Int) + r.len ≤ (E : Nat) := by
        have : ((r.start + sz ((base : Int) + r.len) : Nat) : Int) ≤ (E : Nat) := by
          exact_mod_cast hb0.2
        push_cast at this ⊢
        omega
      refine ⟨?_, hb0.1, hsum⟩
      apply sz_add_nat
      have h1 : ((r.start + base : Nat) : Int) ≤ (E : Nat) := by omega
      have h2 : r.start + base ≤ E := by exact_mod_cast h1
      omega
    · simp only [segmentsOf, hr, if_true]
      exact List.Forall₂.cons ⟨hr.symm, rfl, fun h => by rw [hr] at h; cases h⟩ (ih hb1 hl1 _)

theorem segmentsOf_length (base : Nat) (rs : List Record) :
    ∀ cur : Nat, (segmentsOf base cur rs).length = rs.length := by
  induction rs with
  | nil => intro cur; rfl
  | cons r rs ih =>
    intro cur
    cases hr : r.read <;> simp [segmentsOf, hr, ih]

/-! ## The output cursor -/

theorem declaredTotal_nonneg (read : Bool) (rs : List Record) (h : ∀ r ∈ rs, 0 ≤ r.len) :
    0 ≤ declaredTotal read rs := by
  induction rs with
  | nil => simp [declaredTotal]
  | cons r rs ih =>
    rw [declaredTotal_cons]
    have h1 := h r (List.mem_cons_self _ _)
    have h2 := ih (fun x hx => h x (List.mem_cons_of_mem _ hx))
    split <;> omega

theorem ioctl_of_accepted (C : Consts) (L : IoctlLayout) (dev : SlaveDev)
    (in_buf in_len out_buf out_len : Nat) (fuel : Nat) (m : Machine) (w : Walk) (b : Build)
    (h1 : pass1 C L m.mem fuel (walkInit in_buf in_len) = some (Except.ok w))
    (hgate : ¬ out_len < w.write_len)
    (h2 : pass2 L m.mem fuel (buildInit in_buf in_len out_buf) = some b) :
    intel_broadwell_serialio_i2c_slave_transfer_ioctl C L dev in_buf in_len out_buf out_len
      true fuel m =
      some
        { status := (intel_broadwell_serialio_i2c_slave_transfer C dev b.segments m).1.map
            (fun status => if status = C.NO_ERROR then (w.write_len : Int) else status)
          segments := some b.segments
          m := (intel_broadwell_serialio_i2c_slave_transfer C dev b.segments m).2 } := by
  unfold intel_broadwell_serialio_i2c_slave_transfer_ioctl
  simp only [h1, if_neg hgate, Bool.not_true, Bool.false_eq_true, if_false, h2]

theorem pass2_of_accepted (C : Consts) (L : IoctlLayout) (mem : Nat → Nat)
    (in_buf in_len out_buf fuel : Nat) (w : Walk) (hin : in_len < 2 ^ 64)
    (hacc : pass1 C L mem fuel (walkInit in_buf in_len) = some (Except.ok w)) :
    ∃ b, pass2 L mem fuel (buildInit in_buf in_len out_buf) = some b ∧
      b.segments = segmentsOf L.base_size out_buf
        (pass1Records C L mem fuel (walkInit in_buf in_len)) := by
  obtain ⟨b, h1, _, h3⟩ := pass2_mirrors C L mem fuel (walkInit in_buf in_len) w hacc hin out_buf []
  exact ⟨b, h1, by simpa using h3⟩

/-- With non-negative lengths, the write records of an accepted input declare
no more bytes than the input holds. -/
theorem declared_write_total_le (C : Consts) (L : IoctlLayout) (mem : Nat → Nat)
    (hL : L.base_size < 2 ^ 32) (fuel : Nat) :
    ∀ s : Walk, (∀ r ∈ pass1Records C L mem fuel s, 0 ≤ r.len) →
      declaredTotal false (pass1Records C L mem fuel s) ≤ s.size := by
  induction fuel with
  | zero => intro s _; simp [pass1Records, declaredTotal]
  | succ fuel ih =>
    intro s hnn
    by_cases h0 : s.size = 0
    · simp [pass1Records, h0, declaredTotal]
    · cases hstep : pass1Step C L mem s with
      | error e => simp [pass1Records, h0, hstep, declaredTotal]
      | ok s1 =>
        simp only [pass1Records, h0, if_false, hstep, List.mem_cons] at hnn ⊢
        obtain ⟨h1, h2, h3⟩ := pass1Step_ok C L mem s s1 hstep
        have hlen := hnn _ (Or.inl rfl)
        simp only at hlen
        have hrest := ih s1 (fun r hr => hnn r (Or.inr hr))
        have hlt := wrapInt_lt (L.get_len mem s.segment_addr)
        rw [declaredTotal_cons]
        simp only
        have hsize : s1.size = s.size -
            (if L.get_read mem s.segment_addr then L.base_size
              else sz (L.base_size + wrapInt (L.get_len mem s.segment_addr))) := by
          rw [h3]
        cases hr : L.get_read mem s.segment_addr
        · simp only [hr, Bool.false_eq_true, if_false, if_true] at h2 hsize ⊢
          have hc : ((sz ((L.base_size : Int) + wrapInt (L.get_len mem s.segment_addr)) : Nat) : Int)
              = (L.base_size : Int) + wrapInt (L.get_len mem s.segment_addr) := by
            apply sz_of_nonneg_lt
            · omega
            · have : (L.base_size : Int) < 2 ^ 32 := by exact_mod_cast hL
              omega
          have h4 : (s1.size : Int) = s.size -
              sz ((L.base_size : Int) + wrapInt (L.get_len mem s.segment_addr)) := by
            rw [hsize]; omega
          omega
        · simp only [hr, if_true, Bool.true_eq_false, if_false, Int.zero_add] at h2 hsize ⊢
          have h4 : (s1.size : Int) ≤ s.size := by rw [hsize]; omega
          omega

/-! ## The segment loop and the stop bit -/

theorem stopBit_write_word (C : Consts) (hC : C.cmdFieldsOk) {restart byte : Nat} (n : Nat)
    (hb : byte < 256) :
    stopBit C (u32 (restart <<< C.DATA_CMD_RESTART ||| byte <<< C.DATA_CMD_DAT |||
      C.DATA_CMD_CMD_WRITE <<< C.DATA_CMD_CMD |||
      (if n = 0 then 1 <<< C.DATA_CMD_STOP else 0))) = decide (n = 0) := by
  obtain ⟨h1, h2, h3, h4, h5, h6⟩ := hC
  have hb8 : byte < 2 ^ 8 := hb
  have hw1 : C.DATA_CMD_CMD_WRITE < 2 ^ 1 := h5
  have hst : (if n = 0 then 1 <<< C.DATA_CMD_STOP else 0).testBit C.DATA_CMD_STOP =
      decide (n = 0) := by
    split
    · rename_i h; rw [testBit_one_shl]; simp [h]
    · rename_i h; simp [h]
  unfold stopBit u32
  rw [Nat.testBit_mod_two_pow, Nat.testBit_or, Nat.testBit_or, Nat.testBit_or,
    testBit_shl_of_gt h3, testBit_shl_of_lt hb8 (by omega), testBit_shl_of_lt hw1 (by omega), hst]
  have : C.DATA_CMD_STOP < 32 := by omega
  simp [this]

theorem stopBit_read_word (C : Consts) (hC : C.cmdFieldsOk) {restart : Nat} (n : Nat) :
    stopBit C (u32 (restart <<< C.DATA_CMD_RESTART |||
      C.DATA_CMD_CMD_READ <<< C.DATA_CMD_CMD |||
      (if n = 0 then 1 <<< C.DATA_CMD_STOP else 0))) = decide (n = 0) := by
  obtain ⟨h1, h2, h3, h4, h5, h6⟩ := hC
  have hw1 : C.DATA_CMD_CMD_READ < 2 ^ 1 := h6
  have hst : (if n = 0 then 1 <<< C.DATA_CMD_STOP else 0).testBit C.DATA_CMD_STOP =
      decide (n = 0) := by
    split
    · rename_i h; rw [testBit_one_shl]; simp [h]
    · rename_i h; simp [h]
  unfold stopBit u32
  rw [Nat.testBit_mod_two_pow, Nat.testBit_or, Nat.testBit_or,
    testBit_shl_of_gt h3, testBit_shl_of_lt hw1 (by omega), hst]
  have : C.DATA_CMD_STOP < 32 := by omega
  simp [this]

/-- One iteration writes at most one command word; when it writes none the
machine is stalled, and the word it writes has the stop bit exactly when no
byte of the segment is left. -/
theorem byteBody_stop (C : Consts) (hC : C.cmdFieldsOk) (read : Bool) (n restart buf : Nat)
    (m : Machine) :
    (cmdWords (byteBody C read n restart buf m).trace = cmdWords m.trace ∧
        (byteBody C read n restart buf m).stalled = true) ∨
      ∃ w, cmdWords (byteBody C read n restart buf m).trace = cmdWords m.trace ++ [w] ∧
        stopBit C w = decide (n = 0) := by
  cases hm : m.stalled
  · cases read
    · simp only [byteBody, Bool.false_eq_true, if_false]
      cases hm1 : (m.loop (spin Reg.i2c_sta (fun v => !staBit C.I2C_STA_TFNF v))).stalled
      · right
        refine ⟨?w1, ?h1, ?h2⟩
        case h1 =>
          rw [cmdWords_write_data hm1, cmdWords_loop _ _ (cmdWords_spin _ _)]
          exact rfl
        case h2 => exact stopBit_write_word C hC n (Nat.mod_lt _ (by decide))
      · left
        rw [write_of_stalled hm1, cmdWords_loop _ _ (cmdWords_spin _ _)]
        exact ⟨rfl, hm1⟩
    · right
      simp only [byteBody, if_true]
      refine ⟨?w2, ?h3, ?h4⟩
      case h3 =>
        rw [cmdWords_store, cmdWords_read, cmdWords_loop _ _ (cmdWords_spin _ _),
          cmdWords_write_data hm]
        exact rfl
      case h4 => exact stopBit_read_word C hC n
  · left
    rw [byteBody_of_stalled C _ _ _ _ hm]
    exact ⟨rfl, hm⟩

theorem range_succ_map_last (n : Nat) :
    (List.range (n + 1)).map (fun j => decide (j + 1 = n + 1)) =
      decide (n = 0) :: (List.range n).map (fun j => decide (j + 1 = n)) := by
  rw [List.range_succ_eq_map, List.map_cons, List.map_map]
  congr 1
  · simp [eq_comm]
  · apply List.map_congr_left
    intro j _
    simp

theorem byteLoop_stop (C : Consts) (hC : C.cmdFieldsOk) (read : Bool) (n : Nat) :
    ∀ (restart buf : Nat) (m : Machine),
      ∃ ws, cmdWords (byteLoop C read n restart buf m).trace = cmdWords m.trace ++ ws ∧
        ws.map (stopBit C) <+: (List.range n).map (fun j => decide (j + 1 = n)) ∧
        ((byteLoop C read n restart buf m).stalled = false → ws.length = n) := by
  induction n with
  | zero =>
    intro restart buf m
    exact ⟨[], by simp [byteLoop], by simp, fun _ => rfl⟩
  | succ n ih =>
    intro restart buf m
    unfold byteLoop
    rcases byteBody_stop C hC read n restart buf m with ⟨h1, h2⟩ | ⟨w, h1, h2⟩
    · refine ⟨[], ?_, by simp, ?_⟩
      · rw [byteLoop_of_stalled C _ _ _ _ h2, h1]; simp
      · rw [byteLoop_of_stalled C _ _ _ _ h2, h2]; simp
    · obtain ⟨ws, h3, h4, h5⟩ := ih 0 (buf + 1) (byteBody C read n restart buf m)
      refine ⟨w :: ws, ?_, ?_, ?_⟩
      · rw [h3, h1]; simp
      · rw [range_succ_map_last, List.map_cons, h2]
        exact (List.prefix_cons_inj _).mpr h4
      · intro hs
        simp [h5 hs]

theorem segmentLoop_stop (C : Consts) (hC : C.cmdFieldsOk) (segs : List Segment) :
    ∀ (last : Bool) (m : Machine),
      ∃ ws, cmdWords (segmentLoop C last segs m).trace = cmdWords m.trace ++ ws ∧
        ws.map (stopBit C) <+: lastByteOfSegment segs ∧
        ((segmentLoop C last segs m).stalled = false →
          ws.map (stopBit C) = lastByteOfSegment segs) := by
  induction segs with
  | nil =>
    intro last m
    exact ⟨[], by simp [segmentLoop], by simp [lastByteOfSegment],
      fun _ => by simp [lastByteOfSegment]⟩
  | cons s rest ih =>
    intro last m
    unfold segmentLoop lastByteOfSegment
    obtain ⟨ws1, h1, h2, h3⟩ := byteLoop_stop C hC s.read (loopCount s.len)
      (if last = s.read then 1 else 0) s.buf m
    obtain ⟨ws2, h4, h5, h6⟩ := ih s.read
      (byteLoop C s.read (loopCount s.len) (if last = s.read then 1 else 0) s.buf m)
    cases hst : (byteLoop C s.read (loopCount s.len) (if last = s.read then 1 else 0) s.buf m).stalled
    · have hlen := h3 hst
      have heq : ws1.map (stopBit C) = (List.range (loopCount s.len)).map
          (fun j => decide (j + 1 = loopCount s.len)) := by
        apply List.IsPrefix.eq_of_length h2
        simp [hlen]
      refine ⟨ws1 ++ ws2, ?_, ?_, ?_⟩
      · rw [h4, h1, List.append_assoc]
      · rw [List.map_append, heq]
        exact (List.prefix_append_right_inj _).mpr h5
      · intro hs
        rw [List.map_append, heq, h6 hs]
    · refine ⟨ws1, ?_, ?_, ?_⟩
      · rw [segmentLoop_of_stalled C _ _ hst, h1]
      · exact h2.trans (List.prefix_append _ _)
      · intro hs
        rw [segmentLoop_of_stalled C _ _ hst, hst] at hs
        cases hs

theorem transferBody_stop (C : Consts) (hC : C.cmdFieldsOk) (dev : SlaveDev) (a b : Nat)
    (segs : List Segment) (hw : List Nat) (mem : Nat → Nat) :
    (cmdWords (transferBody C dev a b segs (Machine.init hw mem)).trace).map (stopBit C) <+:
        lastByteOfSegment segs ∧
      ((transferBody C dev a b segs (Machine.init hw mem)).stalled = false →
        (cmdWords (transferBody C dev a b segs (Machine.init hw mem)).trace).map (stopBit C) =
          lastByteOfSegment segs) := by
  obtain ⟨m1, h1, h2, h3⟩ := transferBody_words C dev a b segs (Machine.init hw mem)
  obtain ⟨ws, h4, h5, h6⟩ := segmentLoop_stop C hC segs (initLastRead segs) m1
  have hnil : cmdWords m1.trace = [] := by rw [h1]; rfl
  rw [h2, h4, hnil, List.nil_append]
  exact ⟨h5, fun h => h6 (h3 h)⟩

/-- What the transfer does with the stop bit: for every device, request,
hardware behaviour and memory, the stop bits of the command words written are,
word by word, those of `lastByteOfSegment`: set on the last byte of every
segment, whether or not another segment follows. -/
theorem stop_bit_iff_last_byte_of_its_segment (C : Consts) (hC : C.cmdFieldsOk)
    (dev : SlaveDev) (segments : List Segment) (hw : List Nat) (mem : Nat → Nat) :
    (cmdWords (intel_broadwell_serialio_i2c_slave_transfer C dev segments
        (Machine.init hw mem)).2.trace).map (stopBit C) <+: lastByteOfSegment segments ∧
    (dev.has_parent = true →
      (dev.chip_address_width = C.I2C_7BIT_ADDRESS ∨
        dev.chip_address_width = C.I2C_10BIT_ADDRESS) →
      (intel_broadwell_serialio_i2c_slave_transfer C dev segments
        (Machine.init hw mem)).2.stalled = false →
      (cmdWords (intel_broadwell_serialio_i2c_slave_transfer C dev segments
        (Machine.init hw mem)).2.trace).map (stopBit C) = lastByteOfSegment segments) := by
  unfold intel_broadwell_serialio_i2c_slave_transfer
  cases hp : dev.has_parent
  · simp [Machine.init, cmdWords]
  · simp only [Bool.not_true, Bool.false_eq_true, if_false]
    by_cases h7 : dev.chip_address_width = C.I2C_7BIT_ADDRESS
    · rw [if_pos h7]
      have := transferBody_stop C hC dev C.CTL_ADDRESSING_MODE_7BIT C.TAR_ADD_WIDTH_7BIT
        segments hw mem
      exact ⟨this.1, fun _ _ h => this.2 h⟩
    · rw [if_neg h7]
      by_cases h10 : dev.chip_address_width = C.I2C_10BIT_ADDRESS
      · rw [if_pos h10]
        have := transferBody_stop C hC dev C.CTL_ADDRESSING_MODE_10BIT C.TAR_ADD_WIDTH_10BIT
          segments hw mem
        exact ⟨this.1, fun _ _ h => this.2 h⟩
      · rw [if_neg h10]
        refine ⟨by simp [Machine.init, cmdWords], fun _ hw _ => ?_⟩
        rcases hw with hw | hw
        · exact absurd hw h7
        · exact absurd hw h10

/-! ## The claims of the specification -/

/-- C1 (the code at a failing input): a request of two one-byte write segments
on responsive hardware returns `NO_ERROR` after writing two command words, and
both words carry the stop bit, the first one being the last byte of segment 0
and not the final byte of the request. -/
theorem stop_bit_set_at_end_of_every_segment :
    (intel_broadwell_serialio_i2c_slave_transfer bdw dev7
        [{ read := false, len := 1, buf := 100 }, { read := false, len := 1, buf := 101 }]
        (Machine.init (hwSetup ++ [staIdle, staIdle] ++ hwFinish) (memOf 100 [16, 32]))).1 =
      some bdw.NO_ERROR ∧
    (cmdWords (intel_broadwell_serialio_i2c_slave_transfer bdw dev7
        [{ read := false, len := 1, buf := 100 }, { read := false, len := 1, buf := 101 }]
        (Machine.init (hwSetup ++ [staIdle, staIdle] ++ hwFinish) (memOf 100 [16, 32]))).2.trace).map
      (stopBit bdw) = [true, true] := by
  decide

/-- C2: for every device, request, hardware behaviour and memory, the restart
bits of the command words written by the transfer are, word by word, those of
`restartPlacement`: set exactly on the first byte of a segment that is segment 0
or has the direction of the segment before it.  The words of a run that is cut
off are a prefix; a run that returns from the transfer body has written all of
them. -/
theorem restart_bit_iff_first_byte_of_same_direction_segment (C : Consts) (hC : C.cmdFieldsOk)
    (dev : SlaveDev) (segments : List Segment) (hw : List Nat) (mem : Nat → Nat) :
    (cmdWords (intel_broadwell_serialio_i2c_slave_transfer C dev segments
        (Machine.init hw mem)).2.trace).map (restartBit C) <+: restartPlacement none segments ∧
    (dev.has_parent = true →
      (dev.chip_address_width = C.I2C_7BIT_ADDRESS ∨
        dev.chip_address_width = C.I2C_10BIT_ADDRESS) →
      (intel_broadwell_serialio_i2c_slave_transfer C dev segments
        (Machine.init hw mem)).2.stalled = false →
      (cmdWords (intel_broadwell_serialio_i2c_slave_transfer C dev segments
        (Machine.init hw mem)).2.trace).map (restartBit C) = restartPlacement none segments) := by
  unfold intel_broadwell_serialio_i2c_slave_transfer
  cases hp : dev.has_parent
  · simp [Machine.init, cmdWords]
  · simp only [Bool.not_true, Bool.false_eq_true, if_false]
    by_cases h7 : dev.chip_address_width = C.I2C_7BIT_ADDRESS
    · rw [if_pos h7]
      have := transferBody_restart C hC dev C.CTL_ADDRESSING_MODE_7BIT C.TAR_ADD_WIDTH_7BIT
        segments hw mem
      exact ⟨this.1, fun _ _ h => this.2 h⟩
    · rw [if_neg h7]
      by_cases h10 : dev.chip_address_width = C.I2C_10BIT_ADDRESS
      · rw [if_pos h10]
        have := transferBody_restart C hC dev C.CTL_ADDRESSING_MODE_10BIT C.TAR_ADD_WIDTH_10BIT
          segments hw mem
        exact ⟨this.1, fun _ _ h => this.2 h⟩
      · rw [if_neg h10]
        refine ⟨by simp [Machine.init, cmdWords], fun _ hw _ => ?_⟩
        rcases hw with hw | hw
        · exact absurd hw h7
        · exact absurd hw h10

/-- C2 at the request of example scenario 2, a one-byte write followed by a
two-byte read, on hardware that answers every poll. -/
theorem restart_bit_iff_first_byte_of_same_direction_segment_witness :
    bdw.cmdFieldsOk ∧
    ((cmdWords (intel_broadwell_serialio_i2c_slave_transfer bdw dev7
        [{ read := false, len := 1, buf := 100 }, { read := true, len := 2, buf := 200 }]
        (Machine.init (hwSetup ++ [staIdle, staRx, 171, staRx, 205] ++ hwFinish)
          (memOf 100 [170]))).2.trace).map (restartBit bdw) <+:
      restartPlacement none
        [{ read := false, len := 1, buf := 100 }, { read := true, len := 2, buf := 200 }]) ∧
    (cmdWords (intel_broadwell_serialio_i2c_slave_transfer bdw dev7
        [{ read := false, len := 1, buf := 100 }, { read := true, len := 2, buf := 200 }]
        (Machine.init (hwSetup ++ [staIdle, staRx, 171, staRx, 205] ++ hwFinish)
          (memOf 100 [170]))).2.trace).map (restartBit bdw) =
      restartPlacement none
        [{ read := false, len := 1, buf := 100 }, { read := true, len := 2, buf := 200 }] :=
  ⟨by decide,
    (restart_bit_iff_first_byte_of_same_direction_segment bdw (by decide) dev7
      [{ read := false, len := 1, buf := 100 }, { read := true, len := 2, buf := 200 }]
      (hwSetup ++ [staIdle, staRx, 171, staRx, 205] ++ hwFinish) (memOf 100 [170])).1,
    (restart_bit_iff_first_byte_of_same_direction_segment bdw (by decide) dev7
      [{ read := false, len := 1, buf := 100 }, { read := true, len := 2, buf := 200 }]
      (hwSetup ++ [staIdle, staRx, 171, staRx, 205] ++ hwFinish) (memOf 100 [170])).2
      (by decide) (by decide) (by decide)⟩

/-- The run of example scenario 2 returns `NO_ERROR`; its three command words
carry the restart bits `[true, false, false]`, which is also what the rule gives
(the read follows a write, so its first byte has no restart). -/
theorem scenario2_restart_bits :
    (intel_broadwell_serialio_i2c_slave_transfer bdw dev7
        [{ read := false, len := 1, buf := 100 }, { read := true, len := 2, buf := 200 }]
        (Machine.init (hwSetup ++ [staIdle, staRx, 171, staRx, 205] ++ hwFinish)
          (memOf 100 [170]))).1 = some bdw.NO_ERROR ∧
    (cmdWords (intel_broadwell_serialio_i2c_slave_transfer bdw dev7
        [{ read := false, len := 1, buf := 100 }, { read := true, len := 2, buf := 200 }]
        (Machine.init (hwSetup ++ [staIdle, staRx, 171, staRx, 205] ++ hwFinish)
          (memOf 100 [170]))).2.trace).map (restartBit bdw) = [true, false, false] ∧
    restartPlacement none
        [{ read := false, len := 1, buf := 100 }, { read := true, len := 2, buf := 200 }] =
      [true, false, false] := by
  decide

/-- C3 (the code at a failing input): one read record of declared length 4 with
an output capacity of 0.  The read total (4) exceeds the capacity, yet the call
is accepted: the segment array holds a 4-byte read segment at the output
buffer, the transfer runs and stores the four received bytes behind the empty
output buffer, and the call returns the write total 0. -/
theorem read_total_above_out_len_is_accepted :
    Option.map IoctlResult.status
        (intel_broadwell_serialio_i2c_slave_transfer_ioctl bdw intLayout dev7 1000 8 2000 0 true 2
          (Machine.init (hwSetup ++ [staRx, 1, staRx, 2, staRx, 3, staRx, 4] ++ hwFinish)
            (memOf 1000 [1, 0, 0, 0, 4, 0, 0, 0]))) = some (some 0) ∧
    Option.map IoctlResult.segments
        (intel_broadwell_serialio_i2c_slave_transfer_ioctl bdw intLayout dev7 1000 8 2000 0 true 2
          (Machine.init (hwSetup ++ [staRx, 1, staRx, 2, staRx, 3, staRx, 4] ++ hwFinish)
            (memOf 1000 [1, 0, 0, 0, 4, 0, 0, 0]))) =
      some (some [{ read := true, len := 4, buf := 2000 }]) ∧
    Option.map (IoctlResult.bytes · 2000 4)
        (intel_broadwell_serialio_i2c_slave_transfer_ioctl bdw intLayout dev7 1000 8 2000 0 true 2
          (Machine.init (hwSetup ++ [staRx, 1, staRx, 2, staRx, 3, staRx, 4] ++ hwFinish)
            (memOf 1000 [1, 0, 0, 0, 4, 0, 0, 0]))) = some [1, 2, 3, 4] := by
  decide

/-- C4 (the code at a failing input): example scenario 1, one write record of
length 3 with payload `[0x10, 0x20, 0x30]` and output capacity 0.  The call
fails with `ERR_INVALID_ARGS`, builds no segment array and touches no register,
because the write total 3 is compared with the output capacity. -/
theorem scenario1_is_rejected :
    Option.map IoctlResult.status
        (intel_broadwell_serialio_i2c_slave_transfer_ioctl bdw intLayout dev7 1000 11 2000 0 true 2
          (Machine.init (hwSetup ++ [staIdle, staIdle, staIdle] ++ hwFinish)
            (memOf 1000 [0, 0, 0, 0, 3, 0, 0, 0, 16, 32, 48]))) = some (some bdw.ERR_INVALID_ARGS) ∧
    Option.map IoctlResult.segments
        (intel_broadwell_serialio_i2c_slave_transfer_ioctl bdw intLayout dev7 1000 11 2000 0 true 2
          (Machine.init (hwSetup ++ [staIdle, staIdle, staIdle] ++ hwFinish)
            (memOf 1000 [0, 0, 0, 0, 3, 0, 0, 0, 16, 32, 48]))) = some none ∧
    Option.map (fun r => r.m.trace)
        (intel_broadwell_serialio_i2c_slave_transfer_ioctl bdw intLayout dev7 1000 11 2000 0 true 2
          (Machine.init (hwSetup ++ [staIdle, staIdle, staIdle] ++ hwFinish)
            (memOf 1000 [0, 0, 0, 0, 3, 0, 0, 0, 16, 32, 48]))) = some [] := by
  decide

/-- The same input as in `scenario1_is_rejected` with an output capacity of 3
(the write total): the call compiles a single 3-byte write segment pointing into
the input buffer and returns 3. -/
theorem scenario1_with_capacity_3 :
    Option.map IoctlResult.status
        (intel_broadwell_serialio_i2c_slave_transfer_ioctl bdw intLayout dev7 1000 11 2000 3 true 2
          (Machine.init (hwSetup ++ [staIdle, staIdle, staIdle] ++ hwFinish)
            (memOf 1000 [0, 0, 0, 0, 3, 0, 0, 0, 16, 32, 48]))) = some (some 3) ∧
    Option.map IoctlResult.segments
        (intel_broadwell_serialio_i2c_slave_transfer_ioctl bdw intLayout dev7 1000 11 2000 3 true 2
          (Machine.init (hwSetup ++ [staIdle, staIdle, staIdle] ++ hwFinish)
            (memOf 1000 [0, 0, 0, 0, 3, 0, 0, 0, 16, 32, 48]))) =
      some (some [{ read := false, len := 3, buf := 1008 }]) := by
  decide

/-- C5: when the first walk reaches, after `k` records, a boundary where the
remaining size is not zero but smaller than the header size, the call (with any
fuel above `k`) returns `ERR_INVALID_ARGS`, builds no segment array and leaves
the machine as it was: no register access, no event. -/
theorem truncated_header_is_rejected (C : Consts) (L : IoctlLayout) (dev : SlaveDev)
    (in_buf in_len out_buf out_len : Nat) (alloc_ok : Bool) (m : Machine) (k : Nat) (s : Walk)
    (hreach : pass1Reach C L m.mem k (walkInit in_buf in_len) = some s)
    (hne : s.size ≠ 0) (hlt : s.size < L.base_size) (fuel : Nat) (hfuel : k < fuel) :
    intel_broadwell_serialio_i2c_slave_transfer_ioctl C L dev in_buf in_len out_buf out_len
      alloc_ok fuel m =
      some { status := some C.ERR_INVALID_ARGS, segments := none, m := m } :=
  ioctl_of_pass1_error C L dev in_buf in_len out_buf out_len alloc_ok fuel m _
    (pass1_fails_at C L m.mem k _ s hreach hne (pass1Step_truncated C L m.mem s hlt) fuel hfuel)

/-- C5 on a 12-byte input: a write record of length 1 (9 bytes) followed by 3
stray bytes, which are fewer than the 8 bytes of a header. -/
theorem truncated_header_is_rejected_witness :
    pass1Reach bdw intLayout (memOf 1000 [0, 0, 0, 0, 1, 0, 0, 0, 170, 1, 0, 0]) 1
        (walkInit 1000 12) =
      some { size := 3, read_len := 0, write_len := 1, segment_count := 1, segment_addr := 1009 } ∧
    (3 : Nat) ≠ 0 ∧ 3 < intLayout.base_size ∧ 1 < 5 ∧
    intel_broadwell_serialio_i2c_slave_transfer_ioctl bdw intLayout dev7 1000 12 2000 16 true 5
        (Machine.init (hwSetup ++ [staIdle] ++ hwFinish)
          (memOf 1000 [0, 0, 0, 0, 1, 0, 0, 0, 170, 1, 0, 0])) =
      some { status := some bdw.ERR_INVALID_ARGS, segments := none,
             m := Machine.init (hwSetup ++ [staIdle] ++ hwFinish)
              (memOf 1000 [0, 0, 0, 0, 1, 0, 0, 0, 170, 1, 0, 0]) } :=
  ⟨by decide, by decide, by decide, by decide,
    truncated_header_is_rejected bdw intLayout dev7 1000 12 2000 16 true
      (Machine.init (hwSetup ++ [staIdle] ++ hwFinish)
        (memOf 1000 [0, 0, 0, 0, 1, 0, 0, 0, 170, 1, 0, 0])) 1
      { size := 3, read_len := 0, write_len := 1, segment_count := 1, segment_addr := 1009 }
      (by decide) (by decide) (by decide) 5 (by decide)⟩

/-- C6: at a record boundary reached by the first walk with bytes remaining,
(1) a write record whose header size plus declared length exceeds the remaining
size makes the call (with any fuel above `k`) return `ERR_INVALID_ARGS` with no
segment array and the machine untouched; (2) a read record whose header fits is
passed whatever its declared length, and takes the header size only. -/
theorem overrunning_write_is_rejected (C : Consts) (L : IoctlLayout) (dev : SlaveDev)
    (in_buf in_len out_buf out_len : Nat) (alloc_ok : Bool) (m : Machine) (k : Nat) (s : Walk)
    (hL : L.base_size < 2 ^ 32)
    (hreach : pass1Reach C L m.mem k (walkInit in_buf in_len) = some s) (hne : s.size ≠ 0) :
    (L.get_read m.mem s.segment_addr = false →
      (s.size : Int) < L.base_size + wrapInt (L.get_len m.mem s.segment_addr) →
      ∀ fuel, k < fuel →
        intel_broadwell_serialio_i2c_slave_transfer_ioctl C L dev in_buf in_len out_buf out_len
          alloc_ok fuel m =
          some { status := some C.ERR_INVALID_ARGS, segments := none, m := m }) ∧
    (L.get_read m.mem s.segment_addr = true → L.base_size ≤ s.size →
      pass1Step C L m.mem s = Except.ok
        { size := s.size - L.base_size
          read_len := sz (s.read_len + wrapInt (L.get_len m.mem s.segment_addr))
          write_len := s.write_len
          segment_count := s.segment_count + 1
          segment_addr := sz (s.segment_addr + L.base_size) }) :=
  ⟨fun hw hover fuel hfuel =>
      ioctl_of_pass1_error C L dev in_buf in_len out_buf out_len alloc_ok fuel m _
        (pass1_fails_at C L m.mem k _ s hreach hne
          (pass1Step_overrun C L m.mem s hL hw hover) fuel hfuel),
    fun hr hsz => pass1Step_read C L m.mem s hsz hr⟩

/-- C6 on a 19-byte input: a read record of declared length 1000 (passed, 8
bytes taken) followed by a write record of declared length 4 with only 3 payload
bytes (rejected). -/
theorem overrunning_write_is_rejected_witness :
    intLayout.base_size < 2 ^ 32 ∧
    pass1Reach bdw intLayout
        (memOf 1000 [1, 0, 0, 0, 232, 3, 0, 0, 0, 0, 0, 0, 4, 0, 0, 0, 1, 2, 3]) 1
        (walkInit 1000 19) =
      some { size := 11, read_len := 1000, write_len := 0, segment_count := 1,
             segment_addr := 1008 } ∧
    intel_broadwell_serialio_i2c_slave_transfer_ioctl bdw intLayout dev7 1000 19 2000 16
        true 3 (Machine.init hwSetup
          (memOf 1000 [1, 0, 0, 0, 232, 3, 0, 0, 0, 0, 0, 0, 4, 0, 0, 0, 1, 2, 3])) =
      some { status := some bdw.ERR_INVALID_ARGS, segments := none,
             m := Machine.init hwSetup
              (memOf 1000 [1, 0, 0, 0, 232, 3, 0, 0, 0, 0, 0, 0, 4, 0, 0, 0, 1, 2, 3]) } ∧
    pass1Step bdw intLayout
        (memOf 1000 [1, 0, 0, 0, 232, 3, 0, 0, 0, 0, 0, 0, 4, 0, 0, 0, 1, 2, 3])
        (walkInit 1000 19) = Except.ok
      { size := 19 - intLayout.base_size
        read_len := sz ((0 : Nat) + wrapInt (intLayout.get_len
          (memOf 1000 [1, 0, 0, 0, 232, 3, 0, 0, 0, 0, 0, 0, 4, 0, 0, 0, 1, 2, 3]) 1000))
        write_len := 0
        segment_count := 0 + 1
        segment_addr := sz ((1000 : Nat) + intLayout.base_size) } :=
  ⟨by decide, by decide,
    (overrunning_write_is_rejected bdw intLayout dev7 1000 19 2000 16 true
      (Machine.init hwSetup
        (memOf 1000 [1, 0, 0, 0, 232, 3, 0, 0, 0, 0, 0, 0, 4, 0, 0, 0, 1, 2, 3])) 1
      { size := 11, read_len := 1000, write_len := 0, segment_count := 1, segment_addr := 1008 }
      (by decide) (by decide) (by decide)).1 (by decide) (by decide) 3 (by decide),
    (overrunning_write_is_rejected bdw intLayout dev7 1000 19 2000 16 true
      (Machine.init hwSetup
        (memOf 1000 [1, 0, 0, 0, 232, 3, 0, 0, 0, 0, 0, 0, 4, 0, 0, 0, 1, 2, 3])) 0
      (walkInit 1000 19) (by decide) (by decide) (by decide)).2 (by decide) (by decide)⟩

/-- C7: for an input that the first walk accepts and whose records declare
non-negative lengths, the second walk (with the same fuel) ends, having written
exactly `segment_count` segments; segment by segment they have the direction and
the length of the records passed by the first walk, in the same order, and every
write segment points at `record start + header size`, with the whole payload
inside the input buffer.  When the size gate and the allocation pass, this is
the segment array of the call. -/
theorem pass2_rebuilds_the_records_of_pass1 (C : Consts) (L : IoctlLayout) (dev : SlaveDev)
    (in_buf in_len out_buf out_len fuel : Nat) (m : Machine) (w : Walk)
    (hE : in_buf + in_len < 2 ^ 64) (hL : L.base_size < 2 ^ 32)
    (hacc : pass1 C L m.mem fuel (walkInit in_buf in_len) = some (Except.ok w))
    (hnn : ∀ r ∈ pass1Records C L m.mem fuel (walkInit in_buf in_len), 0 ≤ r.len) :
    ∃ b, pass2 L m.mem fuel (buildInit in_buf in_len out_buf) = some b ∧
      b.segments.length = w.segment_count ∧
      List.Forall₂
        (fun r sg => sg.read = r.read ∧ sg.len = r.len ∧
          (r.read = false → sg.buf = r.start + L.base_size ∧ in_buf ≤ r.start ∧
            ((r.start + L.base_size : Nat) : Int) + r.len ≤ (in_buf + in_len : Nat)))
        (pass1Records C L m.mem fuel (walkInit in_buf in_len)) b.segments ∧
      (¬ out_len < w.write_len →
        Option.map IoctlResult.segments
          (intel_broadwell_serialio_i2c_slave_transfer_ioctl C L dev in_buf in_len out_buf
            out_len true fuel m) = some (some b.segments)) := by
  obtain ⟨b, h1, h2⟩ := pass2_of_accepted C L m.mem in_buf in_len out_buf fuel w (by omega) hacc
  refine ⟨b, h1, ?_, ?_, ?_⟩
  · have := (pass1_totals C L m.mem fuel _ w hacc (by simp [walkInit]) (by simp [walkInit])).1
    rw [h2, segmentsOf_length, this]
    simp [walkInit]
  · rw [h2]
    apply segmentsOf_forall₂ L.base_size in_buf (in_buf + in_len) hL hE
    · have := pass1Records_bounds C L m.mem (in_buf + in_len) hE fuel (walkInit in_buf in_len) rfl
      simpa [walkInit] using this
    · intro r hr
      exact ⟨hnn r hr, pass1Records_len C L m.mem fuel _ r hr⟩
  · intro hgate
    rw [ioctl_of_accepted C L dev in_buf in_len out_buf out_len fuel m w b hacc hgate h1]
    rfl

/-- C7 on the input of example scenario 2, a 1-byte write record followed by a
2-byte read record. -/
theorem pass2_rebuilds_the_records_of_pass1_witness :
    (1000 : Nat) + 17 < 2 ^ 64 ∧ intLayout.base_size < 2 ^ 32 ∧
    pass1 bdw intLayout (memOf 1000 [0, 0, 0, 0, 1, 0, 0, 0, 170, 1, 0, 0, 0, 2, 0, 0, 0]) 3
        (walkInit 1000 17) =
      some (Except.ok { size := 0, read_len := 2, write_len := 1, segment_count := 2,
                        segment_addr := 1017 }) ∧
    (∀ r ∈ pass1Records bdw intLayout
        (memOf 1000 [0, 0, 0, 0, 1, 0, 0, 0, 170, 1, 0, 0, 0, 2, 0, 0, 0]) 3 (walkInit 1000 17),
      0 ≤ r.len) ∧
    ∃ b, pass2 intLayout (memOf 1000 [0, 0, 0, 0, 1, 0, 0, 0, 170, 1, 0, 0, 0, 2, 0, 0, 0]) 3
        (buildInit 1000 17 2000) = some b ∧
      b.segments.length = 2 ∧
      List.Forall₂
        (fun r sg => sg.read = r.read ∧ sg.len = r.len ∧
          (r.read = false → sg.buf = r.start + intLayout.base_size ∧ 1000 ≤ r.start ∧
            ((r.start + intLayout.base_size : Nat) : Int) + r.len ≤ (1000 + 17 : Nat)))
        (pass1Records bdw intLayout
          (memOf 1000 [0, 0, 0, 0, 1, 0, 0, 0, 170, 1, 0, 0, 0, 2, 0, 0, 0]) 3 (walkInit 1000 17))
        b.segments ∧
      (¬ 2 < 1 →
        Option.map IoctlResult.segments
          (intel_broadwell_serialio_i2c_slave_transfer_ioctl bdw intLayout dev7 1000 17 2000 2
            true 3 (Machine.init (hwSetup ++ [staIdle, staRx, 171, staRx, 205] ++ hwFinish)
              (memOf 1000 [0, 0, 0, 0, 1, 0, 0, 0, 170, 1, 0, 0, 0, 2, 0, 0, 0]))) =
          some (some b.segments)) :=
  ⟨by decide, by decide, rfl, by decide,
    pass2_rebuilds_the_records_of_pass1 bdw intLayout dev7 1000 17 2000 2 3
      (Machine.init (hwSetup ++ [staIdle, staRx, 171, staRx, 205] ++ hwFinish)
        (memOf 1000 [0, 0, 0, 0, 1, 0, 0, 0, 170, 1, 0, 0, 0, 2, 0, 0, 0]))
      { size := 0, read_len := 2, write_len := 1, segment_count := 2, segment_addr := 1017 }
      (by decide) (by decide) rfl (by decide)⟩

/-- The call of example scenario 2 (output capacity 2): two segments are built,
the write segment inside the input buffer and the read segment at the output
buffer, the transfer stores the two received bytes there, and the call returns
the write total 1. -/
theorem scenario2_through_the_ioctl :
    Option.map IoctlResult.status
        (intel_broadwell_serialio_i2c_slave_transfer_ioctl bdw intLayout dev7 1000 17 2000 2
          true 3 (Machine.init (hwSetup ++ [staIdle, staRx, 171, staRx, 205] ++ hwFinish)
            (memOf 1000 [0, 0, 0, 0, 1, 0, 0, 0, 170, 1, 0, 0, 0, 2, 0, 0, 0]))) =
      some (some 1) ∧
    Option.map IoctlResult.segments
        (intel_broadwell_serialio_i2c_slave_transfer_ioctl bdw intLayout dev7 1000 17 2000 2
          true 3 (Machine.init (hwSetup ++ [staIdle, staRx, 171, staRx, 205] ++ hwFinish)
            (memOf 1000 [0, 0, 0, 0, 1, 0, 0, 0, 170, 1, 0, 0, 0, 2, 0, 0, 0]))) =
      some (some [{ read := false, len := 1, buf := 1008 }, { read := true, len := 2, buf := 2000 }]) ∧
    Option.map (IoctlResult.bytes · 2000 2)
        (intel_broadwell_serialio_i2c_slave_transfer_ioctl bdw intLayout dev7 1000 17 2000 2
          true 3 (Machine.init (hwSetup ++ [staIdle, staRx, 171, staRx, 205] ++ hwFinish)
            (memOf 1000 [0, 0, 0, 0, 1, 0, 0, 0, 170, 1, 0, 0, 0, 2, 0, 0, 0]))) =
      some [171, 205] := by
  decide

/-- The segment array built for an input of a 2-byte read, a 1-byte write and a
3-byte read record: the two read segments sit at output offsets 0 and 2, the
write segment points into the input buffer. -/
theorem read_cursor_example :
    Option.map Build.segments (pass2 intLayout
        (memOf 1000 [1, 0, 0, 0, 2, 0, 0, 0, 0, 0, 0, 0, 1, 0, 0, 0, 170, 1, 0, 0, 0, 3, 0, 0, 0])
        4 (buildInit 1000 25 2000)) =
      some [{ read := true, len := 2, buf := 2000 }, { read := false, len := 1, buf := 1016 },
        { read := true, len := 3, buf := 2002 }] := by
  decide

/-- C9: for an input accepted by the first walk and by the size gate (and with
the allocation succeeding), the call returns, when the delegated transfer
returns `NO_ERROR`, the write total accumulated by the first walk, and otherwise
the status of the transfer as it is.  The write total is the sum of the lengths
declared by the write records, accumulated in `size_t`; it is that sum itself
when no record declares a negative length.  The read records take no part. -/
theorem ioctl_returns_the_write_total (C : Consts) (L : IoctlLayout) (dev : SlaveDev)
    (in_buf in_len out_buf out_len fuel : Nat) (m : Machine) (w : Walk)
    (hin : in_len < 2 ^ 64)
    (hacc : pass1 C L m.mem fuel (walkInit in_buf in_len) = some (Except.ok w))
    (hgate : ¬ out_len < w.write_len) :
    Option.map IoctlResult.status
        (intel_broadwell_serialio_i2c_slave_transfer_ioctl C L dev in_buf in_len out_buf out_len
          true fuel m) =
      some ((intel_broadwell_serialio_i2c_slave_transfer C dev
          (segmentsOf L.base_size out_buf (pass1Records C L m.mem fuel (walkInit in_buf in_len)))
          m).1.map (fun status => if status = C.NO_ERROR then (w.write_len : Int) else status)) ∧
    w.write_len =
      sz (declaredTotal false (pass1Records C L m.mem fuel (walkInit in_buf in_len))) ∧
    ((∀ r ∈ pass1Records C L m.mem fuel (walkInit in_buf in_len), 0 ≤ r.len) →
      L.base_size < 2 ^ 32 →
      (w.write_len : Int) =
        declaredTotal false (pass1Records C L m.mem fuel (walkInit in_buf in_len))) := by
  obtain ⟨b, h1, h2⟩ := pass2_of_accepted C L m.mem in_buf in_len out_buf fuel w hin hacc
  have htot := (pass1_totals C L m.mem fuel _ w hacc (by simp [walkInit])
    (by simp [walkInit])).2.1
  have htot' : w.write_len =
      sz (declaredTotal false (pass1Records C L m.mem fuel (walkInit in_buf in_len))) := by
    rw [htot]; simp [walkInit]
  refine ⟨?_, htot', ?_⟩
  · rw [ioctl_of_accepted C L dev in_buf in_len out_buf out_len fuel m w b hacc hgate h1, h2]
    rfl
  · intro hnn hL
    rw [htot']
    have h3 := declared_write_total_le C L m.mem hL fuel (walkInit in_buf in_len) hnn
    have h4 := declaredTotal_nonneg false _ hnn
    have h5 : ((walkInit in_buf in_len).size : Int) < 2 ^ 64 := by
      simp only [walkInit]; exact_mod_cast hin
    exact sz_of_nonneg_lt h4 (by omega)

/-- C9 on the input of example scenario 2 with output capacity 2: the status of
the call is that of the transfer with `NO_ERROR` replaced by the write total 1,
which is the sum of the declared write lengths. -/
theorem ioctl_returns_the_write_total_witness :
    (17 : Nat) < 2 ^ 64 ∧
    pass1 bdw intLayout (memOf 1000 [0, 0, 0, 0, 1, 0, 0, 0, 170, 1, 0, 0, 0, 2, 0, 0, 0]) 3
        (walkInit 1000 17) =
      some (Except.ok { size := 0, read_len := 2, write_len := 1, segment_count := 2,
                        segment_addr := 1017 }) ∧
    ¬ 2 < 1 ∧
    Option.map IoctlResult.status
        (intel_broadwell_serialio_i2c_slave_transfer_ioctl bdw intLayout dev7 1000 17 2000 2
          true 3 (Machine.init (hwSetup ++ [staIdle, staRx, 171, staRx, 205] ++ hwFinish)
            (memOf 1000 [0, 0, 0, 0, 1, 0, 0, 0, 170, 1, 0, 0, 0, 2, 0, 0, 0]))) =
      some ((intel_broadwell_serialio_i2c_slave_transfer bdw dev7
          (segmentsOf intLayout.base_size 2000 (pass1Records bdw intLayout
            (memOf 1000 [0, 0, 0, 0, 1, 0, 0, 0, 170, 1, 0, 0, 0, 2, 0, 0, 0]) 3
            (walkInit 1000 17)))
          (Machine.init (hwSetup ++ [staIdle, staRx, 171, staRx, 205] ++ hwFinish)
            (memOf 1000 [0, 0, 0, 0, 1, 0, 0, 0, 170, 1, 0, 0, 0, 2, 0, 0, 0]))).1.map
        (fun status => if status = bdw.NO_ERROR then ((1 : Nat) : Int) else status)) ∧
    ((1 : Nat) : Int) = declaredTotal false (pass1Records bdw intLayout
      (memOf 1000 [0, 0, 0, 0, 1, 0, 0, 0, 170, 1, 0, 0, 0, 2, 0, 0, 0]) 3 (walkInit 1000 17)) :=
  ⟨by decide, rfl, by decide,
    (ioctl_returns_the_write_total bdw intLayout dev7 1000 17 2000 2 3
      (Machine.init (hwSetup ++ [staIdle, staRx, 171, staRx, 205] ++ hwFinish)
        (memOf 1000 [0, 0, 0, 0, 1, 0, 0, 0, 170, 1, 0, 0, 0, 2, 0, 0, 0]))
      { size := 0, read_len := 2, write_len := 1, segment_count := 2, segment_addr := 1017 }
      (by decide) rfl (by decide)).1,
    (ioctl_returns_the_write_total bdw intLayout dev7 1000 17 2000 2 3
      (Machine.init (hwSetup ++ [staIdle, staRx, 171, staRx, 205] ++ hwFinish)
        (memOf 1000 [0, 0, 0, 0, 1, 0, 0, 0, 170, 1, 0, 0, 0, 2, 0, 0, 0]))
      { size := 0, read_len := 2, write_len := 1, segment_count := 2, segment_addr := 1017 }
      (by decide) rfl (by decide)).2.2 (by decide) (by decide)⟩

/-- The error of a failing transfer comes back unchanged: the same call on a
slave without parent returns `ERR_BAD_STATE`. -/
theorem ioctl_passes_on_the_error_of_the_transfer :
    Option.map IoctlResult.status
        (intel_broadwell_serialio_i2c_slave_transfer_ioctl bdw intLayout
          { has_parent := false, chip_address_width := 7, chip_address := 80 } 1000 17 2000 2
          true 3 (Machine.init []
            (memOf 1000 [0, 0, 0, 0, 1, 0, 0, 0, 170, 1, 0, 0, 0, 2, 0, 0, 0]))) =
      some (some bdw.ERR_BAD_STATE) := by
  decide

/-- C10 (the code at a failing input): on responsive hardware a read of one
byte and a write of three bytes both succeed (the byte received is stored, the
three command words are written) and both return `NO_ERROR`, which is 0, not
the requested counts 1 and 3. -/
theorem read_and_write_return_no_error_instead_of_count :
    (intel_broadwell_serialio_i2c_slave_read bdw dev7 2000 1
        (Machine.init (hwSetup ++ [staRx, 171] ++ hwFinish) (memOf 2000 [0]))).1 = some 0 ∧
    (intel_broadwell_serialio_i2c_slave_read bdw dev7 2000 1
        (Machine.init (hwSetup ++ [staRx, 171] ++ hwFinish) (memOf 2000 [0]))).2.mem 2000 = 171 ∧
    (intel_broadwell_serialio_i2c_slave_write bdw dev7 100 3
        (Machine.init (hwSetup ++ [staIdle, staIdle, staIdle] ++ hwFinish)
          (memOf 100 [16, 32, 48]))).1 = some 0 ∧
    cmdWords (intel_broadwell_serialio_i2c_slave_write bdw dev7 100 3
        (Machine.init (hwSetup ++ [staIdle, staIdle, staIdle] ++ hwFinish)
          (memOf 100 [16, 32, 48]))).2.trace = [1040, 32, 560] := by
  decide

/-! ## How the trace grows -/

theorem Grows.refl (P : Event → Prop) (m : Machine) : Machine.Grows P m m :=
  ⟨[], by simp, by simp⟩

theorem Grows.trans {P : Event → Prop} {a b c : Machine} (h1 : Machine.Grows P a b)
    (h2 : Machine.Grows P b c) : Machine.Grows P a c := by
  obtain ⟨e1, h1, p1⟩ := h1
  obtain ⟨e2, h2, p2⟩ := h2
  refine ⟨e1 ++ e2, by rw [h2, h1, List.append_assoc], ?_⟩
  intro e he
  rcases List.mem_append.mp he with he | he
  · exact p1 e he
  · exact p2 e he

theorem spin_events (r : Reg) (stay : Nat → Bool) (hw : List Nat) :
    ∀ e ∈ (spin r stay hw).1, ∃ v, e = Event.rd r v := by
  induction hw with
  | nil => simp [spin]
  | cons v hw ih =>
    unfold spin
    split
    · intro e he
      simp only [List.mem_cons] at he
      rcases he with he | he
      · exact ⟨v, he⟩
      · exact ih e he
    · intro e he
      simp only [List.mem_singleton] at he
      exact ⟨v, he⟩

/-- A spin loop that ends has read a value for which the condition is false,
after reading only values for which it is true. -/
theorem spin_done (r : Reg) (stay : Nat → Bool) (hw rest : List Nat)
    (h : (spin r stay hw).2 = some rest) :
    ∃ pre v, (spin r stay hw).1 = pre ++ [Event.rd r v] ∧ stay v = false ∧
      ∀ e ∈ pre, ∃ u, e = Event.rd r u ∧ stay u = true := by
  induction hw with
  | nil => simp [spin] at h
  | cons v hw ih =>
    unfold spin at h ⊢
    by_cases hv : stay v = true
    · simp only [hv, if_true] at h ⊢
      obtain ⟨pre, u, h1, h2, h3⟩ := ih h
      refine ⟨Event.rd r v :: pre, u, by rw [h1]; rfl, h2, ?_⟩
      intro e he
      simp only [List.mem_cons] at he
      rcases he with he | he
      · exact ⟨v, he, hv⟩
      · exact h3 e he
    · simp only [hv, if_false] at h ⊢
      exact ⟨[], v, rfl, by simpa using hv, by simp⟩

theorem drain_events (r1 r2 : Reg) (test : Nat → Bool) (hw : List Nat) :
    ∀ e ∈ (drain r1 r2 test hw).1, ∃ r v, e = Event.rd r v := by
  induction hw using drain.induct r1 r2 test with
  | case1 => simp [drain]
  | case2 v => simp [drain]
  | case3 v d hw h ih =>
    intro e he
    simp only [drain, h, if_true, List.mem_cons] at he
    rcases he with he | he | he
    · exact ⟨r1, v, he⟩
    · exact ⟨r2, d, he⟩
    · exact ih e he
  | case4 v d hw h =>
    intro e he
    simp only [drain, h, List.mem_singleton] at he
    exact ⟨r1, v, by simpa using he⟩

theorem spin2_events (busy empty : Nat → Bool) (hw : List Nat) :
    ∀ e ∈ (spin2 busy empty hw).1, ∃ v, e = Event.rd Reg.i2c_sta v := by
  induction hw using spin2.induct busy empty with
  | case1 => simp [spin2]
  | case2 a => simp [spin2]
  | case3 a b hw h ih =>
    intro e he
    simp only [spin2, h, if_true, List.mem_cons] at he
    rcases he with he | he
    · exact ⟨a, he⟩
    · exact ih e he
  | case4 a b hw h1 h2 =>
    intro e he
    simp only [spin2, h1, h2, if_true, List.mem_cons] at he
    simp at he
    rcases he with he | he
    · exact ⟨a, he⟩
    · exact ⟨b, he⟩
  | case5 a b hw h1 h2 ih =>
    intro e he
    simp only [spin2, h1, h2, List.mem_cons] at he
    simp at he
    rcases he with he | he | he
    · exact ⟨a, he⟩
    · exact ⟨b, he⟩
    · exact ih e he

/-! ### The operations on a machine that keeps running -/

theorem loop_running {m : Machine} {f : List Nat → List Event × Option (List Nat)}
    (h : (m.loop f).stalled = false) :
    m.stalled = false ∧ (m.loop f).trace = m.trace ++ (f m.hw).1 ∧
      (f m.hw).2 = some (m.loop f).hw ∧ (m.loop f).mem = m.mem := by
  unfold Machine.loop at h ⊢
  cases hm : m.stalled
  · simp only [hm, Bool.false_eq_true, if_false] at h ⊢
    cases hf : (f m.hw).2 with
    | none => rw [hf] at h; simp at h
    | some hw => simp
  · simp [hm] at h

theorem read_running {m : Machine} {r : Reg} (h : (m.read r).2.stalled = false) :
    ∃ v rest, m.hw = v :: rest ∧ m.stalled = false ∧ (m.read r).1 = v ∧
      (m.read r).2.hw = rest ∧ (m.read r).2.trace = m.trace ++ [Event.rd r v] ∧
      (m.read r).2.mem = m.mem := by
  unfold Machine.read at h ⊢
  cases hm : m.stalled
  · cases hh : m.hw with
    | nil => simp [hm, hh] at h
    | cons v rest => exact ⟨v, rest, rfl, rfl, by simp, by simp, by simp, by simp⟩
  · simp [hm] at h

theorem write_running {m : Machine} {r : Reg} {v : Nat} (h : (m.write r v).stalled = false) :
    m.stalled = false ∧ (m.write r v).trace = m.trace ++ [Event.wr r (u32 v)] ∧
      (m.write r v).hw = m.hw ∧ (m.write r v).mem = m.mem := by
  unfold Machine.write at h ⊢
  cases hm : m.stalled
  · simp
  · simp [hm] at h

theorem log_running {m : Machine} {e : Event} (h : (m.log e).stalled = false) :
    m.stalled = false ∧ (m.log e).trace = m.trace ++ [e] ∧ (m.log e).hw = m.hw ∧
      (m.log e).mem = m.mem := by
  unfold Machine.log at h ⊢
  cases hm : m.stalled
  · simp
  · simp [hm] at h

theorem store_running {m : Machine} {a v : Nat} (h : (m.store a v).stalled = false) :
    m.stalled = false ∧ (m.store a v).trace = m.trace ∧ (m.store a v).hw = m.hw ∧
      (m.store a v).mem = fun x => if x = a then v % 256 else m.mem x := by
  unfold Machine.store at h ⊢
  cases hm : m.stalled
  · simp
  · simp [hm] at h

theorem RMWREG32_running {m : Machine} {r : Reg} {a b c : Nat}
    (h : (m.RMWREG32 r a b c).stalled = false) :
    ∃ v rest, m.hw = v :: rest ∧ m.stalled = false ∧ (m.RMWREG32 r a b c).hw = rest ∧
      (m.RMWREG32 r a b c).trace = m.trace ++
        [Event.rd r v, Event.wr r (u32 ((u32 v ^^^ (u32 v &&& ((2 ^ b - 1) <<< a))) ||| (c <<< a)))] ∧
      (m.RMWREG32 r a b c).mem = m.mem := by
  unfold Machine.RMWREG32 at h ⊢
  simp only at h ⊢
  obtain ⟨h1, h2, h3, h4⟩ := write_running h
  obtain ⟨v, rest, g1, g2, g3, g4, g5, g6⟩ := read_running h1
  refine ⟨v, rest, g1, g2, by rw [h3, g4], ?_, by rw [h4, g6]⟩
  rw [h2, g5, g3, List.append_assoc]
  rfl

theorem loop_grows {P : Event → Prop} (m : Machine)
    (f : List Nat → List Event × Option (List Nat)) (hf : ∀ hw, ∀ e ∈ (f hw).1, P e) :
    Machine.Grows P m (m.loop f) := by
  unfold Machine.loop
  split
  · exact Grows.refl P m
  · split
    · exact ⟨(f m.hw).1, rfl, hf m.hw⟩
    · exact ⟨(f m.hw).1, rfl, hf m.hw⟩

theorem read_grows {P : Event → Prop} (m : Machine) (r : Reg) (hP : ∀ v, P (Event.rd r v)) :
    Machine.Grows P m (m.read r).2 := by
  unfold Machine.read
  split
  · rename_i v hw _ _
    exact ⟨[Event.rd r v], rfl, by simpa using hP v⟩
  · exact Grows.refl P m

theorem write_grows {P : Event → Prop} (m : Machine) (r : Reg) (v : Nat)
    (hP : ∀ x, P (Event.wr r x)) : Machine.Grows P m (m.write r v) := by
  unfold Machine.write
  split
  · exact Grows.refl P m
  · exact ⟨[Event.wr r (u32 v)], rfl, by simpa using hP (u32 v)⟩

theorem store_grows {P : Event → Prop} (m : Machine) (a v : Nat) :
    Machine.Grows P m (m.store a v) := by
  unfold Machine.store
  split
  · exact Grows.refl P m
  · exact ⟨[], by simp, by simp⟩

theorem RMWREG32_grows {P : Event → Prop} (m : Machine) (r : Reg) (a b c : Nat)
    (h1 : ∀ v, P (Event.rd r v)) (h2 : ∀ v, P (Event.wr r v)) :
    Machine.Grows P m (m.RMWREG32 r a b c) := by
  unfold Machine.RMWREG32
  exact Grows.trans (read_grows m r h1) (write_grows _ r _ h2)

theorem spin_access (r : Reg) (stay : Nat → Bool) (hw : List Nat) :
    ∀ e ∈ (spin r stay hw).1, e.isAccess = true := by
  intro e he
  obtain ⟨v, rfl⟩ := spin_events r stay hw e he
  rfl

theorem drain_access (r1 r2 : Reg) (test : Nat → Bool) (hw : List Nat) :
    ∀ e ∈ (drain r1 r2 test hw).1, e.isAccess = true := by
  intro e he
  obtain ⟨r, v, rfl⟩ := drain_events r1 r2 test hw e he
  rfl

theorem spin2_access (busy empty : Nat → Bool) (hw : List Nat) :
    ∀ e ∈ (spin2 busy empty hw).1, e.isAccess = true := by
  intro e he
  obtain ⟨v, rfl⟩ := spin2_events busy empty hw e he
  rfl

theorem byteBody_grows {P : Event → Prop} (hrd : ∀ r v, P (Event.rd r v))
    (hwr : ∀ w, P (Event.wr Reg.data_cmd w)) (C : Consts) (read : Bool) (n restart buf : Nat)
    (m : Machine) : Machine.Grows P m (byteBody C read n restart buf m) := by
  unfold byteBody
  cases read
  · simp only [Bool.false_eq_true, if_false]
    exact Grows.trans (loop_grows m _ (fun hw e he => by
      obtain ⟨v, rfl⟩ := spin_events _ _ hw e he; exact hrd _ _)) (write_grows _ _ _ hwr)
  · simp only [if_true]
    exact Grows.trans (write_grows m _ _ hwr)
      (Grows.trans (loop_grows _ _ (fun hw e he => by
        obtain ⟨v, rfl⟩ := spin_events _ _ hw e he; exact hrd _ _))
        (Grows.trans (read_grows _ _ (hrd _)) (store_grows _ _ _)))

theorem byteLoop_grows {P : Event → Prop} (hrd : ∀ r v, P (Event.rd r v))
    (hwr : ∀ w, P (Event.wr Reg.data_cmd w)) (C : Consts) (read : Bool) (n : Nat) :
    ∀ (restart buf : Nat) (m : Machine),
      Machine.Grows P m (byteLoop C read n restart buf m) := by
  induction n with
  | zero => intro restart buf m; exact Grows.refl _ m
  | succ n ih =>
    intro restart buf m
    unfold byteLoop
    exact Grows.trans (byteBody_grows hrd hwr C read n restart buf m) (ih 0 (buf + 1) _)

theorem segmentLoop_grows {P : Event → Prop} (hrd : ∀ r v, P (Event.rd r v))
    (hwr : ∀ w, P (Event.wr Reg.data_cmd w)) (C : Consts) (segs : List Segment) :
    ∀ (last : Bool) (m : Machine), Machine.Grows P m (segmentLoop C last segs m) := by
  induction segs with
  | nil => intro last m; exact Grows.refl _ m
  | cons s rest ih =>
    intro last m
    unfold segmentLoop
    exact Grows.trans (byteLoop_grows hrd hwr C s.read _ _ _ m) (ih s.read _)

theorem log_trace (m : Machine) (e : Event) :
    (m.log e).stalled = m.stalled ∧
      (m.log e).trace = m.trace ++ (if (m.log e).stalled then [] else [e]) := by
  unfold Machine.log
  cases hm : m.stalled <;> simp [hm]

/-- Everything the transfer body does after taking the lock and before
releasing it is an access to a register. -/
theorem transferBody_inner_grows (C : Consts) (dev : SlaveDev) (a b : Nat)
    (segs : List Segment) (m : Machine) :
    Machine.Grows (fun e => e.isAccess = true) m
      ((((((segmentLoop C (initLastRead segs) segs
        ((((m.loop (spin Reg.i2c_sta (notIdle C))).RMWREG32
          Reg.ctl C.CTL_ADDRESSING_MODE 1 a).write Reg.tar_add
            ((b <<< C.TAR_ADD_WIDTH) ||| (dev.chip_address <<< C.TAR_ADD_IC_TAR))).RMWREG32
              Reg.i2c_en C.I2C_EN_ENABLE 1 1)).loop
                (drain Reg.raw_intr_stat Reg.clr_stop_det
                  (fun v => v &&& C.INTR_STOP_DETECTION != 0))).loop
                    (spin Reg.i2c_sta (notIdle C))).loop
                      (spin2 (staBit C.I2C_STA_CA) (staBit C.I2C_STA_TFCE))).loop
                        (drain Reg.i2c_sta Reg.data_cmd (staBit C.I2C_STA_RFNE)))) := by
  have hA : ∀ r v, (Event.rd r v).isAccess = true := fun _ _ => rfl
  have hB : ∀ r v, (Event.wr r v).isAccess = true := fun _ _ => rfl
  refine Grows.trans ?_ (loop_grows _ _ (drain_access _ _ _))
  refine Grows.trans ?_ (loop_grows _ _ (spin2_access _ _))
  refine Grows.trans ?_ (loop_grows _ _ (spin_access _ _))
  refine Grows.trans ?_ (loop_grows _ _ (drain_access _ _ _))
  refine Grows.trans ?_ (segmentLoop_grows hA (hB _) C segs _ _)
  refine Grows.trans ?_ (RMWREG32_grows _ _ _ _ _ (hA _) (hB _))
  refine Grows.trans ?_ (write_grows _ _ _ (hB _))
  refine Grows.trans ?_ (RMWREG32_grows _ _ _ _ _ (hA _) (hB _))
  exact loop_grows _ _ (spin_access _ _)

/-- Between taking and releasing the lock the transfer body only accesses
registers; the lock is released unless the run is cut off. -/
theorem transferBody_lock (C : Consts) (dev : SlaveDev) (a b : Nat) (segs : List Segment)
    (hw : List Nat) (mem : Nat → Nat) :
    ∃ mid, (∀ e ∈ mid, e.isAccess = true) ∧
      (transferBody C dev a b segs (Machine.init hw mem)).trace =
        Event.lock :: mid ++
          (if (transferBody C dev a b segs (Machine.init hw mem)).stalled then []
            else [Event.unlock]) := by
  obtain ⟨mid, h1, h2⟩ := transferBody_inner_grows C dev a b segs
    ((Machine.init hw mem).log Event.lock)
  refine ⟨mid, h2, ?_⟩
  have h0 : ((Machine.init hw mem).log Event.lock).trace = [Event.lock] := rfl
  rw [h0] at h1
  unfold transferBody
  simp only
  rw [(log_trace _ Event.unlock).2, h1]
  rfl

/-- The two ways through the transfer: a failed check returns an error and leaves
the machine alone, passed checks run the transfer body. -/
theorem transfer_cases (C : Consts) (dev : SlaveDev) (segs : List Segment) (m : Machine) :
    (passesChecks C dev = false ∧
        (intel_broadwell_serialio_i2c_slave_transfer C dev segs m).2 = m ∧
        ((intel_broadwell_serialio_i2c_slave_transfer C dev segs m).1 = some C.ERR_BAD_STATE ∨
          (intel_broadwell_serialio_i2c_slave_transfer C dev segs m).1 =
            some C.ERR_INVALID_ARGS)) ∨
      (passesChecks C dev = true ∧ ∃ a b,
        intel_broadwell_serialio_i2c_slave_transfer C dev segs m =
          (if (transferBody C dev a b segs m).stalled then none else some C.NO_ERROR,
            transferBody C dev a b segs m)) := by
  unfold intel_broadwell_serialio_i2c_slave_transfer passesChecks
  cases hp : dev.has_parent
  · left; simp
  · simp only [Bool.not_true, Bool.false_eq_true, if_false, Bool.true_and]
    by_cases h7 : dev.chip_address_width = C.I2C_7BIT_ADDRESS
    · right
      rw [if_pos h7]
      exact ⟨by simp [h7], _, _, rfl⟩
    · rw [if_neg h7]
      by_cases h10 : dev.chip_address_width = C.I2C_10BIT_ADDRESS
      · right
        rw [if_pos h10]
        exact ⟨by simp [h10], _, _, rfl⟩
      · left
        rw [if_neg h10]
        simp [h7, h10]

/-- What the transfer body does after the first idle wait. -/
theorem transferBody_rest_grows (C : Consts) (dev : SlaveDev) (a b : Nat)
    (segs : List Segment) (m : Machine) :
    Machine.Grows (fun _ => True) m
      (((((((segmentLoop C (initLastRead segs) segs
        (((m.RMWREG32
          Reg.ctl C.CTL_ADDRESSING_MODE 1 a).write Reg.tar_add
            ((b <<< C.TAR_ADD_WIDTH) ||| (dev.chip_address <<< C.TAR_ADD_IC_TAR))).RMWREG32
              Reg.i2c_en C.I2C_EN_ENABLE 1 1)).loop
                (drain Reg.raw_intr_stat Reg.clr_stop_det
                  (fun v => v &&& C.INTR_STOP_DETECTION != 0))).loop
                    (spin Reg.i2c_sta (notIdle C))).loop
                      (spin2 (staBit C.I2C_STA_CA) (staBit C.I2C_STA_TFCE))).loop
                        (drain Reg.i2c_sta Reg.data_cmd (staBit C.I2C_STA_RFNE)))).log
                          Event.unlock) := by
  have hw : ∀ (x : Machine) (e : Event), Machine.Grows (fun _ => True) x (x.log e) := by
    intro x e
    refine ⟨if (x.log e).stalled then [] else [e], (log_trace x e).2, fun _ _ => trivial⟩
  have hs : ∀ (x : Machine) (l : List Segment) (last : Bool),
      Machine.Grows (fun _ => True) x (segmentLoop C last l x) := by
    intro x l last
    exact segmentLoop_grows (fun _ _ => trivial) (fun _ => trivial) C l last x
  refine Grows.trans ?_ (hw _ _)
  refine Grows.trans ?_ (loop_grows _ _ (fun _ _ _ => trivial))
  refine Grows.trans ?_ (loop_grows _ _ (fun _ _ _ => trivial))
  refine Grows.trans ?_ (loop_grows _ _ (fun _ _ _ => trivial))
  refine Grows.trans ?_ (loop_grows _ _ (fun _ _ _ => trivial))
  refine Grows.trans ?_ (hs _ _ _)
  refine Grows.trans ?_ (RMWREG32_grows _ _ _ _ _ (fun _ => trivial) (fun _ => trivial))
  refine Grows.trans ?_ (write_grows _ _ _ (fun _ => trivial))
  exact RMWREG32_grows _ _ _ _ _ (fun _ => trivial) (fun _ => trivial)

/-- The start of every run of the transfer body: the lock, then reads of the
status register, and nothing after them unless the last of them showed the bus
idle. -/
theorem transferBody_starts_idle (C : Consts) (dev : SlaveDev) (a b : Nat)
    (segs : List Segment) (hw : List Nat) (mem : Nat → Nat) :
    ∃ p q, (transferBody C dev a b segs (Machine.init hw mem)).trace = p ++ q ∧
      (∀ e ∈ p, e.isWrite = false) ∧
      (q ≠ [] → ∃ p0 s, p = p0 ++ [Event.rd Reg.i2c_sta s] ∧ notIdle C s = false) := by
  obtain ⟨q, h1, _⟩ := transferBody_rest_grows C dev a b segs
    (((Machine.init hw mem).log Event.lock).loop (spin Reg.i2c_sta (notIdle C)))
  have htr : (((Machine.init hw mem).log Event.lock).loop (spin Reg.i2c_sta (notIdle C))).trace =
      Event.lock :: (spin Reg.i2c_sta (notIdle C) hw).1 := by
    unfold Machine.loop Machine.log Machine.init
    simp only [Bool.false_eq_true, if_false]
    split <;> rfl
  refine ⟨Event.lock :: (spin Reg.i2c_sta (notIdle C) hw).1, q, ?_, ?_, ?_⟩
  · unfold transferBody
    simp only
    rw [h1, htr]
  · intro e he
    simp only [List.mem_cons] at he
    rcases he with he | he
    · rw [he]; rfl
    · obtain ⟨v, rfl⟩ := spin_events _ _ _ e he
      rfl
  · intro hq
    cases hst : (((Machine.init hw mem).log Event.lock).loop
        (spin Reg.i2c_sta (notIdle C))).stalled
    · obtain ⟨_, _, g3, _⟩ := loop_running hst
      have g3' : (spin Reg.i2c_sta (notIdle C) hw).2 = some
          (((Machine.init hw mem).log Event.lock).loop (spin Reg.i2c_sta (notIdle C))).hw := g3
      obtain ⟨pre, v, k1, k2, _⟩ := spin_done _ _ _ _ g3'
      exact ⟨Event.lock :: pre, v, by rw [k1]; rfl, k2⟩
    · exfalso
      apply hq
      have hsame : (((((((segmentLoop C (initLastRead segs) segs
          ((((((Machine.init hw mem).log Event.lock).loop
            (spin Reg.i2c_sta (notIdle C))).RMWREG32
            Reg.ctl C.CTL_ADDRESSING_MODE 1 a).write Reg.tar_add
              ((b <<< C.TAR_ADD_WIDTH) ||| (dev.chip_address <<< C.TAR_ADD_IC_TAR))).RMWREG32
                Reg.i2c_en C.I2C_EN_ENABLE 1 1)).loop
                  (drain Reg.raw_intr_stat Reg.clr_stop_det
                    (fun v => v &&& C.INTR_STOP_DETECTION != 0))).loop
                      (spin Reg.i2c_sta (notIdle C))).loop
                        (spin2 (staBit C.I2C_STA_CA) (staBit C.I2C_STA_TFCE))).loop
                          (drain Reg.i2c_sta Reg.data_cmd (staBit C.I2C_STA_RFNE)))).log
                            Event.unlock) =
          (((Machine.init hw mem).log Event.lock).loop (spin Reg.i2c_sta (notIdle C))) := by
        rw [RMWREG32_of_stalled hst, write_of_stalled hst, RMWREG32_of_stalled hst,
          segmentLoop_of_stalled C _ _ hst, loop_of_stalled hst, loop_of_stalled hst,
          loop_of_stalled hst, loop_of_stalled hst, log_of_stalled hst]
      rw [hsame] at h1
      have := congrArg List.length h1
      simp only [List.length_append] at this
      exact List.eq_nil_of_length_eq_zero (by omega)

/-- The last four steps of the transfer body on a machine that is still running
at the end. -/
theorem tail_ends_idle (C : Consts) (x : Machine)
    (h : ((((x.loop (spin Reg.i2c_sta (notIdle C))).loop
      (spin2 (staBit C.I2C_STA_CA) (staBit C.I2C_STA_TFCE))).loop
        (drain Reg.i2c_sta Reg.data_cmd (staBit C.I2C_STA_RFNE))).log
          Event.unlock).stalled = false) :
    ∃ pre s hw2 hw3, ((((x.loop (spin Reg.i2c_sta (notIdle C))).loop
      (spin2 (staBit C.I2C_STA_CA) (staBit C.I2C_STA_TFCE))).loop
        (drain Reg.i2c_sta Reg.data_cmd (staBit C.I2C_STA_RFNE))).log
          Event.unlock).trace =
        pre ++ Event.rd Reg.i2c_sta s ::
          ((spin2 (staBit C.I2C_STA_CA) (staBit C.I2C_STA_TFCE) hw2).1 ++
            (drain Reg.i2c_sta Reg.data_cmd (staBit C.I2C_STA_RFNE) hw3).1 ++ [Event.unlock]) ∧
      notIdle C s = false ∧
      cmdWords pre = cmdWords ((((x.loop (spin Reg.i2c_sta (notIdle C))).loop
        (spin2 (staBit C.I2C_STA_CA) (staBit C.I2C_STA_TFCE))).loop
          (drain Reg.i2c_sta Reg.data_cmd (staBit C.I2C_STA_RFNE))).log
            Event.unlock).trace := by
  obtain ⟨h1, t1, _, _⟩ := log_running h
  obtain ⟨h2, t2, _, _⟩ := loop_running h1
  obtain ⟨h3, t3, _, _⟩ := loop_running h2
  obtain ⟨h4, t4, g4, _⟩ := loop_running h3
  obtain ⟨p0, s, k1, k2, k3⟩ := spin_done _ _ _ _ g4
  refine ⟨x.trace ++ p0, s, (x.loop (spin Reg.i2c_sta (notIdle C))).hw,
    ((x.loop (spin Reg.i2c_sta (notIdle C))).loop
      (spin2 (staBit C.I2C_STA_CA) (staBit C.I2C_STA_TFCE))).hw, ?_, k2, ?_⟩
  · rw [t1, t2, t3, t4, k1]
    simp only [List.append_assoc, List.singleton_append, List.cons_append, List.nil_append]
  · rw [t1, t2, t3, t4, k1]
    simp only [cmdWords_append, cmdWords_spin2, cmdWords_drain]
    simp [cmdWords, cmdWord]

/-- The end of a run of the transfer body that is not cut off: after the last
command word a read of the status register shows the bus idle, and what follows
is the second wait, the draining of the RX FIFO and the release of the lock. -/
theorem transferBody_ends_idle (C : Consts) (dev : SlaveDev) (a b : Nat)
    (segs : List Segment) (m : Machine)
    (h : (transferBody C dev a b segs m).stalled = false) :
    ∃ pre s hw2 hw3, (transferBody C dev a b segs m).trace =
        pre ++ Event.rd Reg.i2c_sta s ::
          ((spin2 (staBit C.I2C_STA_CA) (staBit C.I2C_STA_TFCE) hw2).1 ++
            (drain Reg.i2c_sta Reg.data_cmd (staBit C.I2C_STA_RFNE) hw3).1 ++ [Event.unlock]) ∧
      notIdle C s = false ∧
      cmdWords pre = cmdWords (transferBody C dev a b segs m).trace := by
  unfold transferBody at h ⊢
  exact tail_ends_idle C _ h

/-! ## The register writes of a transfer -/

theorem writesOf_append (a b : List Event) : writesOf (a ++ b) = writesOf a ++ writesOf b := by
  simp [writesOf]

theorem writesOf_reads (evs : List Event) (h : ∀ e ∈ evs, ∃ r v, e = Event.rd r v) :
    writesOf evs = [] := by
  induction evs with
  | nil => rfl
  | cons e evs ih =>
    obtain ⟨r, v, rfl⟩ := h _ (List.mem_cons_self _ _)
    have := ih (fun x hx => h x (List.mem_cons_of_mem _ hx))
    simpa [writesOf, writeOf] using this

theorem writesOf_spin (r : Reg) (stay : Nat → Bool) (hw : List Nat) :
    writesOf (spin r stay hw).1 = [] :=
  writesOf_reads _ (fun e he => by obtain ⟨v, rfl⟩ := spin_events r stay hw e he; exact ⟨_, _, rfl⟩)

theorem writesOf_drain (r1 r2 : Reg) (test : Nat → Bool) (hw : List Nat) :
    writesOf (drain r1 r2 test hw).1 = [] :=
  writesOf_reads _ (drain_events r1 r2 test hw)

theorem writesOf_spin2 (busy empty : Nat → Bool) (hw : List Nat) :
    writesOf (spin2 busy empty hw).1 = [] :=
  writesOf_reads _ (fun e he => by
    obtain ⟨v, rfl⟩ := spin2_events busy empty hw e he; exact ⟨_, _, rfl⟩)

/-- A list of register reads and command words has no other write than the
command words. -/
theorem writesOf_of_reads_and_words (evs : List Event)
    (h : ∀ e ∈ evs, (∃ r v, e = Event.rd r v) ∨ ∃ w, e = Event.wr Reg.data_cmd w) :
    writesOf evs = (cmdWords evs).map (fun w => (Reg.data_cmd, w)) := by
  induction evs with
  | nil => rfl
  | cons e evs ih =>
    have ih1 := ih (fun x hx => h x (List.mem_cons_of_mem _ hx))
    rcases h _ (List.mem_cons_self _ _) with ⟨r, v, rfl⟩ | ⟨w, rfl⟩
    · simpa [writesOf, writeOf, cmdWords, cmdWord] using ih1
    · simp only [writesOf, cmdWords] at ih1
      simp [writesOf, writeOf, cmdWords, cmdWord, ih1]

theorem segmentLoop_running (C : Consts) (last : Bool) (segs : List Segment) {m : Machine}
    (h : (segmentLoop C last segs m).stalled = false) : m.stalled = false := by
  cases hm : m.stalled
  · rfl
  · rw [segmentLoop_of_stalled C _ _ hm, hm] at h; exact h

/-- The register writes of a transfer body that is not cut off: the control
register, the target address, the enable register, and then the command words. -/
theorem transferBody_writes (C : Consts) (dev : SlaveDev) (a b : Nat) (segs : List Segment)
    (hw : List Nat) (mem : Nat → Nat)
    (h : (transferBody C dev a b segs (Machine.init hw mem)).stalled = false) :
    ∃ c e, writesOf (transferBody C dev a b segs (Machine.init hw mem)).trace =
      [(Reg.ctl, rmwValue c C.CTL_ADDRESSING_MODE 1 a),
        (Reg.tar_add, u32 ((b <<< C.TAR_ADD_WIDTH) ||| (dev.chip_address <<< C.TAR_ADD_IC_TAR))),
        (Reg.i2c_en, rmwValue e C.I2C_EN_ENABLE 1 1)] ++
      (cmdWords (transferBody C dev a b segs (Machine.init hw mem)).trace).map
        (fun w => (Reg.data_cmd, w)) := by
  unfold transferBody at h ⊢
  simp only at h ⊢
  obtain ⟨h1, t1, _, _⟩ := log_running h
  obtain ⟨h2, t2, _, _⟩ := loop_running h1
  obtain ⟨h3, t3, _, _⟩ := loop_running h2
  obtain ⟨h4, t4, _, _⟩ := loop_running h3
  obtain ⟨h5, t5, _, _⟩ := loop_running h4
  have h6 := segmentLoop_running C _ _ h5
  obtain ⟨evs, t6, p6⟩ := segmentLoop_grows
    (P := fun e => (∃ r v, e = Event.rd r v) ∨ ∃ w, e = Event.wr Reg.data_cmd w)
    (fun r v => Or.inl ⟨r, v, rfl⟩) (fun w => Or.inr ⟨w, rfl⟩) C segs (initLastRead segs)
    (((((((Machine.init hw mem).log Event.lock).loop (spin Reg.i2c_sta (notIdle C))).RMWREG32
      Reg.ctl C.CTL_ADDRESSING_MODE 1 a).write Reg.tar_add
        ((b <<< C.TAR_ADD_WIDTH) ||| (dev.chip_address <<< C.TAR_ADD_IC_TAR))).RMWREG32
          Reg.i2c_en C.I2C_EN_ENABLE 1 1))
  obtain ⟨e, _, _, h7, _, t7, _⟩ := RMWREG32_running h6
  obtain ⟨h9, t9, _, _⟩ := write_running h7
  obtain ⟨c, _, _, h10, _, t10, _⟩ := RMWREG32_running h9
  obtain ⟨h11, t11, _, _⟩ := loop_running h10
  obtain ⟨_, t12, _, _⟩ := log_running h11
  refine ⟨c, e, ?_⟩
  rw [t1, t2, t3, t4, t5, t6, t7, t9, t10, t11, t12]
  simp only [writesOf_append, cmdWords_append, writesOf_spin, writesOf_drain, writesOf_spin2,
    cmdWords_spin, cmdWords_drain, cmdWords_spin2, writesOf_of_reads_and_words evs p6]
  simp [writesOf, writeOf, cmdWords, cmdWord, rmwValue, Machine.init]

/-! ## What the operations do to memory -/

theorem loop_mem (m : Machine) (f : List Nat → List Event × Option (List Nat)) :
    (m.loop f).mem = m.mem := by
  unfold Machine.loop
  split
  · rfl
  · split <;> rfl

theorem read_mem (m : Machine) (r : Reg) : (m.read r).2.mem = m.mem := by
  unfold Machine.read
  split <;> rfl

theorem write_mem (m : Machine) (r : Reg) (v : Nat) : (m.write r v).mem = m.mem := by
  unfold Machine.write
  split <;> rfl

theorem log_mem (m : Machine) (e : Event) : (m.log e).mem = m.mem := by
  unfold Machine.log
  split <;> rfl

theorem RMWREG32_mem (m : Machine) (r : Reg) (a b c : Nat) :
    (m.RMWREG32 r a b c).mem = m.mem := by
  unfold Machine.RMWREG32
  simp only [write_mem, read_mem]

/-- The transfer body on an empty request leaves memory alone. -/
theorem transferBody_nil_mem (C : Consts) (dev : SlaveDev) (a b : Nat) (m : Machine) :
    (transferBody C dev a b [] m).mem = m.mem := by
  unfold transferBody
  simp only [segmentLoop, log_mem, loop_mem, RMWREG32_mem, write_mem]

theorem drain_stop (r1 r2 : Reg) (test : Nat → Bool) (v : Nat) (rest : List Nat)
    (h : test v = false) : drain r1 r2 test (v :: rest) = ([Event.rd r1 v], some rest) := by
  cases rest with
  | nil => simp [drain, h]
  | cons d hw => simp [drain, h]

/-- Hardware that answers every poll of an empty request at once: the transfer
body is not cut off. -/
theorem transferBody_nil_returns (C : Consts) (dev : SlaveDev) (a b : Nat)
    (s0 c e r s1 s2 s3 s4 : Nat) (rest : List Nat) (mem : Nat → Nat)
    (h0 : notIdle C s0 = false) (hr : (r &&& C.INTR_STOP_DETECTION != 0) = false)
    (h1 : notIdle C s1 = false) (h2 : staBit C.I2C_STA_CA s2 = false)
    (h3 : staBit C.I2C_STA_TFCE s3 = true) (h4 : staBit C.I2C_STA_RFNE s4 = false) :
    (transferBody C dev a b []
      (Machine.init (s0 :: c :: e :: r :: s1 :: s2 :: s3 :: s4 :: rest) mem)).stalled = false := by
  simp [transferBody, Machine.init, Machine.log, Machine.loop, spin, h0, Machine.RMWREG32,
    Machine.read, Machine.write, segmentLoop, drain, hr, h1, spin2, h2, h3,
    drain_stop _ _ _ s4 rest h4]

/-- C11: a slave that has a parent and an address width that is neither
`I2C_7BIT_ADDRESS` nor `I2C_10BIT_ADDRESS` makes the transfer return
`ERR_INVALID_ARGS` for every request, with the machine as it was: no event in
the trace (no register read or written, lock not taken), no byte of memory
changed, no hardware response used. -/
theorem invalid_address_width_is_rejected (C : Consts) (dev : SlaveDev)
    (segments : List Segment) (m : Machine) (hp : dev.has_parent = true)
    (h7 : dev.chip_address_width ≠ C.I2C_7BIT_ADDRESS)
    (h10 : dev.chip_address_width ≠ C.I2C_10BIT_ADDRESS) :
    intel_broadwell_serialio_i2c_slave_transfer C dev segments m =
      (some C.ERR_INVALID_ARGS, m) := by
  unfold intel_broadwell_serialio_i2c_slave_transfer
  rw [hp, if_neg h7, if_neg h10]
  rfl

/-- C11 on a slave of address width 8 and a two-segment request. -/
theorem invalid_address_width_is_rejected_witness :
    dev8.has_parent = true ∧ dev8.chip_address_width ≠ bdw.I2C_7BIT_ADDRESS ∧
    dev8.chip_address_width ≠ bdw.I2C_10BIT_ADDRESS ∧
    intel_broadwell_serialio_i2c_slave_transfer bdw dev8
        [{ read := false, len := 1, buf := 100 }, { read := true, len := 2, buf := 200 }]
        (Machine.init (hwSetup ++ [staIdle, staRx, 171, staRx, 205] ++ hwFinish)
          (memOf 100 [170])) =
      (some bdw.ERR_INVALID_ARGS,
        Machine.init (hwSetup ++ [staIdle, staRx, 171, staRx, 205] ++ hwFinish)
          (memOf 100 [170])) :=
  ⟨by decide, by decide, by decide,
    invalid_address_width_is_rejected bdw dev8
      [{ read := false, len := 1, buf := 100 }, { read := true, len := 2, buf := 200 }]
      (Machine.init (hwSetup ++ [staIdle, staRx, 171, staRx, 205] ++ hwFinish)
        (memOf 100 [170])) (by decide) (by decide) (by decide)⟩

/-- C12: a slave without parent makes the transfer return `ERR_BAD_STATE` for
every request and every address width, with the machine as it was: no event in
the trace (no register access, lock not taken), no byte of memory changed. -/
theorem orphaned_slave_is_rejected (C : Consts) (dev : SlaveDev)
    (segments : List Segment) (m : Machine) (hp : dev.has_parent = false) :
    intel_broadwell_serialio_i2c_slave_transfer C dev segments m =
      (some C.ERR_BAD_STATE, m) := by
  unfold intel_broadwell_serialio_i2c_slave_transfer
  rw [hp]
  rfl

/-- C12 on a slave without parent whose address width is valid, and on one whose
address width is not. -/
theorem orphaned_slave_is_rejected_witness :
    devOrphan.has_parent = false ∧
    intel_broadwell_serialio_i2c_slave_transfer bdw devOrphan
        [{ read := false, len := 1, buf := 100 }, { read := true, len := 2, buf := 200 }]
        (Machine.init (hwSetup ++ [staIdle, staRx, 171, staRx, 205] ++ hwFinish)
          (memOf 100 [170])) =
      (some bdw.ERR_BAD_STATE,
        Machine.init (hwSetup ++ [staIdle, staRx, 171, staRx, 205] ++ hwFinish)
          (memOf 100 [170])) ∧
    intel_broadwell_serialio_i2c_slave_transfer bdw
        { has_parent := false, chip_address_width := 8, chip_address := 80 }
        [{ read := true, len := 2, buf := 200 }] (Machine.init hwSetup (memOf 100 [170])) =
      (some bdw.ERR_BAD_STATE, Machine.init hwSetup (memOf 100 [170])) :=
  ⟨by decide,
    orphaned_slave_is_rejected bdw devOrphan
      [{ read := false, len := 1, buf := 100 }, { read := true, len := 2, buf := 200 }]
      (Machine.init (hwSetup ++ [staIdle, staRx, 171, staRx, 205] ++ hwFinish)
        (memOf 100 [170])) (by decide),
    orphaned_slave_is_rejected bdw
      { has_parent := false, chip_address_width := 8, chip_address := 80 }
      [{ read := true, len := 2, buf := 200 }] (Machine.init hwSetup (memOf 100 [170]))
      (by decide)⟩

/-- C13 (counterexample): an empty request on a slave with a parent and a 7-bit
address, with the control register holding 16 (10-bit addressing) and the enable
register holding 0.  The call returns `NO_ERROR`, and on its way it writes 0 to
the control register, 80 to the target address register and 1 to the enable
register: the registers are not left as they were found. -/
theorem empty_request_changes_registers :
    (intel_broadwell_serialio_i2c_slave_transfer bdw dev7 []
        (Machine.init ([staIdle, 16, 0] ++ hwFinish) (memOf 0 []))).1 = some bdw.NO_ERROR ∧
    (intel_broadwell_serialio_i2c_slave_transfer bdw dev7 []
        (Machine.init ([staIdle, 16, 0] ++ hwFinish) (memOf 0 []))).2.trace =
      [Event.lock, Event.rd Reg.i2c_sta 6, Event.rd Reg.ctl 16, Event.wr Reg.ctl 0,
        Event.wr Reg.tar_add 80, Event.rd Reg.i2c_en 0, Event.wr Reg.i2c_en 1,
        Event.rd Reg.raw_intr_stat 0, Event.rd Reg.i2c_sta 6, Event.rd Reg.i2c_sta 6,
        Event.rd Reg.i2c_sta 6, Event.rd Reg.i2c_sta 6, Event.unlock] := by
  decide

theorem ioctl_of_gate (C : Consts) (L : IoctlLayout) (dev : SlaveDev)
    (in_buf in_len out_buf out_len : Nat) (alloc_ok : Bool) (fuel : Nat) (m : Machine) (w : Walk)
    (h1 : pass1 C L m.mem fuel (walkInit in_buf in_len) = some (Except.ok w))
    (hgate : out_len < w.write_len) :
    intel_broadwell_serialio_i2c_slave_transfer_ioctl C L dev in_buf in_len out_buf out_len
      alloc_ok fuel m =
      some { status := some C.ERR_INVALID_ARGS, segments := none, m := m } := by
  unfold intel_broadwell_serialio_i2c_slave_transfer_ioctl
  simp only [h1, if_pos hgate]

/-- C14: for an input that the first walk passes to its end, the call is turned
down at the size gate (`ERR_INVALID_ARGS`, no segment array, machine untouched)
exactly when the output capacity is smaller than the accumulated write total;
otherwise the segment array is built.  The write total is the sum of the
declared write lengths in `size_t`; the read total is accumulated as well and
appears in no condition. -/
theorem size_gate_compares_with_write_total (C : Consts) (L : IoctlLayout) (dev : SlaveDev)
    (in_buf in_len out_buf out_len fuel : Nat) (m : Machine) (w : Walk)
    (hin : in_len < 2 ^ 64)
    (hacc : pass1 C L m.mem fuel (walkInit in_buf in_len) = some (Except.ok w)) :
    (out_len < w.write_len ↔
      Option.map IoctlResult.segments
        (intel_broadwell_serialio_i2c_slave_transfer_ioctl C L dev in_buf in_len out_buf out_len
          true fuel m) = some none) ∧
    (out_len < w.write_len → ∀ alloc_ok,
      intel_broadwell_serialio_i2c_slave_transfer_ioctl C L dev in_buf in_len out_buf out_len
        alloc_ok fuel m =
        some { status := some C.ERR_INVALID_ARGS, segments := none, m := m }) ∧
    w.write_len =
      sz (declaredTotal false (pass1Records C L m.mem fuel (walkInit in_buf in_len))) ∧
    w.read_len =
      sz (declaredTotal true (pass1Records C L m.mem fuel (walkInit in_buf in_len))) := by
  have htot := pass1_totals C L m.mem fuel _ w hacc (by simp [walkInit]) (by simp [walkInit])
  refine ⟨⟨fun hg => ?_, fun hs => ?_⟩,
    fun hg alloc_ok => ioctl_of_gate C L dev in_buf in_len out_buf out_len alloc_ok fuel m w hacc hg,
    ?_, ?_⟩
  · rw [ioctl_of_gate C L dev in_buf in_len out_buf out_len true fuel m w hacc hg]
    rfl
  · by_contra hg
    obtain ⟨b, h1, _⟩ := pass2_of_accepted C L m.mem in_buf in_len out_buf fuel w hin hacc
    rw [ioctl_of_accepted C L dev in_buf in_len out_buf out_len fuel m w b hacc hg h1] at hs
    simp at hs
  · rw [htot.2.1]; simp [walkInit]
  · rw [htot.2.2.1]; simp [walkInit]

/-- C14 on the input of example scenario 2 (write total 1, read total 2): with
output capacity 0 the call is turned down at the size gate, with output capacity 1,
which is below the read total, it is not. -/
theorem size_gate_compares_with_write_total_witness :
    (17 : Nat) < 2 ^ 64 ∧
    pass1 bdw intLayout (memOf 1000 [0, 0, 0, 0, 1, 0, 0, 0, 170, 1, 0, 0, 0, 2, 0, 0, 0]) 3
        (walkInit 1000 17) =
      some (Except.ok { size := 0, read_len := 2, write_len := 1, segment_count := 2,
                        segment_addr := 1017 }) ∧
    Option.map IoctlResult.segments
        (intel_broadwell_serialio_i2c_slave_transfer_ioctl bdw intLayout dev7 1000 17 2000 0
          true 3 (Machine.init (hwSetup ++ [staIdle, staRx, 171, staRx, 205] ++ hwFinish)
            (memOf 1000 [0, 0, 0, 0, 1, 0, 0, 0, 170, 1, 0, 0, 0, 2, 0, 0, 0]))) = some none ∧
    ¬ Option.map IoctlResult.segments
        (intel_broadwell_serialio_i2c_slave_transfer_ioctl bdw intLayout dev7 1000 17 2000 1
          true 3 (Machine.init (hwSetup ++ [staIdle, staRx, 171, staRx, 205] ++ hwFinish)
            (memOf 1000 [0, 0, 0, 0, 1, 0, 0, 0, 170, 1, 0, 0, 0, 2, 0, 0, 0]))) = some none :=
  ⟨by decide, rfl,
    (size_gate_compares_with_write_total bdw intLayout dev7 1000 17 2000 0 3
      (Machine.init (hwSetup ++ [staIdle, staRx, 171, staRx, 205] ++ hwFinish)
        (memOf 1000 [0, 0, 0, 0, 1, 0, 0, 0, 170, 1, 0, 0, 0, 2, 0, 0, 0]))
      { size := 0, read_len := 2, write_len := 1, segment_count := 2, segment_addr := 1017 }
      (by decide) rfl).1.mp (by decide),
    fun h => absurd ((size_gate_compares_with_write_total bdw intLayout dev7 1000 17 2000 1 3
      (Machine.init (hwSetup ++ [staIdle, staRx, 171, staRx, 205] ++ hwFinish)
        (memOf 1000 [0, 0, 0, 0, 1, 0, 0, 0, 170, 1, 0, 0, 0, 2, 0, 0, 0]))
      { size := 0, read_len := 2, write_len := 1, segment_count := 2, segment_addr := 1017 }
      (by decide) rfl).1.mpr h) (by decide)⟩

theorem notIdle_eq_false (C : Consts) (s : Nat) (h : notIdle C s = false) :
    staBit C.I2C_STA_CA s = false ∧ staBit C.I2C_STA_TFCE s = true := by
  unfold notIdle at h
  cases h1 : staBit C.I2C_STA_CA s <;> cases h2 : staBit C.I2C_STA_TFCE s <;> simp_all

/-- C17: in every run of the transfer that passes the checks, (1) the trace
splits into a part `p` without any register write and the rest `q`, and `q` is
empty unless `p` ends with a read of the status register showing the bus idle
(`I2C_STA_CA` clear, `I2C_STA_TFCE` set): no register is written before that
read; (2) when the call returns, the trace ends with a read of the status
register showing the bus idle, followed only by the second wait loop, the
draining of the RX FIFO and the release of the lock, all command words having
been written before that read. -/
theorem idle_is_observed_before_and_after (C : Consts) (dev : SlaveDev)
    (segments : List Segment) (hw : List Nat) (mem : Nat → Nat)
    (hv : passesChecks C dev = true) :
    (∃ p q, (intel_broadwell_serialio_i2c_slave_transfer C dev segments
        (Machine.init hw mem)).2.trace = p ++ q ∧
      (∀ e ∈ p, e.isWrite = false) ∧
      (q ≠ [] → ∃ p0 s, p = p0 ++ [Event.rd Reg.i2c_sta s] ∧
        staBit C.I2C_STA_CA s = false ∧ staBit C.I2C_STA_TFCE s = true)) ∧
    ((intel_broadwell_serialio_i2c_slave_transfer C dev segments
        (Machine.init hw mem)).1 ≠ none →
      ∃ pre s hw2 hw3, (intel_broadwell_serialio_i2c_slave_transfer C dev segments
          (Machine.init hw mem)).2.trace =
          pre ++ Event.rd Reg.i2c_sta s ::
            ((spin2 (staBit C.I2C_STA_CA) (staBit C.I2C_STA_TFCE) hw2).1 ++
              (drain Reg.i2c_sta Reg.data_cmd (staBit C.I2C_STA_RFNE) hw3).1 ++
              [Event.unlock]) ∧
        staBit C.I2C_STA_CA s = false ∧ staBit C.I2C_STA_TFCE s = true ∧
        cmdWords pre = cmdWords (intel_broadwell_serialio_i2c_slave_transfer C dev segments
          (Machine.init hw mem)).2.trace) := by
  rcases transfer_cases C dev segments (Machine.init hw mem) with ⟨h1, _, _⟩ | ⟨_, a, b, h2⟩
  · rw [h1] at hv; cases hv
  · rw [h2]
    simp only
    constructor
    · obtain ⟨p, q, g1, g2, g3⟩ := transferBody_starts_idle C dev a b segments hw mem
      refine ⟨p, q, g1, g2, fun hq => ?_⟩
      obtain ⟨p0, s, k1, k2⟩ := g3 hq
      exact ⟨p0, s, k1, notIdle_eq_false C s k2⟩
    · intro hret
      have hst : (transferBody C dev a b segments (Machine.init hw mem)).stalled = false := by
        cases hs : (transferBody C dev a b segments (Machine.init hw mem)).stalled
        · rfl
        · rw [hs] at hret; simp at hret
      obtain ⟨pre, s, hw2, hw3, g1, g2, g3⟩ :=
        transferBody_ends_idle C dev a b segments (Machine.init hw mem) hst
      exact ⟨pre, s, hw2, hw3, g1, (notIdle_eq_false C s g2).1, (notIdle_eq_false C s g2).2, g3⟩

/-- C17 on the request of example scenario 2 with responsive hardware. -/
theorem idle_is_observed_before_and_after_witness :
    passesChecks bdw dev7 = true ∧
    (∃ p q, (intel_broadwell_serialio_i2c_slave_transfer bdw dev7
        [{ read := false, len := 1, buf := 100 }, { read := true, len := 2, buf := 200 }]
        (Machine.init (hwSetup ++ [staIdle, staRx, 171, staRx, 205] ++ hwFinish)
          (memOf 100 [170]))).2.trace = p ++ q ∧
      (∀ e ∈ p, e.isWrite = false) ∧
      (q ≠ [] → ∃ p0 s, p = p0 ++ [Event.rd Reg.i2c_sta s] ∧
        staBit bdw.I2C_STA_CA s = false ∧ staBit bdw.I2C_STA_TFCE s = true)) ∧
    ∃ pre s hw2 hw3, (intel_broadwell_serialio_i2c_slave_transfer bdw dev7
        [{ read := false, len := 1, buf := 100 }, { read := true, len := 2, buf := 200 }]
        (Machine.init (hwSetup ++ [staIdle, staRx, 171, staRx, 205] ++ hwFinish)
          (memOf 100 [170]))).2.trace =
        pre ++ Event.rd Reg.i2c_sta s ::
          ((spin2 (staBit bdw.I2C_STA_CA) (staBit bdw.I2C_STA_TFCE) hw2).1 ++
            (drain Reg.i2c_sta Reg.data_cmd (staBit bdw.I2C_STA_RFNE) hw3).1 ++
            [Event.unlock]) ∧
      staBit bdw.I2C_STA_CA s = false ∧ staBit bdw.I2C_STA_TFCE s = true ∧
      cmdWords pre = cmdWords (intel_broadwell_serialio_i2c_slave_transfer bdw dev7
        [{ read := false, len := 1, buf := 100 }, { read := true, len := 2, buf := 200 }]
        (Machine.init (hwSetup ++ [staIdle, staRx, 171, staRx, 205] ++ hwFinish)
          (memOf 100 [170]))).2.trace :=
  ⟨by decide,
    (idle_is_observed_before_and_after bdw dev7
      [{ read := false, len := 1, buf := 100 }, { read := true, len := 2, buf := 200 }]
      (hwSetup ++ [staIdle, staRx, 171, staRx, 205] ++ hwFinish) (memOf 100 [170])
      (by decide)).1,
    (idle_is_observed_before_and_after bdw dev7
      [{ read := false, len := 1, buf := 100 }, { read := true, len := 2, buf := 200 }]
      (hwSetup ++ [staIdle, staRx, 171, staRx, 205] ++ hwFinish) (memOf 100 [170])
      (by decide)).2 (by decide)⟩

/-- C18: the lock events of every run of the transfer.  When a check fails the
trace is empty, so the lock is never taken.  When the checks pass the trace is
`lock`, then accesses to registers only, then `unlock`: the lock is taken once
before the first register access and released once after the last; the `unlock`
is missing only when the run is cut off inside a spin loop, in which case the
call has not returned. -/
theorem bus_lock_is_balanced (C : Consts) (dev : SlaveDev) (segments : List Segment)
    (hw : List Nat) (mem : Nat → Nat) :
    (passesChecks C dev = false →
      (intel_broadwell_serialio_i2c_slave_transfer C dev segments
        (Machine.init hw mem)).2.trace = []) ∧
    (passesChecks C dev = true →
      ∃ mid, (∀ e ∈ mid, e.isAccess = true) ∧
        (intel_broadwell_serialio_i2c_slave_transfer C dev segments
          (Machine.init hw mem)).2.trace =
          Event.lock :: mid ++
            (if (intel_broadwell_serialio_i2c_slave_transfer C dev segments
              (Machine.init hw mem)).1 = none then [] else [Event.unlock])) := by
  rcases transfer_cases C dev segments (Machine.init hw mem) with ⟨h1, h2, _⟩ | ⟨h1, a, b, h2⟩
  · refine ⟨fun _ => ?_, fun h => ?_⟩
    · rw [h2]; rfl
    · rw [h1] at h; cases h
  · refine ⟨fun h => ?_, fun _ => ?_⟩
    · rw [h1] at h; cases h
    obtain ⟨mid, g1, g2⟩ := transferBody_lock C dev a b segments hw mem
    refine ⟨mid, g1, ?_⟩
    rw [h2]
    simp only
    rw [g2]
    cases (transferBody C dev a b segments (Machine.init hw mem)).stalled <;> simp

/-- C18 on the request of example scenario 2 with responsive hardware (the run
returns, so the trace ends with `unlock`) and on a slave of width 8. -/
theorem bus_lock_is_balanced_witness :
    passesChecks bdw dev8 = false ∧
    (intel_broadwell_serialio_i2c_slave_transfer bdw dev8
        [{ read := false, len := 1, buf := 100 }]
        (Machine.init (hwSetup ++ [staIdle] ++ hwFinish) (memOf 100 [170]))).2.trace = [] ∧
    passesChecks bdw dev7 = true ∧
    ∃ mid, (∀ e ∈ mid, e.isAccess = true) ∧
      (intel_broadwell_serialio_i2c_slave_transfer bdw dev7
        [{ read := false, len := 1, buf := 100 }, { read := true, len := 2, buf := 200 }]
        (Machine.init (hwSetup ++ [staIdle, staRx, 171, staRx, 205] ++ hwFinish)
          (memOf 100 [170]))).2.trace =
        Event.lock :: mid ++
          (if (intel_broadwell_serialio_i2c_slave_transfer bdw dev7
            [{ read := false, len := 1, buf := 100 }, { read := true, len := 2, buf := 200 }]
            (Machine.init (hwSetup ++ [staIdle, staRx, 171, staRx, 205] ++ hwFinish)
              (memOf 100 [170]))).1 = none then [] else [Event.unlock]) :=
  ⟨by decide,
    (bus_lock_is_balanced bdw dev8 [{ read := false, len := 1, buf := 100 }]
      (hwSetup ++ [staIdle] ++ hwFinish) (memOf 100 [170])).1 (by decide),
    by decide,
    (bus_lock_is_balanced bdw dev7
      [{ read := false, len := 1, buf := 100 }, { read := true, len := 2, buf := 200 }]
      (hwSetup ++ [staIdle, staRx, 171, staRx, 205] ++ hwFinish) (memOf 100 [170])).2
      (by decide)⟩

/-- The trace of the run of example scenario 2, event by event. -/
theorem scenario2_trace :
    (intel_broadwell_serialio_i2c_slave_transfer bdw dev7
        [{ read := false, len := 1, buf := 100 }, { read := true, len := 2, buf := 200 }]
        (Machine.init (hwSetup ++ [staIdle, staRx, 171, staRx, 205] ++ hwFinish)
          (memOf 100 [170]))).2.trace =
      [Event.lock, Event.rd Reg.i2c_sta 6, Event.rd Reg.ctl 0, Event.wr Reg.ctl 0,
        Event.wr Reg.tar_add 80, Event.rd Reg.i2c_en 0, Event.wr Reg.i2c_en 1,
        Event.rd Reg.i2c_sta 6, Event.wr Reg.data_cmd 1706,
        Event.wr Reg.data_cmd 256, Event.rd Reg.i2c_sta 14, Event.rd Reg.data_cmd 171,
        Event.wr Reg.data_cmd 768, Event.rd Reg.i2c_sta 14, Event.rd Reg.data_cmd 205,
        Event.rd Reg.raw_intr_stat 0, Event.rd Reg.i2c_sta 6, Event.rd Reg.i2c_sta 6,
        Event.rd Reg.i2c_sta 6, Event.rd Reg.i2c_sta 6, Event.unlock] := by
  decide

/-! ## Termination of the first walk -/

theorem pass1Step_consumes (C : Consts) (L : IoctlLayout) (mem : Nat → Nat) (s s1 : Walk)
    (hL : L.base_size < 2 ^ 32)
    (h : pass1Step C L mem s = Except.ok s1)
    (hn : 0 ≤ wrapInt (L.get_len mem s.segment_addr)) :
    ∃ consumed, L.base_size ≤ consumed ∧ consumed ≤ s.size ∧ s1.size = s.size - consumed ∧
      s1.segment_count = s.segment_count + 1 := by
  obtain ⟨_, h2, h3⟩ := pass1Step_ok C L mem s s1 h
  refine ⟨_, ?_, h2, by rw [h3], by rw [h3]⟩
  split
  · exact le_rfl
  · have hlt := wrapInt_lt (L.get_len mem s.segment_addr)
    have := sz_of_nonneg_lt
      (show (0 : Int) ≤ (L.base_size : Int) + wrapInt (L.get_len mem s.segment_addr) by omega)
      (by omega)
    omega

theorem pass1_fuel_mono (C : Consts) (L : IoctlLayout) (mem : Nat → Nat) (fuel : Nat) :
    ∀ (s : Walk) (res : Except Int Walk), pass1 C L mem fuel s = some res →
      ∀ d, pass1 C L mem (fuel + d) s = some res := by
  induction fuel with
  | zero => intro s res h; simp [pass1] at h
  | succ fuel ih =>
    intro s res h d
    have hk : fuel + 1 + d = (fuel + d) + 1 := by omega
    rw [hk]
    by_cases h0 : s.size = 0
    · simp only [pass1, h0, if_true] at h ⊢
      exact h
    · cases hstep : pass1Step C L mem s with
      | error e =>
        simp only [pass1, h0, if_false, hstep] at h ⊢
        exact h
      | ok s1 =>
        simp only [pass1, h0, if_false, hstep] at h ⊢
        exact ih s1 res h d

theorem div_lt_of_consumed {size base consumed fuel : Nat} (hb : 0 < base)
    (h1 : base ≤ consumed) (h2 : consumed ≤ size) (h3 : size / base < fuel + 1) :
    (size - consumed) / base < fuel := by
  have h4 : (size - consumed) / base ≤ (size - base) / base := Nat.div_le_div_right (by omega)
  have h5 : size / base = (size - base) / base + 1 := Nat.div_eq_sub_div hb (by omega)
  omega

theorem pass1_total (C : Consts) (L : IoctlLayout) (mem : Nat → Nat)
    (hb : 0 < L.base_size) (hL : L.base_size < 2 ^ 32) (fuel : Nat) :
    ∀ s : Walk, s.size / L.base_size < fuel →
      (∀ r ∈ pass1Records C L mem fuel s, 0 ≤ r.len) →
      ∃ res, pass1 C L mem fuel s = some res ∧
        ∀ w, res = Except.ok w →
          w.size = 0 ∧ w.segment_count * L.base_size ≤ s.segment_count * L.base_size + s.size := by
  induction fuel with
  | zero => intro s h; exact absurd h (Nat.not_lt_zero _)
  | succ fuel ih =>
    intro s hs hn
    by_cases h0 : s.size = 0
    · refine ⟨Except.ok s, by simp [pass1, h0], ?_⟩
      intro w hw
      cases hw
      exact ⟨h0, by omega⟩
    · cases hstep : pass1Step C L mem s with
      | error e =>
        refine ⟨Except.error e, by simp [pass1, h0, hstep], ?_⟩
        intro w hw
        cases hw
      | ok s1 =>
        simp only [pass1Records, h0, if_false, hstep, List.mem_cons, forall_eq_or_imp] at hn
        obtain ⟨c, c1, c2, c3, c4⟩ := pass1Step_consumes C L mem s s1 hL hstep hn.1
        have hs1 : s1.size / L.base_size < fuel := by
          rw [c3]; exact div_lt_of_consumed hb c1 c2 hs
        obtain ⟨res, r1, r2⟩ := ih s1 hs1 hn.2
        refine ⟨res, by simp only [pass1, h0, if_false, hstep]; exact r1, ?_⟩
        intro w hw
        obtain ⟨w1, w2⟩ := r2 w hw
        refine ⟨w1, ?_⟩
        rw [c4, c3] at w2
        have : (s.segment_count + 1) * L.base_size = s.segment_count * L.base_size + L.base_size := by
          ring
        omega

/-- C19: with a header size that is positive (and below 2^32) and records of
non-negative declared length, the first walk of the ioctl ends.  Every iteration
that does not fail takes `consumed` bytes with `base_size ≤ consumed ≤ size`, so
the remaining size decreases strictly with no underflow; any fuel above
`in_len / base_size` gives the result of the walk, and when the walk passes the
input its segment count times the header size is at most `in_len`, so the count
is at most `in_len / base_size`. -/
theorem pass1_walk_terminates (C : Consts) (L : IoctlLayout) (mem : Nat → Nat)
    (in_buf in_len : Nat) (hb : 0 < L.base_size) (hL : L.base_size < 2 ^ 32)
    (hnn : ∀ r ∈ pass1Records C L mem (in_len / L.base_size + 1) (walkInit in_buf in_len),
      0 ≤ r.len) :
    (∀ s s1 : Walk, pass1Step C L mem s = Except.ok s1 →
      0 ≤ wrapInt (L.get_len mem s.segment_addr) →
      ∃ consumed, L.base_size ≤ consumed ∧ consumed ≤ s.size ∧
        s1.size = s.size - consumed ∧ s1.size < s.size ∧
        s1.segment_count = s.segment_count + 1) ∧
    ∃ res, (∀ fuel, in_len / L.base_size < fuel →
        pass1 C L mem fuel (walkInit in_buf in_len) = some res) ∧
      ∀ w, res = Except.ok w →
        w.size = 0 ∧ w.segment_count * L.base_size ≤ in_len ∧
          w.segment_count ≤ in_len / L.base_size := by
  constructor
  · intro s s1 h hn
    obtain ⟨c, c1, c2, c3, c4⟩ := pass1Step_consumes C L mem s s1 hL h hn
    exact ⟨c, c1, c2, c3, by omega, c4⟩
  · obtain ⟨res, r1, r2⟩ := pass1_total C L mem hb hL (in_len / L.base_size + 1)
      (walkInit in_buf in_len) (by simp [walkInit]) hnn
    refine ⟨res, ?_, ?_⟩
    · intro fuel hf
      obtain ⟨d, rfl⟩ : ∃ d, fuel = in_len / L.base_size + 1 + d := ⟨fuel - (in_len / L.base_size + 1), by omega⟩
      exact pass1_fuel_mono C L mem _ _ res r1 d
    · intro w hw
      obtain ⟨w1, w2⟩ := r2 w hw
      have w3 : w.segment_count * L.base_size ≤ in_len := by simpa [walkInit] using w2
      exact ⟨w1, w3, (Nat.le_div_iff_mul_le hb).mpr w3⟩

/-- C19 on the input of example scenario 2 (17 bytes, header size 8): the walk
passes two records, and 2 ≤ 17 / 8. -/
theorem pass1_walk_terminates_witness :
    (0 < intLayout.base_size ∧ intLayout.base_size < 2 ^ 32 ∧
      ∀ r ∈ pass1Records bdw intLayout
          (memOf 1000 [0, 0, 0, 0, 1, 0, 0, 0, 170, 1, 0, 0, 0, 2, 0, 0, 0])
          (17 / intLayout.base_size + 1) (walkInit 1000 17), 0 ≤ r.len) ∧
    ∃ res, (∀ fuel, 17 / intLayout.base_size < fuel →
        pass1 bdw intLayout (memOf 1000 [0, 0, 0, 0, 1, 0, 0, 0, 170, 1, 0, 0, 0, 2, 0, 0, 0])
          fuel (walkInit 1000 17) = some res) ∧
      ∀ w, res = Except.ok w →
        w.size = 0 ∧ w.segment_count * intLayout.base_size ≤ 17 ∧
          w.segment_count ≤ 17 / intLayout.base_size :=
  ⟨⟨by decide, by decide, by decide⟩,
    (pass1_walk_terminates bdw intLayout
      (memOf 1000 [0, 0, 0, 0, 1, 0, 0, 0, 170, 1, 0, 0, 0, 2, 0, 0, 0]) 1000 17
      (by decide) (by decide) (by decide)).2⟩

/-! ## Command code and data field of the words written -/

theorem cmdCode_eq_testBit (C : Consts) (w : Nat) :
    cmdCode C w = (w.testBit C.DATA_CMD_CMD).toNat := by
  unfold cmdCode
  rw [Nat.toNat_testBit, Nat.shiftRight_eq_div_pow]

theorem dataField_testBit (C : Consts) (w i : Nat) :
    (dataField C w).testBit i = (decide (i < 8) && w.testBit (C.DATA_CMD_DAT + i)) := by
  unfold dataField
  rw [show (256 : Nat) = 2 ^ 8 by norm_num, Nat.testBit_mod_two_pow, Nat.testBit_shiftRight]

theorem stop_testBit_of_ne (C : Consts) {stop i : Nat}
    (hs : stop = 0 ∨ stop = 1 <<< C.DATA_CMD_STOP) (hi : i ≠ C.DATA_CMD_STOP) :
    stop.testBit i = false := by
  rcases hs with hs | hs
  · simp [hs]
  · rw [hs, testBit_one_shl]; simp; omega

theorem cmdFields_write_word (C : Consts) (hC : C.cmdFieldsOk) {restart byte stop : Nat}
    (hr : restart ≤ 1) (hb : byte < 256) (hs : stop = 0 ∨ stop = 1 <<< C.DATA_CMD_STOP) :
    cmdFields C (u32 (restart <<< C.DATA_CMD_RESTART ||| byte <<< C.DATA_CMD_DAT |||
      C.DATA_CMD_CMD_WRITE <<< C.DATA_CMD_CMD ||| stop)) = (C.DATA_CMD_CMD_WRITE, byte) := by
  obtain ⟨h1, h2, h3, h4, h5, h6⟩ := hC
  have hb8 : byte < 2 ^ 8 := hb
  have hr1 : restart < 2 ^ 1 := by omega
  unfold cmdFields
  congr 1
  · rw [cmdCode_eq_testBit]
    unfold u32
    rw [Nat.testBit_mod_two_pow, Nat.testBit_or, Nat.testBit_or, Nat.testBit_or,
      testBit_shl_of_gt (by omega), testBit_shl_of_lt hb8 (by omega),
      testBit_flag_shl (by omega), stop_testBit_of_ne C hs (by omega)]
    have h : C.DATA_CMD_CMD_WRITE = 0 ∨ C.DATA_CMD_CMD_WRITE = 1 := by omega
    have h32 : C.DATA_CMD_CMD < 32 := by omega
    rcases h with h | h <;> simp [h, h32]
  · apply Nat.eq_of_testBit_eq
    intro i
    rw [dataField_testBit]
    by_cases hi : i < 8
    · unfold u32
      rw [Nat.testBit_mod_two_pow, Nat.testBit_or, Nat.testBit_or, Nat.testBit_or,
        testBit_shl_of_gt (x := restart) (by omega),
        testBit_shl_of_gt (x := C.DATA_CMD_CMD_WRITE) (by omega),
        stop_testBit_of_ne C hs (by omega), Nat.testBit_shiftLeft]
      have h32 : C.DATA_CMD_DAT + i < 32 := by omega
      simp [hi, h32]
    · have : byte.testBit i = false := testBit_false_of_lt_of_le hb8 (by omega)
      simp [hi, this]

theorem cmdFields_read_word (C : Consts) (hC : C.cmdFieldsOk) {restart stop : Nat}
    (hs : stop = 0 ∨ stop = 1 <<< C.DATA_CMD_STOP) :
    cmdFields C (u32 (restart <<< C.DATA_CMD_RESTART |||
      C.DATA_CMD_CMD_READ <<< C.DATA_CMD_CMD ||| stop)) = (C.DATA_CMD_CMD_READ, 0) := by
  obtain ⟨h1, h2, h3, h4, h5, h6⟩ := hC
  unfold cmdFields
  congr 1
  · rw [cmdCode_eq_testBit]
    unfold u32
    rw [Nat.testBit_mod_two_pow, Nat.testBit_or, Nat.testBit_or,
      testBit_shl_of_gt (by omega), testBit_flag_shl (by omega),
      stop_testBit_of_ne C hs (by omega)]
    have h : C.DATA_CMD_CMD_READ = 0 ∨ C.DATA_CMD_CMD_READ = 1 := by omega
    have h32 : C.DATA_CMD_CMD < 32 := by omega
    rcases h with h | h <;> simp [h, h32]
  · apply Nat.eq_of_testBit_eq
    intro i
    rw [dataField_testBit]
    by_cases hi : i < 8
    · unfold u32
      rw [Nat.testBit_mod_two_pow, Nat.testBit_or, Nat.testBit_or,
        testBit_shl_of_gt (by omega), testBit_shl_of_gt (by omega),
        stop_testBit_of_ne C hs (by omega)]
      simp
    · simp [hi]

/-! ## Memory during the segment loop -/

theorem store_mem_of_ne (m : Machine) {a x : Nat} (v : Nat) (h : x ≠ a) :
    (m.store a v).mem x = m.mem x := by
  unfold Machine.store
  split
  · rfl
  · simp [h]

theorem byteBody_write_mem (C : Consts) (n restart buf : Nat) (m : Machine) :
    (byteBody C false n restart buf m).mem = m.mem := by
  simp only [byteBody, Bool.false_eq_true, if_false, write_mem, loop_mem]

theorem byteBody_mem_of_ne (C : Consts) (read : Bool) (n restart buf : Nat) (m : Machine)
    {x : Nat} (h : read = true → x ≠ buf) :
    (byteBody C read n restart buf m).mem x = m.mem x := by
  cases read
  · rw [byteBody_write_mem]
  · simp only [byteBody, if_true]
    rw [store_mem_of_ne _ _ (h rfl), read_mem, loop_mem, write_mem]

theorem byteLoop_mem_of_ne (C : Consts) (read : Bool) (n : Nat) :
    ∀ (restart buf : Nat) (m : Machine) (x : Nat),
      (read = true → ∀ k, k < n → x ≠ buf + k) →
      (byteLoop C read n restart buf m).mem x = m.mem x := by
  induction n with
  | zero => intro restart buf m x _; rfl
  | succ n ih =>
    intro restart buf m x h
    unfold byteLoop
    rw [ih 0 (buf + 1) _ x (fun hr k hk => by have := h hr (k + 1) (by omega); omega)]
    exact byteBody_mem_of_ne C read n restart buf m
      (fun hr => by have := h hr 0 (by omega); omega)

/-! ## Command code and data of the words of the loops -/

theorem byteBody_fields (C : Consts) (hC : C.cmdFieldsOk) (read : Bool) (n restart buf : Nat)
    (m : Machine) (hr : restart ≤ 1) :
    (cmdWords (byteBody C read n restart buf m).trace = cmdWords m.trace ∧
        (byteBody C read n restart buf m).stalled = true) ∨
      ∃ w, cmdWords (byteBody C read n restart buf m).trace = cmdWords m.trace ++ [w] ∧
        cmdFields C w = if read then (C.DATA_CMD_CMD_READ, 0)
          else (C.DATA_CMD_CMD_WRITE, m.mem buf % 256) := by
  have hstop : (if n = 0 then 1 <<< C.DATA_CMD_STOP else 0) = 0 ∨
      (if n = 0 then 1 <<< C.DATA_CMD_STOP else 0) = 1 <<< C.DATA_CMD_STOP := by
    split <;> simp
  cases hm : m.stalled
  · cases read
    · simp only [byteBody, Bool.false_eq_true, if_false]
      cases hm1 : (m.loop (spin Reg.i2c_sta (fun v => !staBit C.I2C_STA_TFNF v))).stalled
      · right
        refine ⟨?w1, ?h1, ?h2⟩
        case h1 =>
          rw [cmdWords_write_data hm1, cmdWords_loop _ _ (cmdWords_spin _ _)]
          exact rfl
        case h2 =>
          rw [loop_mem]
          exact cmdFields_write_word C hC hr (Nat.mod_lt _ (by decide)) hstop
      · left
        rw [write_of_stalled hm1, cmdWords_loop _ _ (cmdWords_spin _ _)]
        exact ⟨rfl, hm1⟩
    · right
      simp only [byteBody, if_true]
      refine ⟨?w2, ?h3, ?h4⟩
      case h3 =>
        rw [cmdWords_store, cmdWords_read, cmdWords_loop _ _ (cmdWords_spin _ _),
          cmdWords_write_data hm]
        exact rfl
      case h4 => exact cmdFields_read_word C hC hstop
  · left
    rw [byteBody_of_stalled C _ _ _ _ hm]
    exact ⟨rfl, hm⟩

theorem byteLoop_fields (C : Consts) (hC : C.cmdFieldsOk) (read : Bool) (n : Nat) :
    ∀ (restart buf : Nat) (m : Machine), restart ≤ 1 →
      ∃ ws, cmdWords (byteLoop C read n restart buf m).trace = cmdWords m.trace ++ ws ∧
        ws.map (cmdFields C) <+: (List.range n).map
          (fun j => if read then (C.DATA_CMD_CMD_READ, 0)
            else (C.DATA_CMD_CMD_WRITE, m.mem (buf + j) % 256)) ∧
        ((byteLoop C read n restart buf m).stalled = false → ws.length = n) := by
  induction n with
  | zero =>
    intro restart buf m _
    exact ⟨[], by simp [byteLoop], by simp, fun _ => rfl⟩
  | succ n ih =>
    intro restart buf m hr
    unfold byteLoop
    rcases byteBody_fields C hC read n restart buf m hr with ⟨h1, h2⟩ | ⟨w, h1, h2⟩
    · refine ⟨[], ?_, by simp, ?_⟩
      · rw [byteLoop_of_stalled C _ _ _ _ h2, h1]; simp
      · rw [byteLoop_of_stalled C _ _ _ _ h2, h2]; simp
    · obtain ⟨ws, h3, h4, h5⟩ := ih 0 (buf + 1) (byteBody C read n restart buf m) (by omega)
      have hfun : (fun j => if read then (C.DATA_CMD_CMD_READ, 0)
            else (C.DATA_CMD_CMD_WRITE,
              (byteBody C read n restart buf m).mem (buf + 1 + j) % 256)) =
          (fun j => if read then (C.DATA_CMD_CMD_READ, 0)
            else (C.DATA_CMD_CMD_WRITE, m.mem (buf + j) % 256)) ∘ Nat.succ := by
        funext j
        cases read
        · simp only [Bool.false_eq_true, if_false, Function.comp, byteBody_write_mem]
          rw [show buf + 1 + j = buf + j.succ by omega]
        · simp
      refine ⟨w :: ws, ?_, ?_, ?_⟩
      · rw [h3, h1]; simp
      · rw [List.range_succ_eq_map, List.map_cons, List.map_cons, List.map_map, h2, ← hfun]
        simp only [Nat.add_zero]
        exact (List.prefix_cons_inj _).mpr h4
      · intro hs
        simp [h5 hs]

theorem writeBuffersApart_tail {s : Segment} {rest : List Segment}
    (h : writeBuffersApart (s :: rest)) : writeBuffersApart rest :=
  fun a ha hra t ht hrt => h a (List.mem_cons_of_mem _ ha) hra t (List.mem_cons_of_mem _ ht) hrt

theorem segmentLoop_fields (C : Consts) (hC : C.cmdFieldsOk) (mem : Nat → Nat)
    (segs : List Segment) :
    ∀ (last : Bool) (m : Machine), writeBuffersApart segs →
      (∀ s ∈ segs, s.read = false → ∀ j, j < loopCount s.len →
        m.mem (s.buf + j) = mem (s.buf + j)) →
      ∃ ws, cmdWords (segmentLoop C last segs m).trace = cmdWords m.trace ++ ws ∧
        ws.map (cmdFields C) <+: wordPlan C mem segs ∧
        ((segmentLoop C last segs m).stalled = false →
          ws.map (cmdFields C) = wordPlan C mem segs) := by
  induction segs with
  | nil =>
    intro last m _ _
    exact ⟨[], by simp [segmentLoop], by simp [wordPlan], fun _ => by simp [wordPlan]⟩
  | cons s rest ih =>
    intro last m hap hmem
    unfold segmentLoop wordPlan
    have hmap : (List.range (loopCount s.len)).map
          (fun j => if s.read then (C.DATA_CMD_CMD_READ, 0)
            else (C.DATA_CMD_CMD_WRITE, m.mem (s.buf + j) % 256)) =
        (List.range (loopCount s.len)).map
          (fun j => if s.read then (C.DATA_CMD_CMD_READ, 0)
            else (C.DATA_CMD_CMD_WRITE, mem (s.buf + j) % 256)) := by
      apply List.map_congr_left
      intro j hj
      cases hr : s.read
      · simp only [Bool.false_eq_true, if_false]
        rw [hmem s (List.mem_cons_self _ _) hr j (List.mem_range.mp hj)]
      · simp
    obtain ⟨ws1, h1, h2, h3⟩ := byteLoop_fields C hC s.read (loopCount s.len)
      (if last = s.read then 1 else 0) s.buf m (by split <;> omega)
    rw [hmap] at h2
    obtain ⟨ws2, h4, h5, h6⟩ := ih s.read
      (byteLoop C s.read (loopCount s.len) (if last = s.read then 1 else 0) s.buf m)
      (writeBuffersApart_tail hap)
      (by
        intro t ht hrt j hj
        rw [byteLoop_mem_of_ne C s.read (loopCount s.len) _ s.buf m (t.buf + j)
          (fun hsr k hk => hap t (List.mem_cons_of_mem _ ht) hrt s (List.mem_cons_self _ _)
            hsr j hj k hk)]
        exact hmem t (List.mem_cons_of_mem _ ht) hrt j hj)
    cases hst : (byteLoop C s.read (loopCount s.len) (if last = s.read then 1 else 0) s.buf m).stalled
    · have hlen := h3 hst
      have heq := List.IsPrefix.eq_of_length h2 (by simp [hlen])
      refine ⟨ws1 ++ ws2, ?_, ?_, ?_⟩
      · rw [h4, h1, List.append_assoc]
      · rw [List.map_append, heq]
        exact (List.prefix_append_right_inj _).mpr h5
      · intro hs
        rw [List.map_append, heq, h6 hs]
    · refine ⟨ws1, ?_, ?_, ?_⟩
      · rw [segmentLoop_of_stalled C _ _ hst, h1]
      · exact h2.trans (List.prefix_append _ _)
      · intro hs
        rw [segmentLoop_of_stalled C _ _ hst, hst] at hs
        cases hs

/-! ## The segment loop inside the transfer body -/

theorem cmdWords_of_none (evs : List Event) (h : ∀ e ∈ evs, cmdWord e = none) :
    cmdWords evs = [] := by
  induction evs with
  | nil => rfl
  | cons e rest ih =>
    have h1 := h e (List.mem_cons_self _ _)
    have h2 := ih (fun x hx => h x (List.mem_cons_of_mem _ hx))
    simp only [cmdWords, List.filterMap_cons, h1] at h2 ⊢
    exact h2

theorem rxReads_of_none (evs : List Event) (h : ∀ e ∈ evs, rxRead e = none) :
    rxReads evs = [] := by
  induction evs with
  | nil => rfl
  | cons e rest ih =>
    have h1 := h e (List.mem_cons_self _ _)
    have h2 := ih (fun x hx => h x (List.mem_cons_of_mem _ hx))
    simp only [rxReads, List.filterMap_cons, h1] at h2 ⊢
    exact h2

theorem rxReads_append (a b : List Event) : rxReads (a ++ b) = rxReads a ++ rxReads b := by
  simp [rxReads]

theorem log_grows {P : Event → Prop} (m : Machine) (e : Event) (h : P e) :
    Machine.Grows P m (m.log e) := by
  refine ⟨if (m.log e).stalled then [] else [e], (log_trace m e).2, ?_⟩
  intro x hx
  split at hx
  · cases hx
  · simp only [List.mem_singleton] at hx
    rw [hx]; exact h

/-- The transfer body around its segment loop: what comes before writes no
command word, reads no received byte and leaves memory alone; what comes after
writes no command word and leaves memory alone. -/
theorem transferBody_segments (C : Consts) (dev : SlaveDev) (a b : Nat) (segs : List Segment)
    (m : Machine) :
    ∃ (m1 : Machine) (tail : List Event),
      Machine.Grows (fun e => cmdWord e = none ∧ rxRead e = none) m m1 ∧
      m1.mem = m.mem ∧
      (transferBody C dev a b segs m).trace =
        (segmentLoop C (initLastRead segs) segs m1).trace ++ tail ∧
      cmdWords tail = [] ∧
      (transferBody C dev a b segs m).mem = (segmentLoop C (initLastRead segs) segs m1).mem ∧
      ((transferBody C dev a b segs m).stalled = false →
        (segmentLoop C (initLastRead segs) segs m1).stalled = false) := by
  have htail : Machine.Grows (fun e => cmdWord e = none)
      (segmentLoop C (initLastRead segs) segs
        (((((m.log Event.lock).loop (spin Reg.i2c_sta (notIdle C))).RMWREG32 Reg.ctl
          C.CTL_ADDRESSING_MODE 1 a).write Reg.tar_add
            ((b <<< C.TAR_ADD_WIDTH) ||| (dev.chip_address <<< C.TAR_ADD_IC_TAR))).RMWREG32
              Reg.i2c_en C.I2C_EN_ENABLE 1 1))
      (transferBody C dev a b segs m) := by
    unfold transferBody
    simp only []
    refine Grows.trans ?_ (log_grows _ _ rfl)
    refine Grows.trans ?_ (loop_grows _ _ (fun hw e he => by
      obtain ⟨r, v, rfl⟩ := drain_events _ _ _ hw e he; rfl))
    refine Grows.trans ?_ (loop_grows _ _ (fun hw e he => by
      obtain ⟨v, rfl⟩ := spin2_events _ _ hw e he; rfl))
    refine Grows.trans ?_ (loop_grows _ _ (fun hw e he => by
      obtain ⟨v, rfl⟩ := spin_events _ _ hw e he; rfl))
    exact loop_grows _ _ (fun hw e he => by
      obtain ⟨r, v, rfl⟩ := drain_events _ _ _ hw e he; rfl)
  obtain ⟨tail, t1, t2⟩ := htail
  refine ⟨_, tail, ?_, ?_, t1, cmdWords_of_none tail t2, ?_, ?_⟩
  · refine Grows.trans ?_ (RMWREG32_grows _ _ _ _ _ (fun _ => ⟨rfl, rfl⟩) (fun _ => ⟨rfl, rfl⟩))
    refine Grows.trans ?_ (write_grows _ _ _ (fun _ => ⟨rfl, rfl⟩))
    refine Grows.trans ?_ (RMWREG32_grows _ _ _ _ _ (fun _ => ⟨rfl, rfl⟩) (fun _ => ⟨rfl, rfl⟩))
    refine Grows.trans ?_ (loop_grows _ _ (fun hw e he => by
      obtain ⟨v, rfl⟩ := spin_events _ _ hw e he; exact ⟨rfl, rfl⟩))
    exact log_grows _ _ ⟨rfl, rfl⟩
  · simp only [RMWREG32_mem, write_mem, loop_mem, log_mem]
  · unfold transferBody
    simp only [log_mem, loop_mem]
  · intro h
    unfold transferBody at h
    simp only [] at h
    have h1 := running_before (fun m => m.log Event.unlock)
      (fun m hm => log_of_stalled hm _) h
    have h2 := running_before (fun m => m.loop _) (fun m hm => loop_of_stalled hm _) h1
    have h3 := running_before (fun m => m.loop _) (fun m hm => loop_of_stalled hm _) h2
    have h4 := running_before (fun m => m.loop _) (fun m hm => loop_of_stalled hm _) h3
    exact running_before (fun m => m.loop _) (fun m hm => loop_of_stalled hm _) h4

/-! ## A controller that is ready at every poll -/

theorem staBit_self (b : Nat) : staBit b (1 <<< b) = true := by
  unfold staBit
  rw [Nat.and_self, Nat.one_shiftLeft]
  simp

theorem staBit_other {a b : Nat} (h : a ≠ b) : staBit a (1 <<< b) = false := by
  unfold staBit
  have : (1 <<< b) &&& (1 <<< a) = 0 := by
    apply Nat.eq_of_testBit_eq
    intro i
    rw [Nat.testBit_and, testBit_one_shl, testBit_one_shl]
    by_cases h1 : b = i
    · have : ¬ a = i := by omega
      simp [this]
    · simp [h1]
  simp [this]

theorem staBit_zero (b : Nat) : staBit b 0 = false := by
  simp [staBit]

theorem loop_spin_ready (m : Machine) (r : Reg) (stay : Nat → Bool) {v : Nat} {rest : List Nat}
    (hm : m.stalled = false) (hh : m.hw = v :: rest) (hv : stay v = false) :
    (m.loop (spin r stay)).stalled = false ∧ (m.loop (spin r stay)).hw = rest := by
  simp [Machine.loop, hm, hh, spin, hv]

theorem loop_drain_ready (m : Machine) (r1 r2 : Reg) (test : Nat → Bool) {v : Nat}
    {rest : List Nat} (hm : m.stalled = false) (hh : m.hw = v :: rest) (hv : test v = false) :
    (m.loop (drain r1 r2 test)).stalled = false ∧ (m.loop (drain r1 r2 test)).hw = rest := by
  simp [Machine.loop, hm, hh, drain_stop r1 r2 test v rest hv]

theorem loop_spin2_ready (m : Machine) (busy empty : Nat → Bool) {a b : Nat} {rest : List Nat}
    (hm : m.stalled = false) (hh : m.hw = a :: b :: rest) (ha : busy a = false)
    (hb : empty b = true) :
    (m.loop (spin2 busy empty)).stalled = false ∧ (m.loop (spin2 busy empty)).hw = rest := by
  simp [Machine.loop, hm, hh, spin2, ha, hb]

theorem write_ready (m : Machine) (r : Reg) (v : Nat) :
    (m.write r v).stalled = m.stalled ∧ (m.write r v).hw = m.hw := by
  unfold Machine.write
  split <;> simp

theorem log_ready (m : Machine) (e : Event) :
    (m.log e).stalled = m.stalled ∧ (m.log e).hw = m.hw := by
  unfold Machine.log
  split <;> simp

theorem store_ready (m : Machine) (a v : Nat) :
    (m.store a v).stalled = m.stalled ∧ (m.store a v).hw = m.hw := by
  unfold Machine.store
  split <;> simp

theorem read_ready (m : Machine) (r : Reg) {v : Nat} {rest : List Nat}
    (hm : m.stalled = false) (hh : m.hw = v :: rest) :
    (m.read r).2.stalled = false ∧ (m.read r).2.hw = rest ∧ (m.read r).1 = v := by
  simp [Machine.read, hm, hh]

theorem RMWREG32_ready (m : Machine) (r : Reg) (a b c : Nat) {v : Nat} {rest : List Nat}
    (hm : m.stalled = false) (hh : m.hw = v :: rest) :
    (m.RMWREG32 r a b c).stalled = false ∧ (m.RMWREG32 r a b c).hw = rest := by
  unfold Machine.RMWREG32
  obtain ⟨h1, h2, _⟩ := read_ready m r hm hh
  simp only []
  rw [(write_ready _ _ _).1, (write_ready _ _ _).2]
  exact ⟨h1, h2⟩

theorem byteBody_ready (C : Consts) (read : Bool) (d n restart buf : Nat) (m : Machine)
    (rest : List Nat) (hm : m.stalled = false)
    (hh : m.hw = (if read then [1 <<< C.I2C_STA_RFNE, d] else [1 <<< C.I2C_STA_TFNF]) ++ rest) :
    (byteBody C read n restart buf m).stalled = false ∧
      (byteBody C read n restart buf m).hw = rest := by
  cases read
  · simp only [Bool.false_eq_true, if_false, List.singleton_append] at hh
    simp only [byteBody, Bool.false_eq_true, if_false]
    obtain ⟨h1, h2⟩ := loop_spin_ready m Reg.i2c_sta
      (fun v => !staBit C.I2C_STA_TFNF v) hm hh (by simp [staBit_self])
    rw [(write_ready _ _ _).1, (write_ready _ _ _).2]
    exact ⟨h1, h2⟩
  · simp only [if_true, List.cons_append, List.nil_append] at hh
    simp only [byteBody, if_true]
    have g1 : (m.write Reg.data_cmd (restart <<< C.DATA_CMD_RESTART |||
        C.DATA_CMD_CMD_READ <<< C.DATA_CMD_CMD |||
        if n = 0 then 1 <<< C.DATA_CMD_STOP else 0)).stalled = false := by
      rw [(write_ready _ _ _).1]; exact hm
    have g2 : (m.write Reg.data_cmd (restart <<< C.DATA_CMD_RESTART |||
        C.DATA_CMD_CMD_READ <<< C.DATA_CMD_CMD |||
        if n = 0 then 1 <<< C.DATA_CMD_STOP else 0)).hw =
        1 <<< C.I2C_STA_RFNE :: d :: rest := by
      rw [(write_ready _ _ _).2]; exact hh
    obtain ⟨h1, h2⟩ := loop_spin_ready _ Reg.i2c_sta
      (fun v => !staBit C.I2C_STA_RFNE v) g1 g2 (by simp [staBit_self])
    obtain ⟨h3, h4, _⟩ := read_ready _ Reg.data_cmd h1 h2
    rw [(store_ready _ _ _).1, (store_ready _ _ _).2]
    exact ⟨h3, h4⟩

theorem byteLoop_ready (C : Consts) (read : Bool) (d n : Nat) :
    ∀ (restart buf : Nat) (m : Machine) (rest : List Nat), m.stalled = false →
      m.hw = readyBytes C read d n ++ rest →
      (byteLoop C read n restart buf m).stalled = false ∧
        (byteLoop C read n restart buf m).hw = rest := by
  induction n with
  | zero =>
    intro restart buf m rest hm hh
    exact ⟨hm, by simpa [readyBytes] using hh⟩
  | succ n ih =>
    intro restart buf m rest hm hh
    unfold byteLoop
    rw [readyBytes, List.append_assoc] at hh
    obtain ⟨h1, h2⟩ := byteBody_ready C read d n restart buf m _ hm hh
    exact ih 0 (buf + 1) _ rest h1 h2

theorem segmentLoop_ready (C : Consts) (d : Nat) (segs : List Segment) :
    ∀ (last : Bool) (m : Machine) (rest : List Nat), m.stalled = false →
      m.hw = readySegments C d segs ++ rest →
      (segmentLoop C last segs m).stalled = false ∧ (segmentLoop C last segs m).hw = rest := by
  induction segs with
  | nil =>
    intro last m rest hm hh
    exact ⟨hm, by simpa [readySegments] using hh⟩
  | cons s tl ih =>
    intro last m rest hm hh
    unfold segmentLoop
    rw [readySegments, List.append_assoc] at hh
    obtain ⟨h1, h2⟩ := byteLoop_ready C s.read d (loopCount s.len)
      (if last = s.read then 1 else 0) s.buf m _ hm hh
    exact ih s.read _ rest h1 h2

/-- On a controller that is ready at every poll the transfer body runs to its
end, whatever the request. -/
theorem transferBody_ready (C : Consts) (hne : C.I2C_STA_CA ≠ C.I2C_STA_TFCE) (dev : SlaveDev)
    (a b d : Nat) (segs : List Segment) (mem : Nat → Nat) :
    (transferBody C dev a b segs (Machine.init (readyHw C d segs) mem)).stalled = false := by
  have hidle : notIdle C (1 <<< C.I2C_STA_TFCE) = false := by
    simp [notIdle, staBit_other hne, staBit_self]
  unfold transferBody
  simp only []
  have s0 : ((Machine.init (readyHw C d segs) mem).log Event.lock).stalled = false := by
    rw [(log_ready _ _).1]; rfl
  have w0 : ((Machine.init (readyHw C d segs) mem).log Event.lock).hw =
      1 <<< C.I2C_STA_TFCE :: 0 :: 0 :: (readySegments C d segs ++
        [0, 1 <<< C.I2C_STA_TFCE, 1 <<< C.I2C_STA_TFCE, 1 <<< C.I2C_STA_TFCE, 0]) := by
    rw [(log_ready _ _).2]
    simp [Machine.init, readyHw]
  obtain ⟨s1, w1⟩ := loop_spin_ready _ Reg.i2c_sta (notIdle C) s0 w0 hidle
  obtain ⟨s2, w2⟩ := RMWREG32_ready _ Reg.ctl C.CTL_ADDRESSING_MODE 1 a s1 w1
  have s3 := (write_ready _ Reg.tar_add
    ((b <<< C.TAR_ADD_WIDTH) ||| (dev.chip_address <<< C.TAR_ADD_IC_TAR))).1.trans s2
  have w3 := (write_ready _ Reg.tar_add
    ((b <<< C.TAR_ADD_WIDTH) ||| (dev.chip_address <<< C.TAR_ADD_IC_TAR))).2.trans w2
  obtain ⟨s4, w4⟩ := RMWREG32_ready _ Reg.i2c_en C.I2C_EN_ENABLE 1 1 s3 w3
  obtain ⟨s5, w5⟩ := segmentLoop_ready C d segs (initLastRead segs) _ _ s4 w4
  obtain ⟨s6, w6⟩ := loop_drain_ready _ Reg.raw_intr_stat Reg.clr_stop_det
    (fun v => v &&& C.INTR_STOP_DETECTION != 0) s5 w5 (by simp)
  obtain ⟨s7, w7⟩ := loop_spin_ready _ Reg.i2c_sta (notIdle C) s6 w6 hidle
  obtain ⟨s8, w8⟩ := loop_spin2_ready _ (staBit C.I2C_STA_CA)
    (staBit C.I2C_STA_TFCE) s7 w7 (staBit_other hne) (staBit_self _)
  obtain ⟨s9, _⟩ := loop_drain_ready _ Reg.i2c_sta Reg.data_cmd
    (staBit C.I2C_STA_RFNE) s8 w8 (staBit_zero _)
  rw [(log_ready _ _).1]
  exact s9

/-! ## Received bytes -/

theorem writeBack_nil_right (mem : Nat → Nat) (addrs : List Nat) : writeBack mem addrs [] = mem := by
  cases addrs <;> rfl

theorem writeBack_append (a1 : List Nat) :
    ∀ (mem : Nat → Nat) (v1 a2 v2 : List Nat), a1.length = v1.length →
      writeBack mem (a1 ++ a2) (v1 ++ v2) = writeBack (writeBack mem a1 v1) a2 v2 := by
  induction a1 with
  | nil =>
    intro mem v1 a2 v2 h
    cases v1 with
    | nil => rfl
    | cons v vs => cases h
  | cons a as ih =>
    intro mem v1 a2 v2 h
    cases v1 with
    | nil => cases h
    | cons v vs =>
      simp only [List.cons_append, writeBack]
      exact ih _ vs a2 v2 (by simpa using h)

theorem writeBack_of_not_mem (addrs : List Nat) :
    ∀ (mem : Nat → Nat) (vals : List Nat) (x : Nat), x ∉ addrs →
      writeBack mem addrs vals x = mem x := by
  induction addrs with
  | nil => intro mem vals x _; rfl
  | cons a as ih =>
    intro mem vals x hx
    cases vals with
    | nil => rfl
    | cons v vs =>
      simp only [writeBack]
      rw [ih _ vs x (fun h => hx (List.mem_cons_of_mem _ h))]
      have : x ≠ a := fun h => hx (by rw [h]; exact List.mem_cons_self _ _)
      simp [this]

theorem writeBack_get (addrs : List Nat) :
    ∀ (mem : Nat → Nat) (vals : List Nat) (i a v : Nat), addrs.Nodup →
      addrs[i]? = some a → vals[i]? = some v → writeBack mem addrs vals a = v % 256 := by
  induction addrs with
  | nil => intro mem vals i a v _ h; simp at h
  | cons a0 as ih =>
    intro mem vals i a v hnd ha hv
    cases vals with
    | nil => simp at hv
    | cons v0 vs =>
      simp only [writeBack]
      cases i with
      | zero =>
        simp only [List.getElem?_cons_zero, Option.some.injEq] at ha hv
        subst ha; subst hv
        rw [writeBack_of_not_mem as _ vs a0 (List.nodup_cons.mp hnd).1]
        simp
      | succ i =>
        simp only [List.getElem?_cons_succ] at ha hv
        exact ih _ vs i a v (List.nodup_cons.mp hnd).2 ha hv

theorem mem_readAddrs (segs : List Segment) (x : Nat) :
    x ∈ readAddrs segs ↔
      ∃ t ∈ segs, t.read = true ∧ ∃ k, k < loopCount t.len ∧ x = t.buf + k := by
  induction segs with
  | nil => simp [readAddrs]
  | cons s rest ih =>
    simp only [readAddrs, List.mem_append, ih, List.mem_cons, exists_eq_or_imp]
    apply or_congr_left
    cases hr : s.read
    · simp
    · simp only [if_true, List.mem_map, List.mem_range, true_and]
      constructor
      · rintro ⟨k, hk, rfl⟩; exact ⟨k, hk, rfl⟩
      · rintro ⟨k, hk, rfl⟩; exact ⟨k, hk, rfl⟩

/-- A read iteration that is not cut off: the command word, then polls of the
status register that find RFNE clear, one poll that finds it set, one read of
the data/command register, whose low 8 bits are stored at `buf`. -/
theorem byteBody_read_shape (C : Consts) (n restart buf : Nat) (m : Machine)
    (h : (byteBody C true n restart buf m).stalled = false) :
    ∃ (w : Nat) (pre : List Event) (v d : Nat),
      m.stalled = false ∧
      (byteBody C true n restart buf m).trace =
        m.trace ++ Event.wr Reg.data_cmd w ::
          (pre ++ [Event.rd Reg.i2c_sta v, Event.rd Reg.data_cmd d]) ∧
      (∀ e ∈ pre, ∃ u, e = Event.rd Reg.i2c_sta u ∧ staBit C.I2C_STA_RFNE u = false) ∧
      staBit C.I2C_STA_RFNE v = true ∧
      (byteBody C true n restart buf m).mem = fun x => if x = buf then d % 256 else m.mem x := by
  simp only [byteBody, if_true] at h ⊢
  obtain ⟨a1, a2, _, a4⟩ := store_running h
  obtain ⟨d, rest, _, b2, b3, _, b5, b6⟩ := read_running a1
  obtain ⟨c1, c2, c3, c4⟩ := loop_running b2
  obtain ⟨pre, v, e1, e2, e3⟩ := spin_done _ _ _ _ c3
  obtain ⟨f1, f2, _, f4⟩ := write_running c1
  refine ⟨u32 (restart <<< C.DATA_CMD_RESTART ||| C.DATA_CMD_CMD_READ <<< C.DATA_CMD_CMD |||
    if n = 0 then 1 <<< C.DATA_CMD_STOP else 0), pre, v, d, f1, ?_, ?_, by simpa using e2, ?_⟩
  · rw [a2, b5, c2, e1, f2]
    simp
  · intro e he
    obtain ⟨u, hu, hs⟩ := e3 e he
    exact ⟨u, hu, by simpa using hs⟩
  · rw [a4, b3, b6, c4, f4]

theorem byteBody_running (C : Consts) (read : Bool) (n restart buf : Nat) {m : Machine}
    (h : (byteBody C read n restart buf m).stalled = false) : m.stalled = false := by
  cases hm : m.stalled
  · rfl
  · rw [byteBody_of_stalled C _ _ _ _ hm, hm] at h; exact h

theorem byteBody_write_rx (C : Consts) (n restart buf : Nat) (m : Machine) :
    rxReads (byteBody C false n restart buf m).trace = rxReads m.trace := by
  have : Machine.Grows (fun e => rxRead e = none) m (byteBody C false n restart buf m) := by
    simp only [byteBody, Bool.false_eq_true, if_false]
    exact Grows.trans (loop_grows m _ (fun hw e he => by
      obtain ⟨v, rfl⟩ := spin_events _ _ hw e he; rfl)) (write_grows _ _ _ (fun _ => rfl))
  obtain ⟨evs, h1, h2⟩ := this
  rw [h1, rxReads_append, rxReads_of_none evs h2, List.append_nil]

theorem byteLoop_write_rx (C : Consts) (n : Nat) :
    ∀ (restart buf : Nat) (m : Machine),
      rxReads (byteLoop C false n restart buf m).trace = rxReads m.trace ∧
        (byteLoop C false n restart buf m).mem = m.mem := by
  induction n with
  | zero => intro restart buf m; exact ⟨rfl, rfl⟩
  | succ n ih =>
    intro restart buf m
    unfold byteLoop
    obtain ⟨h1, h2⟩ := ih 0 (buf + 1) (byteBody C false n restart buf m)
    exact ⟨by rw [h1, byteBody_write_rx], by rw [h2, byteBody_write_mem]⟩

theorem byteLoop_read_rx (C : Consts) (n : Nat) :
    ∀ (restart buf : Nat) (m : Machine), (byteLoop C true n restart buf m).stalled = false →
      ∃ rx, rxReads (byteLoop C true n restart buf m).trace = rxReads m.trace ++ rx ∧
        rx.length = n ∧
        (byteLoop C true n restart buf m).mem =
          writeBack m.mem ((List.range n).map (fun j => buf + j)) rx := by
  induction n with
  | zero => intro restart buf m _; exact ⟨[], by simp [byteLoop], rfl, rfl⟩
  | succ n ih =>
    intro restart buf m h
    unfold byteLoop at h ⊢
    obtain ⟨rx, h1, h2, h3⟩ := ih 0 (buf + 1) _ h
    obtain ⟨w, pre, v, d, _, g2, g3, _, g5⟩ :=
      byteBody_read_shape C n restart buf m (stalled_of_byteLoop C _ _ _ _ _ h)
    have hpre : rxReads pre = [] := rxReads_of_none pre (fun e he => by
      obtain ⟨u, rfl, _⟩ := g3 e he; rfl)
    refine ⟨d :: rx, ?_, by simp [h2], ?_⟩
    · rw [h1, g2, rxReads_append]
      have : rxReads (Event.wr Reg.data_cmd w ::
          (pre ++ [Event.rd Reg.i2c_sta v, Event.rd Reg.data_cmd d])) = [d] := by
        have hc : Event.wr Reg.data_cmd w ::
            (pre ++ [Event.rd Reg.i2c_sta v, Event.rd Reg.data_cmd d]) =
            [Event.wr Reg.data_cmd w] ++ pre ++
              [Event.rd Reg.i2c_sta v, Event.rd Reg.data_cmd d] := by simp
        rw [hc, rxReads_append, rxReads_append, hpre]
        rfl
      rw [this]
      simp
    · rw [h3, g5, List.range_succ_eq_map, List.map_cons, List.map_map]
      simp only [writeBack, Nat.add_zero]
      have hmap : List.map (fun j => buf + 1 + j) (List.range n) =
          List.map ((fun j => buf + j) ∘ Nat.succ) (List.range n) := by
        apply List.map_congr_left
        intro j _
        simp only [Function.comp]
        omega
      rw [hmap]

theorem segmentLoop_rx (C : Consts) (segs : List Segment) :
    ∀ (last : Bool) (m : Machine), (segmentLoop C last segs m).stalled = false →
      ∃ rx, rxReads (segmentLoop C last segs m).trace = rxReads m.trace ++ rx ∧
        rx.length = (readAddrs segs).length ∧
        (segmentLoop C last segs m).mem = writeBack m.mem (readAddrs segs) rx := by
  induction segs with
  | nil => intro last m _; exact ⟨[], by simp [segmentLoop], rfl, rfl⟩
  | cons s rest ih =>
    intro last m h
    unfold segmentLoop at h ⊢
    simp only [] at h ⊢
    obtain ⟨rx2, h1, h2, h3⟩ := ih s.read _ h
    have hrun := segmentLoop_running C _ _ h
    cases hr : s.read
    · rw [hr] at h1 h3 hrun
      obtain ⟨g1, g2⟩ := byteLoop_write_rx C (loopCount s.len)
        (if last = false then 1 else 0) s.buf m
      refine ⟨rx2, ?_, ?_, ?_⟩
      · rw [h1, g1]
      · simp [readAddrs, hr, h2]
      · rw [h3, g2]; simp [readAddrs, hr]
    · rw [hr] at h1 h3 hrun
      obtain ⟨rx1, g1, g2, g3⟩ := byteLoop_read_rx C (loopCount s.len)
        (if last = true then 1 else 0) s.buf m hrun
      refine ⟨rx1 ++ rx2, ?_, ?_, ?_⟩
      · rw [h1, g1, List.append_assoc]
      · simp [readAddrs, hr, h2, g2]
      · rw [h3, g3]
        simp only [readAddrs, hr, if_true]
        rw [writeBack_append _ _ _ _ _ (by simp [g2])]

theorem loopCount_of_nonneg {len : Int} (h0 : 0 ≤ len) (h1 : len < 2 ^ 31) :
    (loopCount len : Int) = len := by
  unfold loopCount
  rw [Int.emod_eq_of_lt h0 (by omega)]
  exact Int.toNat_of_nonneg h0

theorem wordPlan_length (C : Consts) (mem : Nat → Nat) (segs : List Segment)
    (h : ∀ s ∈ segs, 0 ≤ s.len ∧ s.len < 2 ^ 31) :
    ((wordPlan C mem segs).length : Int) = totalLen segs := by
  induction segs with
  | nil => rfl
  | cons s rest ih =>
    have h1 := h s (List.mem_cons_self _ _)
    have h2 := ih (fun t ht => h t (List.mem_cons_of_mem _ ht))
    simp only [wordPlan, totalLen, List.length_append, List.length_map, List.length_range,
      List.map_cons, List.sum_cons, Nat.cast_add] at h2 ⊢
    rw [h2, loopCount_of_nonneg h1.1 h1.2]

theorem transferBody_fields (C : Consts) (hC : C.cmdFieldsOk) (dev : SlaveDev) (a b : Nat)
    (segs : List Segment) (hw : List Nat) (mem : Nat → Nat) (hap : writeBuffersApart segs) :
    (cmdWords (transferBody C dev a b segs (Machine.init hw mem)).trace).map (cmdFields C) <+:
        wordPlan C mem segs ∧
      ((transferBody C dev a b segs (Machine.init hw mem)).stalled = false →
        (cmdWords (transferBody C dev a b segs (Machine.init hw mem)).trace).map (cmdFields C) =
          wordPlan C mem segs) := by
  obtain ⟨m1, tail, ⟨evs, g1, g2⟩, g3, g4, g5, _, g7⟩ :=
    transferBody_segments C dev a b segs (Machine.init hw mem)
  obtain ⟨ws, h1, h2, h3⟩ := segmentLoop_fields C hC mem segs (initLastRead segs) m1 hap
    (fun s _ _ j _ => by rw [g3]; rfl)
  have hpre : cmdWords m1.trace = [] := by
    rw [g1, cmdWords_append, cmdWords_of_none evs (fun e he => (g2 e he).1)]
    rfl
  have hall : cmdWords (transferBody C dev a b segs (Machine.init hw mem)).trace = ws := by
    rw [g4, cmdWords_append, g5, h1, hpre]
    simp
  rw [hall]
  exact ⟨h2, fun hs => h3 (g7 hs)⟩

theorem transferBody_rx (C : Consts) (dev : SlaveDev) (a b : Nat) (segs : List Segment)
    (hw : List Nat) (mem : Nat → Nat)
    (h : (transferBody C dev a b segs (Machine.init hw mem)).stalled = false) :
    ∃ rx extra, rxReads (transferBody C dev a b segs (Machine.init hw mem)).trace = rx ++ extra ∧
      rx.length = (readAddrs segs).length ∧
      (transferBody C dev a b segs (Machine.init hw mem)).mem = writeBack mem (readAddrs segs) rx := by
  obtain ⟨m1, tail, ⟨evs, g1, g2⟩, g3, g4, _, g6, g7⟩ :=
    transferBody_segments C dev a b segs (Machine.init hw mem)
  obtain ⟨rx, h1, h2, h3⟩ := segmentLoop_rx C segs (initLastRead segs) m1 (g7 h)
  have hpre : rxReads m1.trace = [] := by
    rw [g1, rxReads_append, rxReads_of_none evs (fun e he => (g2 e he).2)]
    rfl
  refine ⟨rx, rxReads tail, ?_, h2, ?_⟩
  · rw [g4, rxReads_append, h1, hpre]
    simp
  · rw [g6, h3, g3]
    rfl

theorem writeBack_extra (mem : Nat → Nat) (addrs rx extra : List Nat)
    (h : rx.length = addrs.length) :
    writeBack mem addrs (rx ++ extra) = writeBack mem addrs rx := by
  have := writeBack_append addrs mem rx [] extra h.symm
  rw [List.append_nil] at this
  rw [this]
  rfl

/-! ## The output cursor under an unsigned length field -/

/-- With both checks passed the transfer runs the transfer body with the mode
and width bits of the slave's address width. -/
theorem transfer_passed (C : Consts) (dev : SlaveDev) (segs : List Segment) (m : Machine)
    (hv : passesChecks C dev = true) :
    intel_broadwell_serialio_i2c_slave_transfer C dev segs m =
      (if (transferBody C dev
            (if dev.chip_address_width = C.I2C_7BIT_ADDRESS then C.CTL_ADDRESSING_MODE_7BIT
              else C.CTL_ADDRESSING_MODE_10BIT)
            (if dev.chip_address_width = C.I2C_7BIT_ADDRESS then C.TAR_ADD_WIDTH_7BIT
              else C.TAR_ADD_WIDTH_10BIT) segs m).stalled then none else some C.NO_ERROR,
        transferBody C dev
          (if dev.chip_address_width = C.I2C_7BIT_ADDRESS then C.CTL_ADDRESSING_MODE_7BIT
            else C.CTL_ADDRESSING_MODE_10BIT)
          (if dev.chip_address_width = C.I2C_7BIT_ADDRESS then C.TAR_ADD_WIDTH_7BIT
            else C.TAR_ADD_WIDTH_10BIT) segs m) := by
  unfold passesChecks at hv
  unfold intel_broadwell_serialio_i2c_slave_transfer
  cases hp : dev.has_parent
  · rw [hp] at hv; simp at hv
  · simp only [Bool.not_true, Bool.false_eq_true, if_false]
    by_cases h7 : dev.chip_address_width = C.I2C_7BIT_ADDRESS
    · simp only [if_pos h7]
    · simp only [if_neg h7]
      by_cases h10 : dev.chip_address_width = C.I2C_10BIT_ADDRESS
      · simp only [if_pos h10]
      · rw [hp] at hv
        simp [h7, h10] at hv

/-- What follows the segment loop when the call returns: register reads only,
then the unlock. -/
theorem closing_trace (C : Consts) (x : Machine)
    (h : (((((x.loop (drain Reg.raw_intr_stat Reg.clr_stop_det
        (fun v => v &&& C.INTR_STOP_DETECTION != 0))).loop
          (spin Reg.i2c_sta (notIdle C))).loop
            (spin2 (staBit C.I2C_STA_CA) (staBit C.I2C_STA_TFCE))).loop
              (drain Reg.i2c_sta Reg.data_cmd (staBit C.I2C_STA_RFNE))).log
                Event.unlock).stalled = false) :
    ∃ closing, (((((x.loop (drain Reg.raw_intr_stat Reg.clr_stop_det
        (fun v => v &&& C.INTR_STOP_DETECTION != 0))).loop
          (spin Reg.i2c_sta (notIdle C))).loop
            (spin2 (staBit C.I2C_STA_CA) (staBit C.I2C_STA_TFCE))).loop
              (drain Reg.i2c_sta Reg.data_cmd (staBit C.I2C_STA_RFNE))).log
                Event.unlock).trace = x.trace ++ closing ++ [Event.unlock] ∧
      (∀ e ∈ closing, ∃ r v, e = Event.rd r v) ∧ x.stalled = false := by
  obtain ⟨h1, t1, _, _⟩ := log_running h
  have hg : Machine.Grows (fun e => ∃ r v, e = Event.rd r v) x
      ((((x.loop (drain Reg.raw_intr_stat Reg.clr_stop_det
        (fun v => v &&& C.INTR_STOP_DETECTION != 0))).loop
          (spin Reg.i2c_sta (notIdle C))).loop
            (spin2 (staBit C.I2C_STA_CA) (staBit C.I2C_STA_TFCE))).loop
              (drain Reg.i2c_sta Reg.data_cmd (staBit C.I2C_STA_RFNE))) := by
    refine Grows.trans ?_ (loop_grows _ _ (fun hw e he => drain_events _ _ _ hw e he))
    refine Grows.trans ?_ (loop_grows _ _ (fun hw e he => by
      obtain ⟨v, rfl⟩ := spin2_events _ _ hw e he; exact ⟨_, _, rfl⟩))
    refine Grows.trans ?_ (loop_grows _ _ (fun hw e he => by
      obtain ⟨v, rfl⟩ := spin_events _ _ hw e he; exact ⟨_, _, rfl⟩))
    exact loop_grows _ _ (fun hw e he => drain_events _ _ _ hw e he)
  obtain ⟨closing, tc, pc⟩ := hg
  obtain ⟨h2, _, _, _⟩ := loop_running h1
  obtain ⟨h3, _, _, _⟩ := loop_running h2
  obtain ⟨h4, _, _, _⟩ := loop_running h3
  obtain ⟨h5, _, _, _⟩ := loop_running h4
  exact ⟨closing, by rw [t1, tc], pc, h5⟩

/-- The trace of a transfer body that runs an empty request to its end. -/
theorem transferBody_nil_trace (C : Consts) (dev : SlaveDev) (a b : Nat) (hw : List Nat)
    (mem : Nat → Nat)
    (h : (transferBody C dev a b [] (Machine.init hw mem)).stalled = false) :
    ∃ (polls : List Event) (s c e : Nat) (closing : List Event),
      (transferBody C dev a b [] (Machine.init hw mem)).trace =
        Event.lock :: (polls ++ [Event.rd Reg.i2c_sta s]) ++
          [Event.rd Reg.ctl c, Event.wr Reg.ctl (rmwValue c C.CTL_ADDRESSING_MODE 1 a),
            Event.wr Reg.tar_add
              (u32 ((b <<< C.TAR_ADD_WIDTH) ||| (dev.chip_address <<< C.TAR_ADD_IC_TAR))),
            Event.rd Reg.i2c_en e, Event.wr Reg.i2c_en (rmwValue e C.I2C_EN_ENABLE 1 1)] ++
          closing ++ [Event.unlock] ∧
      (∀ x ∈ polls, ∃ u, x = Event.rd Reg.i2c_sta u ∧ notIdle C u = true) ∧
      notIdle C s = false ∧
      (∀ x ∈ closing, ∃ r v, x = Event.rd r v) := by
  unfold transferBody at h ⊢
  simp only [segmentLoop] at h ⊢
  obtain ⟨closing, tc, pc, h5⟩ := closing_trace C _ h
  obtain ⟨e, _, _, h7, _, t7, _⟩ := RMWREG32_running h5
  obtain ⟨h9, t9, _, _⟩ := write_running h7
  obtain ⟨c, _, _, h10, _, t10, _⟩ := RMWREG32_running h9
  obtain ⟨h11, t11, d11, _⟩ := loop_running h10
  obtain ⟨_, t12, _, _⟩ := log_running h11
  obtain ⟨polls, s, p1, p2, p3⟩ := spin_done _ _ _ _ d11
  refine ⟨polls, s, c, e, closing, ?_, p3, p2, pc⟩
  rw [tc, t7, t9, t10, t11, t12, p1]
  simp only [Machine.init, List.nil_append, List.append_assoc, List.cons_append, rmwValue]

/-- C13 (amended): for an empty request on a slave that passes the checks, the
transfer writes no command word and changes no byte of memory.  When the call
returns it returns `NO_ERROR`, and its trace is: the lock; reads of the status
register, the last of which, and only the last, shows the bus idle; the
read-modify-write of the control register that puts the addressing mode of the
slave into the field `CTL_ADDRESSING_MODE`; the write of the width bit and the
chip address to the target address register; the read-modify-write of the enable
register that sets the field `I2C_EN_ENABLE` to 1; then register reads only (the
closing drains and waits); then the unlock.  On hardware that answers every poll
at once the call does return. -/
theorem empty_request_writes_no_command_word (C : Consts) (dev : SlaveDev) (hw : List Nat)
    (mem : Nat → Nat) (hv : passesChecks C dev = true) :
    cmdWords (intel_broadwell_serialio_i2c_slave_transfer C dev []
      (Machine.init hw mem)).2.trace = [] ∧
    (intel_broadwell_serialio_i2c_slave_transfer C dev [] (Machine.init hw mem)).2.mem = mem ∧
    ((intel_broadwell_serialio_i2c_slave_transfer C dev [] (Machine.init hw mem)).1 ≠ none →
      (intel_broadwell_serialio_i2c_slave_transfer C dev [] (Machine.init hw mem)).1 =
        some C.NO_ERROR ∧
      ∃ (polls : List Event) (s c e : Nat) (closing : List Event),
        (intel_broadwell_serialio_i2c_slave_transfer C dev [] (Machine.init hw mem)).2.trace =
          Event.lock :: (polls ++ [Event.rd Reg.i2c_sta s]) ++
            [Event.rd Reg.ctl c,
              Event.wr Reg.ctl (rmwValue c C.CTL_ADDRESSING_MODE 1 (ctl_addr_mode_bit C dev)),
              Event.wr Reg.tar_add
                (u32 ((tar_add_addr_mode_bit C dev <<< C.TAR_ADD_WIDTH) |||
                  (dev.chip_address <<< C.TAR_ADD_IC_TAR))),
              Event.rd Reg.i2c_en e,
              Event.wr Reg.i2c_en (rmwValue e C.I2C_EN_ENABLE 1 1)] ++
            closing ++ [Event.unlock] ∧
        (∀ x ∈ polls, ∃ u, x = Event.rd Reg.i2c_sta u ∧ notIdle C u = true) ∧
        notIdle C s = false ∧
        (∀ x ∈ closing, ∃ r v, x = Event.rd r v)) ∧
    (∀ (s0 c e r s1 s2 s3 s4 : Nat) (rest : List Nat),
      notIdle C s0 = false → (r &&& C.INTR_STOP_DETECTION != 0) = false →
      notIdle C s1 = false → staBit C.I2C_STA_CA s2 = false →
      staBit C.I2C_STA_TFCE s3 = true → staBit C.I2C_STA_RFNE s4 = false →
      (intel_broadwell_serialio_i2c_slave_transfer C dev []
        (Machine.init (s0 :: c :: e :: r :: s1 :: s2 :: s3 :: s4 :: rest) mem)).1 =
        some C.NO_ERROR) := by
  have hpass := fun hw0 : List Nat => transfer_passed C dev [] (Machine.init hw0 mem) hv
  refine ⟨?_, ?_, ?_, ?_⟩
  · rw [hpass hw]
    simp only
    obtain ⟨m1, g1, g2, _⟩ := transferBody_words C dev _ _ [] (Machine.init hw mem)
    rw [g2]
    simp only [segmentLoop]
    rw [g1]
    rfl
  · rw [hpass hw]
    exact transferBody_nil_mem C dev _ _ _
  · rw [hpass hw]
    simp only
    intro hret
    cases hs : (transferBody C dev
        (if dev.chip_address_width = C.I2C_7BIT_ADDRESS then C.CTL_ADDRESSING_MODE_7BIT
          else C.CTL_ADDRESSING_MODE_10BIT)
        (if dev.chip_address_width = C.I2C_7BIT_ADDRESS then C.TAR_ADD_WIDTH_7BIT
          else C.TAR_ADD_WIDTH_10BIT) [] (Machine.init hw mem)).stalled
    · simp only [Bool.false_eq_true, if_false, true_and]
      exact transferBody_nil_trace C dev _ _ hw mem hs
    · rw [hs] at hret; simp at hret
  · intro s0 c e r s1 s2 s3 s4 rest h0 hr h1 h2 h3 h4
    rw [hpass]
    simp only
    rw [transferBody_nil_returns C dev _ _ s0 c e r s1 s2 s3 s4 rest mem h0 hr h1 h2 h3 h4]
    rfl

/-- C13 (amended) on a slave with a 7-bit address whose control register holds
16 and whose enable register holds 0: the call returns `NO_ERROR`, and the
register writes in its trace are 0 to the control register, 80 to the target
address register and 1 to the enable register. -/
theorem empty_request_writes_no_command_word_witness :
    passesChecks bdw dev7 = true ∧
    cmdWords (intel_broadwell_serialio_i2c_slave_transfer bdw dev7 []
      (Machine.init ([staIdle, 16, 0] ++ hwFinish) (memOf 0 []))).2.trace = [] ∧
    ((intel_broadwell_serialio_i2c_slave_transfer bdw dev7 []
      (Machine.init ([staIdle, 16, 0] ++ hwFinish) (memOf 0 []))).1 = some bdw.NO_ERROR ∧
      ∃ (polls : List Event) (s c e : Nat) (closing : List Event),
        (intel_broadwell_serialio_i2c_slave_transfer bdw dev7 []
          (Machine.init ([staIdle, 16, 0] ++ hwFinish) (memOf 0 []))).2.trace =
          Event.lock :: (polls ++ [Event.rd Reg.i2c_sta s]) ++
            [Event.rd Reg.ctl c,
              Event.wr Reg.ctl (rmwValue c bdw.CTL_ADDRESSING_MODE 1 (ctl_addr_mode_bit bdw dev7)),
              Event.wr Reg.tar_add
                (u32 ((tar_add_addr_mode_bit bdw dev7 <<< bdw.TAR_ADD_WIDTH) |||
                  (dev7.chip_address <<< bdw.TAR_ADD_IC_TAR))),
              Event.rd Reg.i2c_en e,
              Event.wr Reg.i2c_en (rmwValue e bdw.I2C_EN_ENABLE 1 1)] ++
            closing ++ [Event.unlock] ∧
        (∀ x ∈ polls, ∃ u, x = Event.rd Reg.i2c_sta u ∧ notIdle bdw u = true) ∧
        notIdle bdw s = false ∧
        (∀ x ∈ closing, ∃ r v, x = Event.rd r v)) ∧
    (rmwValue 16 bdw.CTL_ADDRESSING_MODE 1 (ctl_addr_mode_bit bdw dev7) = 0 ∧
      u32 ((tar_add_addr_mode_bit bdw dev7 <<< bdw.TAR_ADD_WIDTH) |||
        (dev7.chip_address <<< bdw.TAR_ADD_IC_TAR)) = 80 ∧
      rmwValue 0 bdw.I2C_EN_ENABLE 1 1 = 1) ∧
    (intel_broadwell_serialio_i2c_slave_transfer bdw dev7 []
      (Machine.init (6 :: 16 :: 0 :: 0 :: 6 :: 6 :: 6 :: 6 :: []) (memOf 0 []))).1 =
      some bdw.NO_ERROR :=
  ⟨by decide,
    (empty_request_writes_no_command_word bdw dev7 ([staIdle, 16, 0] ++ hwFinish) (memOf 0 [])
      (by decide)).1,
    (empty_request_writes_no_command_word bdw dev7 ([staIdle, 16, 0] ++ hwFinish) (memOf 0 [])
      (by decide)).2.2.1 (by decide),
    by decide,
    (empty_request_writes_no_command_word bdw dev7 ([staIdle, 16, 0] ++ hwFinish) (memOf 0 [])
      (by decide)).2.2.2 6 16 0 0 6 6 6 6 [] (by decide) (by decide) (by decide) (by decide)
      (by decide) (by decide)⟩

/-! ## The command words of every request -/

theorem map_range_const {α : Type} (n : Nat) (c : α) :
    (List.range n).map (fun _ => c) = List.replicate n c := by
  induction n with
  | zero => rfl
  | succ n ih => rw [List.range_succ, List.map_append, ih, List.replicate_succ']; rfl

theorem byteLoop_codes (C : Consts) (hC : C.cmdFieldsOk) (read : Bool) (n restart buf : Nat)
    (m : Machine) (hr : restart ≤ 1) :
    ∃ ws, cmdWords (byteLoop C read n restart buf m).trace = cmdWords m.trace ++ ws ∧
      ws.map (cmdCode C) <+:
        List.replicate n (if read then C.DATA_CMD_CMD_READ else C.DATA_CMD_CMD_WRITE) ∧
      ((byteLoop C read n restart buf m).stalled = false → ws.length = n) := by
  obtain ⟨ws, h1, h2, h3⟩ := byteLoop_fields C hC read n restart buf m hr
  refine ⟨ws, h1, ?_, h3⟩
  have h4 := h2.map Prod.fst
  rw [List.map_map, List.map_map] at h4
  have e1 : (Prod.fst ∘ cmdFields C) = cmdCode C := by
    funext w; rfl
  have e2 : (Prod.fst ∘ fun j => if read = true then (C.DATA_CMD_CMD_READ, 0)
      else (C.DATA_CMD_CMD_WRITE, m.mem (buf + j) % 256)) =
      fun _ => if read then C.DATA_CMD_CMD_READ else C.DATA_CMD_CMD_WRITE := by
    funext j
    cases read <;> rfl
  rw [e1, e2, map_range_const] at h4
  exact h4

theorem segmentLoop_codes (C : Consts) (hC : C.cmdFieldsOk) (segs : List Segment) :
    ∀ (last : Bool) (m : Machine),
      ∃ ws, cmdWords (segmentLoop C last segs m).trace = cmdWords m.trace ++ ws ∧
        ws.map (cmdCode C) <+: codePlan C segs ∧
        ((segmentLoop C last segs m).stalled = false → ws.map (cmdCode C) = codePlan C segs) := by
  induction segs with
  | nil =>
    intro last m
    exact ⟨[], by simp [segmentLoop], by simp [codePlan], fun _ => by simp [codePlan]⟩
  | cons s rest ih =>
    intro last m
    unfold segmentLoop codePlan
    obtain ⟨ws1, h1, h2, h3⟩ := byteLoop_codes C hC s.read (loopCount s.len)
      (if last = s.read then 1 else 0) s.buf m (by split <;> omega)
    obtain ⟨ws2, h4, h5, h6⟩ := ih s.read
      (byteLoop C s.read (loopCount s.len) (if last = s.read then 1 else 0) s.buf m)
    cases hst : (byteLoop C s.read (loopCount s.len) (if last = s.read then 1 else 0) s.buf m).stalled
    · have hlen := h3 hst
      have heq := List.IsPrefix.eq_of_length h2 (by simp [hlen])
      refine ⟨ws1 ++ ws2, ?_, ?_, ?_⟩
      · rw [h4, h1, List.append_assoc]
      · rw [List.map_append, heq]
        exact (List.prefix_append_right_inj _).mpr h5
      · intro hs
        rw [List.map_append, heq, h6 hs]
    · refine ⟨ws1, ?_, ?_, ?_⟩
      · rw [segmentLoop_of_stalled C _ _ hst, h1]
      · exact h2.trans (List.prefix_append _ _)
      · intro hs
        rw [segmentLoop_of_stalled C _ _ hst, hst] at hs
        cases hs

theorem codePlan_length (C : Consts) (segs : List Segment) :
    (codePlan C segs).length = (segs.map (fun s => loopCount s.len)).sum := by
  induction segs with
  | nil => rfl
  | cons s rest ih => simp [codePlan, ih]

theorem wordPlanFrom_length (C : Consts) (segs : List Segment) :
    ∀ (mem : Nat → Nat) (rx : List Nat),
      (wordPlanFrom C mem rx segs).length = (segs.map (fun s => loopCount s.len)).sum := by
  induction segs with
  | nil => intro mem rx; rfl
  | cons s rest ih =>
    intro mem rx
    unfold wordPlanFrom
    split <;> simp [ih]

theorem sum_loopCount_of_nonneg (segs : List Segment)
    (h : ∀ s ∈ segs, 0 ≤ s.len ∧ s.len < 2 ^ 31) :
    (((segs.map (fun s => loopCount s.len)).sum : Nat) : Int) = totalLen segs := by
  induction segs with
  | nil => rfl
  | cons s rest ih =>
    have h1 := h s (List.mem_cons_self _ _)
    have h2 := ih (fun t ht => h t (List.mem_cons_of_mem _ ht))
    simp only [totalLen, List.map_cons, List.sum_cons, Nat.cast_add] at h2 ⊢
    rw [h2, loopCount_of_nonneg h1.1 h1.2]

/-- The segment loop of a run that is not cut off: the command words carry the
code and data of `wordPlanFrom` for the bytes received, and memory ends as the
received bytes leave it. -/
theorem segmentLoop_plan (C : Consts) (hC : C.cmdFieldsOk) (segs : List Segment) :
    ∀ (last : Bool) (m : Machine), (segmentLoop C last segs m).stalled = false →
      ∃ ws rx, cmdWords (segmentLoop C last segs m).trace = cmdWords m.trace ++ ws ∧
        rxReads (segmentLoop C last segs m).trace = rxReads m.trace ++ rx ∧
        ∀ extra, ws.map (cmdFields C) = wordPlanFrom C m.mem (rx ++ extra) segs := by
  induction segs with
  | nil =>
    intro last m _
    exact ⟨[], [], by simp [segmentLoop], by simp [segmentLoop], fun _ => rfl⟩
  | cons s rest ih =>
    intro last m h
    unfold segmentLoop at h ⊢
    simp only [] at h ⊢
    obtain ⟨ws2, rx2, h1, h2, h3⟩ := ih s.read _ h
    have hrun := segmentLoop_running C _ _ h
    obtain ⟨ws1, f1, f2, f3⟩ := byteLoop_fields C hC s.read (loopCount s.len)
      (if last = s.read then 1 else 0) s.buf m (by split <;> omega)
    have feq := List.IsPrefix.eq_of_length f2 (by simp [f3 hrun])
    cases hr : s.read
    · rw [hr] at h1 h2 h3 hrun f1 feq
      obtain ⟨g1, g2⟩ := byteLoop_write_rx C (loopCount s.len)
        (if last = false then 1 else 0) s.buf m
      refine ⟨ws1 ++ ws2, rx2, ?_, ?_, ?_⟩
      · rw [h1, f1, List.append_assoc]
      · rw [h2, g1]
      · intro extra
        rw [List.map_append, feq, h3 extra, g2]
        simp [wordPlanFrom, hr]
    · rw [hr] at h1 h2 h3 hrun f1 feq
      obtain ⟨rx1, g1, g2, g3⟩ := byteLoop_read_rx C (loopCount s.len)
        (if last = true then 1 else 0) s.buf m hrun
      refine ⟨ws1 ++ ws2, rx1 ++ rx2, ?_, ?_, ?_⟩
      · rw [h1, f1, List.append_assoc]
      · rw [h2, g1, List.append_assoc]
      · intro extra
        rw [List.map_append, feq, h3 extra, g3]
        have hd : (rx1 ++ rx2 ++ extra).drop (loopCount s.len) = rx2 ++ extra := by
          rw [List.append_assoc, List.drop_left' g2]
        have hw : writeBack m.mem ((List.range (loopCount s.len)).map (fun j => s.buf + j))
            (rx1 ++ rx2 ++ extra) =
            writeBack m.mem ((List.range (loopCount s.len)).map (fun j => s.buf + j)) rx1 := by
          rw [List.append_assoc]
          exact writeBack_extra _ _ _ _ (by simp [g2])
        simp only [wordPlanFrom, hr, if_true, hd, hw]

theorem transferBody_plan (C : Consts) (hC : C.cmdFieldsOk) (dev : SlaveDev) (a b : Nat)
    (segs : List Segment) (hw : List Nat) (mem : Nat → Nat)
    (h : (transferBody C dev a b segs (Machine.init hw mem)).stalled = false) :
    (cmdWords (transferBody C dev a b segs (Machine.init hw mem)).trace).map (cmdFields C) =
      wordPlanFrom C mem (rxReads (transferBody C dev a b segs (Machine.init hw mem)).trace)
        segs := by
  obtain ⟨m1, tail, ⟨evs, g1, g2⟩, g3, g4, g5, _, g7⟩ :=
    transferBody_segments C dev a b segs (Machine.init hw mem)
  obtain ⟨ws, rx, h1, h2, h3⟩ := segmentLoop_plan C hC segs (initLastRead segs) m1 (g7 h)
  have hpre : cmdWords m1.trace = [] := by
    rw [g1, cmdWords_append, cmdWords_of_none evs (fun e he => (g2 e he).1)]
    rfl
  have hprx : rxReads m1.trace = [] := by
    rw [g1, rxReads_append, rxReads_of_none evs (fun e he => (g2 e he).2)]
    rfl
  rw [g4, cmdWords_append, g5, h1, hpre, rxReads_append, h2, hprx, List.nil_append,
    List.append_nil, List.nil_append, h3 (rxReads tail), g3]
  rfl

theorem transferBody_codes (C : Consts) (hC : C.cmdFieldsOk) (dev : SlaveDev) (a b : Nat)
    (segs : List Segment) (hw : List Nat) (mem : Nat → Nat) :
    (cmdWords (transferBody C dev a b segs (Machine.init hw mem)).trace).map (cmdCode C) <+:
        codePlan C segs ∧
      ((transferBody C dev a b segs (Machine.init hw mem)).stalled = false →
        (cmdWords (transferBody C dev a b segs (Machine.init hw mem)).trace).map (cmdCode C) =
          codePlan C segs) := by
  obtain ⟨m1, tail, ⟨evs, g1, g2⟩, _, g4, g5, _, g7⟩ :=
    transferBody_segments C dev a b segs (Machine.init hw mem)
  obtain ⟨ws, h1, h2, h3⟩ := segmentLoop_codes C hC segs (initLastRead segs) m1
  have hpre : cmdWords m1.trace = [] := by
    rw [g1, cmdWords_append, cmdWords_of_none evs (fun e he => (g2 e he).1)]
    rfl
  have hall : cmdWords (transferBody C dev a b segs (Machine.init hw mem)).trace = ws := by
    rw [g4, cmdWords_append, g5, h1, hpre]
    simp
  rw [hall]
  exact ⟨h2, fun hs => h3 (g7 hs)⟩

/-- With the write buffers apart from the read buffers, the bytes sent are those
that memory holds at the start, whatever is received. -/
theorem wordPlanFrom_of_apart (C : Consts) (mem : Nat → Nat) (segs : List Segment) :
    ∀ (cur : Nat → Nat) (rx : List Nat), writeBuffersApart segs →
      (∀ s ∈ segs, s.read = false → ∀ j, j < loopCount s.len →
        cur (s.buf + j) = mem (s.buf + j)) →
      wordPlanFrom C cur rx segs = wordPlan C mem segs := by
  induction segs with
  | nil => intro cur rx _ _; rfl
  | cons s rest ih =>
    intro cur rx hap hmem
    unfold wordPlanFrom wordPlan
    cases hr : s.read
    · simp only [Bool.false_eq_true, if_false]
      rw [ih cur rx (writeBuffersApart_tail hap)
        (fun t ht hrt j hj => hmem t (List.mem_cons_of_mem _ ht) hrt j hj)]
      congr 1
      apply List.map_congr_left
      intro j hj
      rw [hmem s (List.mem_cons_self _ _) hr j (List.mem_range.mp hj)]
    · simp only [if_true]
      rw [ih _ _ (writeBuffersApart_tail hap) (fun t ht hrt j hj => by
        rw [writeBack_of_not_mem _ _ _ _ (by
          intro hx
          simp only [List.mem_map, List.mem_range] at hx
          obtain ⟨k, hk, hjk⟩ := hx
          exact hap t (List.mem_cons_of_mem _ ht) hrt s (List.mem_cons_self _ _) hr j hj k hk
            hjk.symm)]
        exact hmem t (List.mem_cons_of_mem _ ht) hrt j hj)]

/-- C15: on a slave that passes the checks, for every request, memory and
hardware behaviour, the command words written carry, word by word, the command
codes of `codePlan`: one word per byte, by segment and then by byte offset, the
read code for a byte of a read segment and the write code for a byte of a write
segment; while the run is cut off inside a spin loop they are a prefix of that
list.  When the call returns, the words carry the code and data of
`wordPlanFrom` for the bytes received: no data for a byte of a read segment, and
for byte `j` of a write segment the byte its buffer holds at offset `j` when the
segment is sent, which is the byte it held at the start when no read segment
shares a byte with a write segment.  The call does return on a controller that
is ready at every poll.  The number of words is the sum of the loop counts of
the segments, which is the sum of their lengths when these are byte counts that
fit an `int`. -/
theorem one_command_word_per_byte (C : Consts) (hC : C.cmdFieldsOk) (dev : SlaveDev)
    (segments : List Segment) (hw : List Nat) (mem : Nat → Nat)
    (hv : passesChecks C dev = true) :
    (cmdWords (intel_broadwell_serialio_i2c_slave_transfer C dev segments
        (Machine.init hw mem)).2.trace).map (cmdCode C) <+: codePlan C segments ∧
    ((intel_broadwell_serialio_i2c_slave_transfer C dev segments
        (Machine.init hw mem)).1 ≠ none →
      (cmdWords (intel_broadwell_serialio_i2c_slave_transfer C dev segments
        (Machine.init hw mem)).2.trace).map (cmdCode C) = codePlan C segments ∧
      (cmdWords (intel_broadwell_serialio_i2c_slave_transfer C dev segments
        (Machine.init hw mem)).2.trace).map (cmdFields C) =
        wordPlanFrom C mem
          (rxReads (intel_broadwell_serialio_i2c_slave_transfer C dev segments
            (Machine.init hw mem)).2.trace) segments) ∧
    (C.I2C_STA_CA ≠ C.I2C_STA_TFCE → ∀ d,
      (intel_broadwell_serialio_i2c_slave_transfer C dev segments
        (Machine.init (readyHw C d segments) mem)).1 = some C.NO_ERROR) ∧
    ((codePlan C segments).length = (segments.map (fun s => loopCount s.len)).sum ∧
      (∀ rx, (wordPlanFrom C mem rx segments).length =
        (segments.map (fun s => loopCount s.len)).sum) ∧
      ((∀ s ∈ segments, 0 ≤ s.len ∧ s.len < 2 ^ 31) →
        ((codePlan C segments).length : Int) = totalLen segments)) ∧
    (writeBuffersApart segments →
      ∀ rx, wordPlanFrom C mem rx segments = wordPlan C mem segments) ∧
    (∀ (n restart buf : Nat) (m : Machine), restart ≤ 1 →
      (byteBody C false n restart buf m).stalled = false →
      ∃ w, cmdWords (byteBody C false n restart buf m).trace = cmdWords m.trace ++ [w] ∧
        cmdFields C w = (C.DATA_CMD_CMD_WRITE, m.mem buf % 256)) := by
  have hpass := fun hw0 : List Nat => transfer_passed C dev segments (Machine.init hw0 mem) hv
  refine ⟨?_, ?_, ?_, ⟨codePlan_length C segments, wordPlanFrom_length C segments mem, ?_⟩,
    ?_, ?_⟩
  · rw [hpass hw]
    exact (transferBody_codes C hC dev _ _ segments hw mem).1
  · rw [hpass hw]
    simp only
    intro hret
    have hs : (transferBody C dev
        (if dev.chip_address_width = C.I2C_7BIT_ADDRESS then C.CTL_ADDRESSING_MODE_7BIT
          else C.CTL_ADDRESSING_MODE_10BIT)
        (if dev.chip_address_width = C.I2C_7BIT_ADDRESS then C.TAR_ADD_WIDTH_7BIT
          else C.TAR_ADD_WIDTH_10BIT) segments (Machine.init hw mem)).stalled = false := by
      cases hs : (transferBody C dev
        (if dev.chip_address_width = C.I2C_7BIT_ADDRESS then C.CTL_ADDRESSING_MODE_7BIT
          else C.CTL_ADDRESSING_MODE_10BIT)
        (if dev.chip_address_width = C.I2C_7BIT_ADDRESS then C.TAR_ADD_WIDTH_7BIT
          else C.TAR_ADD_WIDTH_10BIT) segments (Machine.init hw mem)).stalled
      · rfl
      · rw [hs] at hret; simp at hret
    exact ⟨(transferBody_codes C hC dev _ _ segments hw mem).2 hs,
      transferBody_plan C hC dev _ _ segments hw mem hs⟩
  · intro hne d
    rw [hpass]
    simp [transferBody_ready C hne dev _ _ d segments mem]
  · intro hnn
    rw [codePlan_length]
    exact sum_loopCount_of_nonneg segments hnn
  · intro hap rx
    exact wordPlanFrom_of_apart C mem segments mem rx hap (fun _ _ _ _ _ => rfl)
  · intro n restart buf m hr hs
    rcases byteBody_fields C hC false n restart buf m hr with ⟨_, h2⟩ | ⟨w, h1, h2⟩
    · rw [hs] at h2; cases h2
    · exact ⟨w, h1, by simpa using h2⟩

/-- C15 on a request whose write segment shares its byte with the read segment
before it: the byte holds 170 at the start, 9 is received into it, and the
command words are the read code with no data and the write code with data 9. -/
theorem one_command_word_per_byte_witness :
    (bdw.cmdFieldsOk ∧ passesChecks bdw dev7 = true) ∧
    (cmdWords (intel_broadwell_serialio_i2c_slave_transfer bdw dev7
        [{ read := true, len := 1, buf := 1016 }, { read := false, len := 1, buf := 1016 }]
        (Machine.init (hwSetup ++ [staRx, 9, staIdle] ++ hwFinish)
          (memOf 1000 [1, 0, 0, 0, 1, 0, 0, 0, 0, 0, 0, 0, 1, 0, 0, 0, 170]))).2.trace).map
        (cmdFields bdw) = [(1, 0), (0, 9)] :=
  ⟨⟨by decide, by decide⟩,
    ((one_command_word_per_byte bdw (by decide) dev7
      [{ read := true, len := 1, buf := 1016 }, { read := false, len := 1, buf := 1016 }]
      (hwSetup ++ [staRx, 9, staIdle] ++ hwFinish)
      (memOf 1000 [1, 0, 0, 0, 1, 0, 0, 0, 0, 0, 0, 0, 1, 0, 0, 0, 170])
      (by decide)).2.1 (by decide)).2.trans (by decide)⟩

/-- Example scenario 2 (one write byte 170, then two read bytes): three command
words, the write code with data 170 and twice the read code with no data. -/
theorem scenario2_command_words :
    (cmdWords (intel_broadwell_serialio_i2c_slave_transfer bdw dev7
        [{ read := false, len := 1, buf := 1008 }, { read := true, len := 2, buf := 2000 }]
        (Machine.init (hwSetup ++ [staIdle, staRx, 171, staRx, 205] ++ hwFinish)
          (memOf 1000 [0, 0, 0, 0, 1, 0, 0, 0, 170, 1, 0, 0, 0, 2, 0, 0, 0]))).2.trace).map
        (cmdFields bdw) = [(0, 170), (1, 0), (1, 0)] := by
  decide

/-! ## The bytes read in answer to read commands -/

theorem rxAfterCmd_append (C : Consts) (a : List Event) :
    ∀ (p : Bool) (b : List Event),
      rxAfterCmd C p (a ++ b) = rxAfterCmd C p a ++ rxAfterCmd C (pendingAfter C p a) b ∧
        pendingAfter C p (a ++ b) = pendingAfter C (pendingAfter C p a) b := by
  induction a with
  | nil => intro p b; exact ⟨rfl, rfl⟩
  | cons e t ih =>
    intro p b
    obtain ⟨h1, h2⟩ := ih (rxStep C p e).1 b
    refine ⟨?_, ?_⟩
    · show (rxStep C p e).2.toList ++ rxAfterCmd C (rxStep C p e).1 (t ++ b) =
        ((rxStep C p e).2.toList ++ rxAfterCmd C (rxStep C p e).1 t) ++
          rxAfterCmd C (pendingAfter C (rxStep C p e).1 t) b
      rw [h1, List.append_assoc]
    · show pendingAfter C (rxStep C p e).1 (t ++ b) =
        pendingAfter C (pendingAfter C (rxStep C p e).1 t) b
      exact h2

theorem rxAfterCmd_quiet (C : Consts) (evs : List Event)
    (h : ∀ e ∈ evs, cmdWord e = none ∧ rxRead e = none) :
    ∀ p, rxAfterCmd C p evs = [] ∧ pendingAfter C p evs = p := by
  induction evs with
  | nil => intro p; exact ⟨rfl, rfl⟩
  | cons e t ih =>
    intro p
    obtain ⟨h1, h2⟩ := h e (List.mem_cons_self _ _)
    have hs : rxStep C p e = (p, none) := by simp [rxStep, h1, h2]
    obtain ⟨i1, i2⟩ := ih (fun x hx => h x (List.mem_cons_of_mem _ hx)) p
    exact ⟨by simp [rxAfterCmd, hs, i1], by simp [pendingAfter, hs, i2]⟩

theorem rxAfterCmd_no_command (C : Consts) (evs : List Event)
    (h : ∀ e ∈ evs, cmdWord e = none) :
    rxAfterCmd C false evs = [] ∧ pendingAfter C false evs = false := by
  induction evs with
  | nil => exact ⟨rfl, rfl⟩
  | cons e t ih =>
    have h1 := h e (List.mem_cons_self _ _)
    have hs : rxStep C false e = (false, none) := by
      cases h2 : rxRead e <;> simp [rxStep, h1, h2]
    obtain ⟨i1, i2⟩ := ih (fun x hx => h x (List.mem_cons_of_mem _ hx))
    exact ⟨by simp [rxAfterCmd, hs, i1], by simp [pendingAfter, hs, i2]⟩

/-- A read iteration that is not cut off, with its command word. -/
theorem byteBody_read_block (C : Consts) (hC : C.cmdFieldsOk) (n restart buf : Nat)
    (m : Machine) (h : (byteBody C true n restart buf m).stalled = false) :
    ∃ (w : Nat) (pre : List Event) (v d : Nat),
      (byteBody C true n restart buf m).trace =
        m.trace ++ Event.wr Reg.data_cmd w ::
          (pre ++ [Event.rd Reg.i2c_sta v, Event.rd Reg.data_cmd d]) ∧
      cmdFields C w = (C.DATA_CMD_CMD_READ, 0) ∧
      (∀ e ∈ pre, ∃ u, e = Event.rd Reg.i2c_sta u ∧ staBit C.I2C_STA_RFNE u = false) ∧
      staBit C.I2C_STA_RFNE v = true ∧
      (byteBody C true n restart buf m).mem = fun x => if x = buf then d % 256 else m.mem x := by
  have hstop : (if n = 0 then 1 <<< C.DATA_CMD_STOP else 0) = 0 ∨
      (if n = 0 then 1 <<< C.DATA_CMD_STOP else 0) = 1 <<< C.DATA_CMD_STOP := by
    split <;> simp
  simp only [byteBody, if_true] at h ⊢
  obtain ⟨a1, a2, _, a4⟩ := store_running h
  obtain ⟨d, rest, _, b2, b3, _, b5, b6⟩ := read_running a1
  obtain ⟨c1, c2, c3, c4⟩ := loop_running b2
  obtain ⟨pre, v, e1, e2, e3⟩ := spin_done _ _ _ _ c3
  obtain ⟨_, f2, _, f4⟩ := write_running c1
  refine ⟨u32 (restart <<< C.DATA_CMD_RESTART ||| C.DATA_CMD_CMD_READ <<< C.DATA_CMD_CMD |||
    if n = 0 then 1 <<< C.DATA_CMD_STOP else 0), pre, v, d, ?_,
    cmdFields_read_word C hC hstop, ?_, by simpa using e2, ?_⟩
  · rw [a2, b5, c2, e1, f2]
    simp
  · intro e he
    obtain ⟨u, hu, hs⟩ := e3 e he
    exact ⟨u, hu, by simpa using hs⟩
  · rw [a4, b3, b6, c4, f4]

/-- A write iteration that is not cut off: polls of the status register, then
the command word, which is a write command. -/
theorem byteBody_write_block (C : Consts) (hC : C.cmdFieldsOk) (n restart buf : Nat)
    (m : Machine) (hr : restart ≤ 1) (h : (byteBody C false n restart buf m).stalled = false) :
    ∃ (w : Nat) (pre : List Event),
      (byteBody C false n restart buf m).trace = m.trace ++ pre ++ [Event.wr Reg.data_cmd w] ∧
      cmdFields C w = (C.DATA_CMD_CMD_WRITE, m.mem buf % 256) ∧
      (∀ e ∈ pre, ∃ u, e = Event.rd Reg.i2c_sta u) := by
  have hstop : (if n = 0 then 1 <<< C.DATA_CMD_STOP else 0) = 0 ∨
      (if n = 0 then 1 <<< C.DATA_CMD_STOP else 0) = 1 <<< C.DATA_CMD_STOP := by
    split <;> simp
  simp only [byteBody, Bool.false_eq_true, if_false] at h ⊢
  obtain ⟨a1, a2, _, _⟩ := write_running h
  obtain ⟨_, c2, _, c4⟩ := loop_running a1
  refine ⟨_, _, by rw [a2, c2], ?_, fun e he => spin_events _ _ _ e he⟩
  rw [c4]
  exact cmdFields_write_word C hC hr (Nat.mod_lt _ (by decide)) hstop

theorem isReadCmd_of_fields (C : Consts) {w x : Nat} (h : cmdFields C w = (C.DATA_CMD_CMD_READ, x)) :
    isReadCmd C w = true := by
  have : cmdCode C w = C.DATA_CMD_CMD_READ := congrArg Prod.fst h
  simp [isReadCmd, this]

theorem isReadCmd_of_write (C : Consts) (hne : C.DATA_CMD_CMD_READ ≠ C.DATA_CMD_CMD_WRITE)
    {w x : Nat} (h : cmdFields C w = (C.DATA_CMD_CMD_WRITE, x)) : isReadCmd C w = false := by
  have : cmdCode C w = C.DATA_CMD_CMD_WRITE := congrArg Prod.fst h
  simp [isReadCmd, this, Ne.symm hne]

theorem byteBody_answers (C : Consts) (hC : C.cmdFieldsOk)
    (hne : C.DATA_CMD_CMD_READ ≠ C.DATA_CMD_CMD_WRITE) (read : Bool) (n restart buf : Nat)
    (m : Machine) (hr : restart ≤ 1) (h : (byteBody C read n restart buf m).stalled = false) :
    ∃ rx, rxAfterCmd C false (byteBody C read n restart buf m).trace =
        rxAfterCmd C false m.trace ++ rx ∧
      pendingAfter C false (byteBody C read n restart buf m).trace = false ∧
      rx.length = (if read then 1 else 0) ∧
      (byteBody C read n restart buf m).mem =
        writeBack m.mem (if read then [buf] else []) rx := by
  cases read
  · obtain ⟨w, pre, t1, t2, t3⟩ := byteBody_write_block C hC n restart buf m hr h
    have hq := rxAfterCmd_quiet C pre (fun e he => by
      obtain ⟨u, rfl⟩ := t3 e he; exact ⟨rfl, rfl⟩)
    have hw : ∀ p, rxStep C p (Event.wr Reg.data_cmd w) = (false, none) := by
      intro p
      simp [rxStep, cmdWord, isReadCmd_of_write C hne t2]
    refine ⟨[], ?_, ?_, rfl, ?_⟩
    · rw [t1, List.append_assoc, (rxAfterCmd_append C _ _ _).1, (rxAfterCmd_append C _ _ _).1,
        (hq _).1, (hq _).2]
      simp [rxAfterCmd, hw]
    · rw [t1, List.append_assoc, (rxAfterCmd_append C _ _ _).2, (rxAfterCmd_append C _ _ _).2,
        (hq _).2]
      simp [pendingAfter, hw]
    · rw [byteBody_write_mem]; rfl
  · obtain ⟨w, pre, v, d, t1, t2, t3, _, t5⟩ := byteBody_read_block C hC n restart buf m h
    have hq := rxAfterCmd_quiet C (pre ++ [Event.rd Reg.i2c_sta v]) (fun e he => by
      rcases List.mem_append.mp he with he | he
      · obtain ⟨u, rfl, _⟩ := t3 e he; exact ⟨rfl, rfl⟩
      · simp only [List.mem_singleton] at he
        rw [he]; exact ⟨rfl, rfl⟩)
    have hw : ∀ p, rxStep C p (Event.wr Reg.data_cmd w) = (true, none) := by
      intro p
      simp [rxStep, cmdWord, isReadCmd_of_fields C t2]
    have hd : rxStep C true (Event.rd Reg.data_cmd d) = (false, some d) := by
      simp [rxStep, cmdWord, rxRead]
    have hshape : Event.wr Reg.data_cmd w ::
        (pre ++ [Event.rd Reg.i2c_sta v, Event.rd Reg.data_cmd d]) =
        [Event.wr Reg.data_cmd w] ++ ((pre ++ [Event.rd Reg.i2c_sta v]) ++
          [Event.rd Reg.data_cmd d]) := by simp
    refine ⟨[d], ?_, ?_, rfl, ?_⟩
    · rw [t1, hshape, (rxAfterCmd_append C _ _ _).1, (rxAfterCmd_append C _ _ _).1,
        (rxAfterCmd_append C _ _ _).1, (hq _).1, (hq _).2]
      simp [rxAfterCmd, pendingAfter, hw, hd]
    · rw [t1, hshape, (rxAfterCmd_append C _ _ _).2, (rxAfterCmd_append C _ _ _).2,
        (rxAfterCmd_append C _ _ _).2, (hq _).2]
      simp [pendingAfter, hw, hd]
    · rw [t5]; rfl

theorem byteLoop_answers (C : Consts) (hC : C.cmdFieldsOk)
    (hne : C.DATA_CMD_CMD_READ ≠ C.DATA_CMD_CMD_WRITE) (read : Bool) (n : Nat) :
    ∀ (restart buf : Nat) (m : Machine), restart ≤ 1 →
      pendingAfter C false m.trace = false →
      (byteLoop C read n restart buf m).stalled = false →
      ∃ rx, rxAfterCmd C false (byteLoop C read n restart buf m).trace =
          rxAfterCmd C false m.trace ++ rx ∧
        pendingAfter C false (byteLoop C read n restart buf m).trace = false ∧
        rx.length = (if read then n else 0) ∧
        (byteLoop C read n restart buf m).mem =
          writeBack m.mem (if read then (List.range n).map (fun j => buf + j) else []) rx := by
  induction n with
  | zero =>
    intro restart buf m _ hp _
    refine ⟨[], by simp [byteLoop], by simpa [byteLoop] using hp, by simp, ?_⟩
    cases read <;> rfl
  | succ n ih =>
    intro restart buf m hr hp h
    unfold byteLoop at h ⊢
    obtain ⟨rx1, a1, a2, a3, a4⟩ := byteBody_answers C hC hne read n restart buf m hr
      (stalled_of_byteLoop C _ _ _ _ _ h)
    obtain ⟨rx2, b1, b2, b3, b4⟩ := ih 0 (buf + 1) _ (by omega) a2 h
    refine ⟨rx1 ++ rx2, by rw [b1, a1, List.append_assoc], b2, ?_, ?_⟩
    · rw [List.length_append, a3, b3]
      cases read
      · rfl
      · simp only [if_true]; omega
    · rw [b4, a4]
      cases read
      · simp only [Bool.false_eq_true, if_false] at a3 b3 ⊢
        rw [List.length_eq_zero.mp a3, List.length_eq_zero.mp b3]
        rfl
      · simp only [if_true] at a3 b3 ⊢
        have hmap : (List.range (n + 1)).map (fun j => buf + j) =
            [buf] ++ (List.range n).map (fun j => buf + 1 + j) := by
          rw [List.range_succ_eq_map, List.map_cons, List.map_map]
          simp only [Nat.add_zero, List.singleton_append, List.cons.injEq, true_and]
          apply List.map_congr_left
          intro j _
          simp only [Function.comp]
          omega
        rw [hmap, writeBack_append _ _ _ _ _ (by simp [a3])]

theorem readAddrs_cons (s : Segment) (rest : List Segment) :
    readAddrs (s :: rest) =
      (if s.read then (List.range (loopCount s.len)).map (fun j => s.buf + j) else []) ++
        readAddrs rest := rfl

theorem segmentLoop_answers (C : Consts) (hC : C.cmdFieldsOk)
    (hne : C.DATA_CMD_CMD_READ ≠ C.DATA_CMD_CMD_WRITE) (segs : List Segment) :
    ∀ (last : Bool) (m : Machine), pendingAfter C false m.trace = false →
      (segmentLoop C last segs m).stalled = false →
      ∃ rx, rxAfterCmd C false (segmentLoop C last segs m).trace =
          rxAfterCmd C false m.trace ++ rx ∧
        pendingAfter C false (segmentLoop C last segs m).trace = false ∧
        rx.length = (readAddrs segs).length ∧
        (segmentLoop C last segs m).mem = writeBack m.mem (readAddrs segs) rx := by
  induction segs with
  | nil =>
    intro last m hp _
    exact ⟨[], by simp [segmentLoop], by simpa [segmentLoop] using hp, rfl, rfl⟩
  | cons s rest ih =>
    intro last m hp h
    unfold segmentLoop at h ⊢
    simp only [] at h ⊢
    have hrun := segmentLoop_running C _ _ h
    obtain ⟨rx1, a1, a2, a3, a4⟩ := byteLoop_answers C hC hne s.read (loopCount s.len)
      (if last = s.read then 1 else 0) s.buf m (by split <;> omega) hp hrun
    obtain ⟨rx2, b1, b2, b3, b4⟩ := ih s.read _ a2 h
    refine ⟨rx1 ++ rx2, by rw [b1, a1, List.append_assoc], b2, ?_, ?_⟩
    · rw [readAddrs_cons, List.length_append, List.length_append, a3, b3]
      cases s.read <;> simp
    · rw [b4, a4, readAddrs_cons, writeBack_append _ _ _ _ _ (by
        rw [a3]; cases s.read <;> simp)]

theorem transferBody_answers (C : Consts) (hC : C.cmdFieldsOk)
    (hne : C.DATA_CMD_CMD_READ ≠ C.DATA_CMD_CMD_WRITE) (dev : SlaveDev) (a b : Nat)
    (segs : List Segment) (hw : List Nat) (mem : Nat → Nat)
    (h : (transferBody C dev a b segs (Machine.init hw mem)).stalled = false) :
    (rxAfterCmd C false (transferBody C dev a b segs (Machine.init hw mem)).trace).length =
        (readAddrs segs).length ∧
      (transferBody C dev a b segs (Machine.init hw mem)).mem =
        writeBack mem (readAddrs segs)
          (rxAfterCmd C false (transferBody C dev a b segs (Machine.init hw mem)).trace) := by
  obtain ⟨m1, tail, ⟨evs, g1, g2⟩, g3, g4, g5, g6, g7⟩ :=
    transferBody_segments C dev a b segs (Machine.init hw mem)
  have hq := rxAfterCmd_quiet C evs g2 false
  have hpre : rxAfterCmd C false m1.trace = [] ∧ pendingAfter C false m1.trace = false := by
    rw [g1]
    exact hq
  obtain ⟨rx, h1, h2, h3, h4⟩ := segmentLoop_answers C hC hne segs (initLastRead segs) m1
    hpre.2 (g7 h)
  have htail : ∀ e ∈ tail, cmdWord e = none := by
    intro e he
    by_contra hc
    have : cmdWords tail ≠ [] := by
      intro hnil
      have hmem : ∀ w, w ∉ cmdWords tail := by rw [hnil]; simp
      cases hcw : cmdWord e with
      | none => exact hc hcw
      | some w => exact hmem w (List.mem_filterMap.mpr ⟨e, he, hcw⟩)
    exact this g5
  have hall : rxAfterCmd C false (transferBody C dev a b segs (Machine.init hw mem)).trace =
      rx := by
    rw [g4, (rxAfterCmd_append C _ _ _).1, h1, hpre.1, h2, (rxAfterCmd_no_command C tail htail).1]
    simp
  rw [hall, g6, h4, g3]
  exact ⟨h3, rfl⟩

/-- C16 (counterexample): buffers that share bytes.  Through the ioctl, with the
output buffer at byte 16 of the input buffer: a 1-byte read record followed by a
1-byte write record whose payload 170 is that byte is accepted and returns the
write total 1, and the byte of the write segment holds 9 afterwards.  And two
1-byte read segments on byte 200: the bytes read for them are 171 and 205, and
byte 0 of the first holds 205 after a transfer that returns `NO_ERROR`. -/
theorem aliased_buffers_are_overwritten :
    (Option.map IoctlResult.status
        (intel_broadwell_serialio_i2c_slave_transfer_ioctl bdw intLayout dev7 1000 17 1016 1
          true 3 (Machine.init (hwSetup ++ [staRx, 9, staIdle] ++ hwFinish)
            (memOf 1000 [1, 0, 0, 0, 1, 0, 0, 0, 0, 0, 0, 0, 1, 0, 0, 0, 170]))) =
      some (some 1) ∧
    Option.map IoctlResult.segments
        (intel_broadwell_serialio_i2c_slave_transfer_ioctl bdw intLayout dev7 1000 17 1016 1
          true 3 (Machine.init (hwSetup ++ [staRx, 9, staIdle] ++ hwFinish)
            (memOf 1000 [1, 0, 0, 0, 1, 0, 0, 0, 0, 0, 0, 0, 1, 0, 0, 0, 170]))) =
      some (some [{ read := true, len := 1, buf := 1016 },
        { read := false, len := 1, buf := 1016 }]) ∧
    memOf 1000 [1, 0, 0, 0, 1, 0, 0, 0, 0, 0, 0, 0, 1, 0, 0, 0, 170] 1016 = 170 ∧
    Option.map (IoctlResult.bytes · 1016 1)
        (intel_broadwell_serialio_i2c_slave_transfer_ioctl bdw intLayout dev7 1000 17 1016 1
          true 3 (Machine.init (hwSetup ++ [staRx, 9, staIdle] ++ hwFinish)
            (memOf 1000 [1, 0, 0, 0, 1, 0, 0, 0, 0, 0, 0, 0, 1, 0, 0, 0, 170]))) =
      some [9]) ∧
    ((intel_broadwell_serialio_i2c_slave_transfer bdw dev7
        [{ read := true, len := 1, buf := 200 }, { read := true, len := 1, buf := 200 }]
        (Machine.init (hwSetup ++ [staRx, 171, staRx, 205] ++ hwFinish) (memOf 200 [0]))).1 =
      some bdw.NO_ERROR ∧
    rxAfterCmd bdw false (intel_broadwell_serialio_i2c_slave_transfer bdw dev7
        [{ read := true, len := 1, buf := 200 }, { read := true, len := 1, buf := 200 }]
        (Machine.init (hwSetup ++ [staRx, 171, staRx, 205] ++ hwFinish)
          (memOf 200 [0]))).2.trace = [171, 205] ∧
    (intel_broadwell_serialio_i2c_slave_transfer bdw dev7
        [{ read := true, len := 1, buf := 200 }, { read := true, len := 1, buf := 200 }]
        (Machine.init (hwSetup ++ [staRx, 171, staRx, 205] ++ hwFinish)
          (memOf 200 [0]))).2.mem 200 = 205) := by
  decide

/-- C16 (amended): after a transfer that returns `NO_ERROR` on a slave that
passes the checks, memory is what it was with the low 8 bits of the values read
from the data/command register in answer to the read commands (for each read
command the first read of the register after it) stored, one after the other,
at the bytes of the read segments taken by segment and then by byte offset, a
later store to an address replacing an earlier one; there is one such value per
byte of the read segments.  When no two of these bytes share an address, byte
`i` holds the low 8 bits of the `i`-th value; every address outside the read
segments holds what it held before, so the bytes of write segments that are not
bytes of read segments are unchanged.  Each read iteration writes its read
command, polls the status register until RFNE is set, then reads the
data/command register once and stores the low 8 bits at `buf`. -/
theorem received_bytes_are_stored_in_request_order (C : Consts) (hC : C.cmdFieldsOk)
    (hne : C.DATA_CMD_CMD_READ ≠ C.DATA_CMD_CMD_WRITE) (dev : SlaveDev)
    (segments : List Segment) (hw : List Nat) (mem : Nat → Nat)
    (hv : passesChecks C dev = true)
    (hret : (intel_broadwell_serialio_i2c_slave_transfer C dev segments
      (Machine.init hw mem)).1 = some C.NO_ERROR) :
    (rxAfterCmd C false (intel_broadwell_serialio_i2c_slave_transfer C dev segments
        (Machine.init hw mem)).2.trace).length = (readAddrs segments).length ∧
    (intel_broadwell_serialio_i2c_slave_transfer C dev segments (Machine.init hw mem)).2.mem =
      writeBack mem (readAddrs segments)
        (rxAfterCmd C false (intel_broadwell_serialio_i2c_slave_transfer C dev segments
          (Machine.init hw mem)).2.trace) ∧
    ((readAddrs segments).Nodup → ∀ (i a v : Nat), (readAddrs segments)[i]? = some a →
      (rxAfterCmd C false (intel_broadwell_serialio_i2c_slave_transfer C dev segments
        (Machine.init hw mem)).2.trace)[i]? = some v →
      (intel_broadwell_serialio_i2c_slave_transfer C dev segments
        (Machine.init hw mem)).2.mem a = v % 256) ∧
    (∀ x, x ∉ readAddrs segments →
      (intel_broadwell_serialio_i2c_slave_transfer C dev segments
        (Machine.init hw mem)).2.mem x = mem x) ∧
    (∀ s ∈ segments, s.read = false → ∀ j, j < loopCount s.len →
      s.buf + j ∉ readAddrs segments →
        (intel_broadwell_serialio_i2c_slave_transfer C dev segments
          (Machine.init hw mem)).2.mem (s.buf + j) = mem (s.buf + j)) ∧
    (∀ (n restart buf : Nat) (m : Machine), (byteBody C true n restart buf m).stalled = false →
      ∃ (w : Nat) (pre : List Event) (v d : Nat),
        (byteBody C true n restart buf m).trace =
          m.trace ++ Event.wr Reg.data_cmd w ::
            (pre ++ [Event.rd Reg.i2c_sta v, Event.rd Reg.data_cmd d]) ∧
        cmdFields C w = (C.DATA_CMD_CMD_READ, 0) ∧
        (∀ e ∈ pre, ∃ u, e = Event.rd Reg.i2c_sta u ∧ staBit C.I2C_STA_RFNE u = false) ∧
        staBit C.I2C_STA_RFNE v = true ∧
        (byteBody C true n restart buf m).mem =
          fun x => if x = buf then d % 256 else m.mem x) := by
  have hmain : (rxAfterCmd C false (intel_broadwell_serialio_i2c_slave_transfer C dev segments
        (Machine.init hw mem)).2.trace).length = (readAddrs segments).length ∧
      (intel_broadwell_serialio_i2c_slave_transfer C dev segments (Machine.init hw mem)).2.mem =
        writeBack mem (readAddrs segments)
          (rxAfterCmd C false (intel_broadwell_serialio_i2c_slave_transfer C dev segments
            (Machine.init hw mem)).2.trace) := by
    rw [transfer_passed C dev segments (Machine.init hw mem) hv] at hret ⊢
    have hs : (transferBody C dev
        (if dev.chip_address_width = C.I2C_7BIT_ADDRESS then C.CTL_ADDRESSING_MODE_7BIT
          else C.CTL_ADDRESSING_MODE_10BIT)
        (if dev.chip_address_width = C.I2C_7BIT_ADDRESS then C.TAR_ADD_WIDTH_7BIT
          else C.TAR_ADD_WIDTH_10BIT) segments (Machine.init hw mem)).stalled = false := by
      cases hs : (transferBody C dev
        (if dev.chip_address_width = C.I2C_7BIT_ADDRESS then C.CTL_ADDRESSING_MODE_7BIT
          else C.CTL_ADDRESSING_MODE_10BIT)
        (if dev.chip_address_width = C.I2C_7BIT_ADDRESS then C.TAR_ADD_WIDTH_7BIT
          else C.TAR_ADD_WIDTH_10BIT) segments (Machine.init hw mem)).stalled
      · rfl
      · simp [hs] at hret
    exact transferBody_answers C hC hne dev _ _ segments hw mem hs
  have hout : ∀ x, x ∉ readAddrs segments →
      (intel_broadwell_serialio_i2c_slave_transfer C dev segments
        (Machine.init hw mem)).2.mem x = mem x := by
    intro x hx
    rw [hmain.2]
    exact writeBack_of_not_mem _ mem _ x hx
  refine ⟨hmain.1, hmain.2, ?_, hout, fun s _ _ j _ hx => hout _ hx, ?_⟩
  · intro hnd i a v ha hv
    rw [hmain.2]
    exact writeBack_get _ mem _ i a v hnd ha hv
  · intro n restart buf m h
    exact byteBody_read_block C hC n restart buf m h

/-- C16 (amended) on example scenario 2 with the controller delivering 171 and
then 205: the two bytes of the read segment hold 171 and 205, and the byte of
the write segment still holds 170. -/
theorem received_bytes_are_stored_in_request_order_witness :
    (bdw.cmdFieldsOk ∧ bdw.DATA_CMD_CMD_READ ≠ bdw.DATA_CMD_CMD_WRITE ∧
      passesChecks bdw dev7 = true ∧
      (intel_broadwell_serialio_i2c_slave_transfer bdw dev7
        [{ read := false, len := 1, buf := 1008 }, { read := true, len := 2, buf := 2000 }]
        (Machine.init (hwSetup ++ [staIdle, staRx, 171, staRx, 205] ++ hwFinish)
          (memOf 1000 [0, 0, 0, 0, 1, 0, 0, 0, 170, 1, 0, 0, 0, 2, 0, 0, 0]))).1 =
        some bdw.NO_ERROR) ∧
    (intel_broadwell_serialio_i2c_slave_transfer bdw dev7
        [{ read := false, len := 1, buf := 1008 }, { read := true, len := 2, buf := 2000 }]
        (Machine.init (hwSetup ++ [staIdle, staRx, 171, staRx, 205] ++ hwFinish)
          (memOf 1000 [0, 0, 0, 0, 1, 0, 0, 0, 170, 1, 0, 0, 0, 2, 0, 0, 0]))).2.mem 2001 =
      205 % 256 ∧
    (intel_broadwell_serialio_i2c_slave_transfer bdw dev7
        [{ read := false, len := 1, buf := 1008 }, { read := true, len := 2, buf := 2000 }]
        (Machine.init (hwSetup ++ [staIdle, staRx, 171, staRx, 205] ++ hwFinish)
          (memOf 1000 [0, 0, 0, 0, 1, 0, 0, 0, 170, 1, 0, 0, 0, 2, 0, 0, 0]))).2.mem 1008 =
      memOf 1000 [0, 0, 0, 0, 1, 0, 0, 0, 170, 1, 0, 0, 0, 2, 0, 0, 0] 1008 :=
  ⟨⟨by decide, by decide, by decide, by decide⟩,
    (received_bytes_are_stored_in_request_order bdw (by decide) (by decide) dev7
      [{ read := false, len := 1, buf := 1008 }, { read := true, len := 2, buf := 2000 }]
      (hwSetup ++ [staIdle, staRx, 171, staRx, 205] ++ hwFinish)
      (memOf 1000 [0, 0, 0, 0, 1, 0, 0, 0, 170, 1, 0, 0, 0, 2, 0, 0, 0])
      (by decide) (by decide)).2.2.1 (by decide) 1 2001 205 (by decide) (by decide),
    (received_bytes_are_stored_in_request_order bdw (by decide) (by decide) dev7
      [{ read := false, len := 1, buf := 1008 }, { read := true, len := 2, buf := 2000 }]
      (hwSetup ++ [staIdle, staRx, 171, staRx, 205] ++ hwFinish)
      (memOf 1000 [0, 0, 0, 0, 1, 0, 0, 0, 170, 1, 0, 0, 0, 2, 0, 0, 0])
      (by decide) (by decide)).2.2.2.1 1008 (by decide)⟩

end I2cSlave

namespace Atfork

/-! ## The list of fork handlers -/

theorem headAddr_append (x y : List Registration) :
    headAddr (x ++ y) = if x = [] then headAddr y else headAddr x := by
  cases x <;> simp [headAddr]

theorem headAddr_reverse_cons (r : Registration) (t : List Registration) :
    headAddr (r :: t).reverse = if t = [] then r.addr else headAddr t.reverse := by
  rw [List.reverse_cons, headAddr_append]
  simp [headAddr]

theorem headAddr_mem {l : List Registration} (h : l ≠ []) :
    headAddr l ∈ l.map (fun r => r.addr) := by
  cases l with
  | nil => exact absurd rfl h
  | cons r t => simp [headAddr]

theorem calls_cons (f : Nat) (fs : List Nat) :
    calls (f :: fs) = (if f ≠ 0 then [ForkEvent.call f] else []) ++ calls fs := by
  unfold calls
  by_cases h : f = 0 <;> simp [List.filter_cons, h]

theorem Linked_congr (link : atfork_funcs → Nat) (heap heap1 : Nat → atfork_funcs)
    (l : List Registration)
    (h : ∀ r ∈ l, (heap1 r.addr).prepare = (heap r.addr).prepare ∧
      (heap1 r.addr).parent = (heap r.addr).parent ∧
      (heap1 r.addr).child = (heap r.addr).child ∧ link (heap1 r.addr) = link (heap r.addr))
    (hl : Linked link heap l) : Linked link heap1 l := by
  induction l with
  | nil => trivial
  | cons r t ih =>
    obtain ⟨a1, a2, a3, a4, a5, a6⟩ := hl
    obtain ⟨b1, b2, b3, b4⟩ := h r (List.mem_cons_self _ _)
    exact ⟨a1, b1.trans a2, b2.trans a3, b3.trans a4, b4.trans a5,
      ih (fun x hx => h x (List.mem_cons_of_mem _ hx)) a6⟩

theorem Linked_snoc (link : atfork_funcs → Nat) (heap heap1 : Nat → atfork_funcs)
    (r : Registration) (hr0 : r.addr ≠ 0)
    (hr : (heap1 r.addr).prepare = r.prepare ∧ (heap1 r.addr).parent = r.parent ∧
      (heap1 r.addr).child = r.child ∧ link (heap1 r.addr) = 0) :
    ∀ l : List Registration, (l.map (fun x => x.addr)).Nodup →
      (∀ x ∈ l, (heap1 x.addr).prepare = (heap x.addr).prepare ∧
        (heap1 x.addr).parent = (heap x.addr).parent ∧
        (heap1 x.addr).child = (heap x.addr).child ∧
        link (heap1 x.addr) =
          if x.addr = headAddr l.reverse then r.addr else link (heap x.addr)) →
      Linked link heap l → Linked link heap1 (l ++ [r]) := by
  intro l
  induction l with
  | nil =>
    intro _ _ _
    exact ⟨hr0, hr.1, hr.2.1, hr.2.2.1, hr.2.2.2, trivial⟩
  | cons x t ih =>
    intro hnd h hl
    obtain ⟨a1, a2, a3, a4, a5, a6⟩ := hl
    obtain ⟨b1, b2, b3, b4⟩ := h x (List.mem_cons_self _ _)
    rw [List.map_cons] at hnd
    have hnd1 := List.nodup_cons.mp hnd
    refine ⟨a1, b1.trans a2, b2.trans a3, b3.trans a4, ?_, ?_⟩
    · show link (heap1 x.addr) = headAddr (t ++ [r])
      rw [b4, headAddr_reverse_cons, headAddr_append]
      by_cases ht : t = []
      · simp [ht, headAddr]
      · have hmem : headAddr t.reverse ∈ t.map (fun r => r.addr) := by
          have := headAddr_mem (l := t.reverse) (by simpa using ht)
          simpa using this
        have hne : x.addr ≠ headAddr t.reverse := fun he => hnd1.1 (by rw [he]; exact hmem)
        simp [ht, hne, a5]
    · apply ih hnd1.2 _ a6
      intro y hy
      obtain ⟨c1, c2, c3, c4⟩ := h y (List.mem_cons_of_mem _ hy)
      refine ⟨c1, c2, c3, ?_⟩
      rw [c4, headAddr_reverse_cons]
      have ht : t ≠ [] := List.ne_nil_of_mem hy
      simp [ht]

/-- What the list looks like after the registrations `regs`, the oldest first:
`funcs` points at the newest record, `next` leads from each record to the one
registered before it, `prev` to the one registered after it. -/
theorem registered_step (R : List Registration) (r : Registration) (s : State)
    (hf : s.funcs = headAddr R.reverse)
    (hn : Linked (fun n => n.next) s.heap R.reverse)
    (hp : Linked (fun n => n.prev) s.heap R)
    (hnd : (R.map (fun x => x.addr)).Nodup)
    (hr0 : r.addr ≠ 0) (hfresh : r.addr ∉ R.map (fun x => x.addr)) :
    (pthread_atfork r.addr r.prepare r.parent r.child s).1 = 0 ∧
    (pthread_atfork r.addr r.prepare r.parent r.child s).2.funcs =
      headAddr (R ++ [r]).reverse ∧
    Linked (fun n => n.next) (pthread_atfork r.addr r.prepare r.parent r.child s).2.heap
      (R ++ [r]).reverse ∧
    Linked (fun n => n.prev) (pthread_atfork r.addr r.prepare r.parent r.child s).2.heap
      (R ++ [r]) ∧
    ((R ++ [r]).map (fun x => x.addr)).Nodup := by
  have hfr : s.funcs ≠ r.addr := by
    intro he
    by_cases hR : R = []
    · rw [hf, hR] at he; exact hr0 he.symm
    · apply hfresh
      rw [← he, hf]
      have := headAddr_mem (l := R.reverse) (by simpa using hR)
      simpa using this
  have hheap : ∀ x, x ≠ r.addr →
      ((pthread_atfork r.addr r.prepare r.parent r.child s).2.heap x).prepare =
        (s.heap x).prepare ∧
      ((pthread_atfork r.addr r.prepare r.parent r.child s).2.heap x).parent =
        (s.heap x).parent ∧
      ((pthread_atfork r.addr r.prepare r.parent r.child s).2.heap x).child =
        (s.heap x).child ∧
      ((pthread_atfork r.addr r.prepare r.parent r.child s).2.heap x).next =
        (s.heap x).next ∧
      ((pthread_atfork r.addr r.prepare r.parent r.child s).2.heap x).prev =
        if x = s.funcs ∧ s.funcs ≠ 0 then r.addr else (s.heap x).prev := by
    intro x hx
    simp only [pthread_atfork, hr0, if_false, State.log]
    by_cases h0 : s.funcs = 0
    · simp [h0, hx]
    · by_cases hxf : x = s.funcs
      · subst hxf
        simp [h0, hx]
      · simp [h0, hx, hxf]
  have hnew : (pthread_atfork r.addr r.prepare r.parent r.child s).2.heap r.addr =
      { prepare := r.prepare, parent := r.parent, child := r.child, prev := 0,
        next := s.funcs } := by
    simp only [pthread_atfork, hr0, if_false, State.log]
    by_cases h0 : s.funcs = 0
    · simp [h0]
    · simp [h0, Ne.symm hfr]
  have hmemne : ∀ x ∈ R, x.addr ≠ r.addr := by
    intro x hx he
    exact hfresh (by rw [← he]; exact List.mem_map_of_mem _ hx)
  have hnz : ∀ l : List Registration, ∀ link, Linked link s.heap l → ∀ x ∈ l, x.addr ≠ 0 := by
    intro l link
    induction l with
    | nil => intro _ x hx; cases hx
    | cons y t ih =>
      intro hl x hx
      rcases List.mem_cons.mp hx with rfl | hx
      · exact hl.1
      · exact ih hl.2.2.2.2.2 x hx
  refine ⟨by simp [pthread_atfork, hr0], ?_, ?_, ?_, ?_⟩
  · rw [List.reverse_append]
    simp [pthread_atfork, hr0, State.log, headAddr]
  · rw [List.reverse_append]
    refine ⟨hr0, ?_, ?_, ?_, ?_, ?_⟩
    · rw [hnew]
    · rw [hnew]
    · rw [hnew]
    · rw [hnew]; exact hf
    · apply Linked_congr _ s.heap _ _ _ hn
      intro x hx
      obtain ⟨c1, c2, c3, c4, _⟩ := hheap x.addr (hmemne x (by simpa using hx))
      exact ⟨c1, c2, c3, c4⟩
  · apply Linked_snoc _ s.heap _ r hr0 (by rw [hnew]; exact ⟨rfl, rfl, rfl, rfl⟩) R hnd _ hp
    intro x hx
    obtain ⟨c1, c2, c3, _, c5⟩ := hheap x.addr (hmemne x hx)
    refine ⟨c1, c2, c3, ?_⟩
    rw [c5, ← hf]
    have hx0 : x.addr ≠ 0 := hnz R _ hp x hx
    by_cases hxf : x.addr = s.funcs
    · have : s.funcs ≠ 0 := by rw [← hxf]; exact hx0
      simp [hxf, this]
    · simp [hxf]
  · rw [List.map_append, List.nodup_append]
    refine ⟨hnd, by simp, ?_⟩
    intro a ha hb
    simp only [List.map_cons, List.map_nil, List.mem_singleton] at hb
    subst hb
    exact hfresh ha

theorem registerAll_registered (regs : List Registration) :
    ∀ (R : List Registration) (s : State), Registered R s →
      (∀ r ∈ regs, r.addr ≠ 0) → ((R ++ regs).map (fun x => x.addr)).Nodup →
      (registerAll regs s).1 = regs.map (fun _ => 0) ∧
        Registered (R ++ regs) (registerAll regs s).2 := by
  induction regs with
  | nil =>
    intro R s h _ _
    exact ⟨rfl, by simpa using h⟩
  | cons r rest ih =>
    intro R s h hnz hnd
    have hnd1 : ((R ++ [r] ++ rest).map (fun x => x.addr)).Nodup := by
      simpa using hnd
    have hnd2 : ((R ++ [r]).map (fun x => x.addr)).Nodup := by
      rw [List.map_append] at hnd1
      exact (List.nodup_append.mp hnd1).1
    have hnd3 : (R.map (fun x => x.addr)).Nodup := by
      rw [List.map_append] at hnd2
      exact (List.nodup_append.mp hnd2).1
    have hfresh : r.addr ∉ R.map (fun x => x.addr) := by
      rw [List.map_append] at hnd2
      intro hm
      exact (List.nodup_append.mp hnd2).2.2 hm (by simp)
    obtain ⟨g1, g2, g3, g4, _⟩ := registered_step R r s h.1 h.2.1 h.2.2 hnd3
      (hnz r (List.mem_cons_self _ _)) hfresh
    obtain ⟨k1, k2⟩ := ih (R ++ [r]) (pthread_atfork r.addr r.prepare r.parent r.child s).2
      ⟨g2, g3, g4⟩ (fun x hx => hnz x (List.mem_cons_of_mem _ hx)) hnd1
    refine ⟨?_, ?_⟩
    · simp only [registerAll, List.map_cons, g1, k1]
    · have : R ++ r :: rest = R ++ [r] ++ rest := by simp
      rw [this]
      exact k2

theorem Linked_headAddr_ne_zero (link : atfork_funcs → Nat) (heap : Nat → atfork_funcs)
    (l : List Registration) (h : Linked link heap l) (hl : l ≠ []) : headAddr l ≠ 0 := by
  cases l with
  | nil => exact absurd rfl hl
  | cons r t => exact h.1

theorem calls_append (a b : List Nat) : calls (a ++ b) = calls a ++ calls b := by
  simp [calls]

theorem prepareLoop_step (f p : Nat) (s : State) (hp : p ≠ 0) :
    prepareLoop (f + 1) p s =
      prepareLoop f (s.heap p).next
        (State.mk p s.heap (s.trace ++ calls [(s.heap p).prepare])) := by
  by_cases h : (s.heap p).prepare = 0
  · simp [prepareLoop, hp, h, calls]
  · simp [prepareLoop, hp, h, calls, State.log]

theorem resumeLoop_step (who : Int) (f p : Nat) (s : State) (hp : p ≠ 0) :
    resumeLoop who (f + 1) p s =
      resumeLoop who f (s.heap p).prev
        (State.mk p s.heap
          (s.trace ++ calls [if who = 0 then (s.heap p).parent else (s.heap p).child])) := by
  by_cases hw : who = 0
  · by_cases h : (s.heap p).parent = 0
    · simp [resumeLoop, hp, hw, h, calls]
    · simp [resumeLoop, hp, hw, h, calls, State.log]
  · by_cases h : (s.heap p).child = 0
    · simp [resumeLoop, hp, hw, h, calls]
    · simp [resumeLoop, hp, hw, h, calls, State.log]

theorem prepareLoop_linked (l : List Registration) :
    ∀ (fuel : Nat) (s : State), Linked (fun n => n.next) s.heap l → l.length < fuel →
      prepareLoop fuel (headAddr l) s =
        some (State.mk (if l = [] then s.funcs else headAddr l.reverse) s.heap
          (s.trace ++ calls (l.map (fun r => r.prepare)))) := by
  induction l with
  | nil =>
    intro fuel s _ hf
    obtain ⟨f, rfl⟩ : ∃ f, fuel = f + 1 := ⟨fuel - 1, by simp at hf; omega⟩
    simp [prepareLoop, headAddr, calls]
  | cons r t ih =>
    intro fuel s hl hf
    obtain ⟨f, rfl⟩ : ∃ f, fuel = f + 1 := ⟨fuel - 1, by simp at hf; omega⟩
    obtain ⟨a1, a2, _, _, a5, a6⟩ := hl
    change prepareLoop (f + 1) r.addr s = _
    rw [prepareLoop_step f r.addr s a1, show (s.heap r.addr).next = headAddr t from a5,
      ih f (State.mk r.addr s.heap (s.trace ++ calls [(s.heap r.addr).prepare])) a6
        (by simp at hf; omega), headAddr_reverse_cons, a2]
    have hc : calls (List.map (fun r => r.prepare) (r :: t)) =
        calls [r.prepare] ++ calls (List.map (fun r => r.prepare) t) := by
      rw [List.map_cons, ← calls_append]; rfl
    rw [hc]
    simp

theorem resumeLoop_linked (who : Int) (l : List Registration) :
    ∀ (fuel : Nat) (s : State), Linked (fun n => n.prev) s.heap l → l.length < fuel →
      resumeLoop who fuel (headAddr l) s =
        some (State.mk (if l = [] then s.funcs else headAddr l.reverse) s.heap
          (s.trace ++ calls (l.map (fun r => if who = 0 then r.parent else r.child)))) := by
  induction l with
  | nil =>
    intro fuel s _ hf
    obtain ⟨f, rfl⟩ : ∃ f, fuel = f + 1 := ⟨fuel - 1, by simp at hf; omega⟩
    simp [resumeLoop, headAddr, calls]
  | cons r t ih =>
    intro fuel s hl hf
    obtain ⟨f, rfl⟩ : ∃ f, fuel = f + 1 := ⟨fuel - 1, by simp at hf; omega⟩
    obtain ⟨a1, _, a3, a4, a5, a6⟩ := hl
    change resumeLoop who (f + 1) r.addr s = _
    rw [resumeLoop_step who f r.addr s a1, show (s.heap r.addr).prev = headAddr t from a5,
      ih f (State.mk r.addr s.heap
        (s.trace ++ calls [if who = 0 then (s.heap r.addr).parent else (s.heap r.addr).child]))
        a6 (by simp at hf; omega), headAddr_reverse_cons, a3, a4]
    have hc : calls (List.map (fun r => if who = 0 then r.parent else r.child) (r :: t)) =
        calls [if who = 0 then r.parent else r.child] ++
          calls (List.map (fun r => if who = 0 then r.parent else r.child) t) := by
      rw [List.map_cons, ← calls_append]; rfl
    rw [hc]
    simp

/-- C20: let `regs` be the registrations made, oldest first, by calls of
`pthread_atfork` whose allocations succeed with fresh addresses, starting from
an empty list, and let `s` be any state with the list they leave behind.  All
the calls return 0.  With fuel above the number of registrations,
`__fork_handler(-1)` returns after taking the lock and calling the non-null
prepare callbacks from the newest registration to the oldest, and a following
`__fork_handler(who)` with `who ≥ 0` returns after calling the non-null parent
callbacks (`who = 0`) or child callbacks (`who ≠ 0`) from the oldest
registration to the newest and releasing the lock; every registration has one
place in each of the two sequences.  Afterwards `funcs` and the records are what
they were, `funcs` pointing at the newest record, so the statement holds again
for the state reached.  With no registration nothing happens at all. -/
theorem fork_handlers_run_in_registration_order (regs : List Registration) (s0 s : State)
    (who : Int) (fuel1 fuel2 : Nat)
    (h0 : s0.funcs = 0) (hnz : ∀ r ∈ regs, r.addr ≠ 0)
    (hnd : (regs.map (fun r => r.addr)).Nodup) (hwho : 0 ≤ who)
    (hs1 : s.funcs = (registerAll regs s0).2.funcs)
    (hs2 : s.heap = (registerAll regs s0).2.heap)
    (hf1 : regs.length < fuel1) (hf2 : regs.length < fuel2) :
    (registerAll regs s0).1 = regs.map (fun _ => 0) ∧
    s.funcs = headAddr regs.reverse ∧
    ∃ s1 s2, __fork_handler (-1) fuel1 s = some s1 ∧ __fork_handler who fuel2 s1 = some s2 ∧
      s1.trace = s.trace ++
        (if regs = [] then []
          else ForkEvent.lock :: calls (regs.reverse.map (fun r => r.prepare))) ∧
      s2.trace = s1.trace ++
        (if regs = [] then []
          else calls (regs.map (fun r => if who = 0 then r.parent else r.child)) ++
            [ForkEvent.unlock]) ∧
      s2.funcs = s.funcs ∧ s2.heap = s.heap := by
  obtain ⟨k1, k2, k3, k4⟩ := registerAll_registered regs [] s0
    ⟨by rw [h0]; rfl, trivial, trivial⟩ hnz (by simpa using hnd)
  rw [List.nil_append] at k2 k3 k4
  rw [← hs1] at k2
  rw [← hs2] at k3 k4
  refine ⟨k1, k2, ?_⟩
  by_cases hr : regs = []
  · subst hr
    have hz : s.funcs = 0 := by rw [k2]; rfl
    refine ⟨s, s, by simp [__fork_handler, hz], by simp [__fork_handler, hz], by simp, by simp,
      rfl, rfl⟩
  · have hne : s.funcs ≠ 0 := by
      rw [k2]
      exact Linked_headAddr_ne_zero _ _ _ k3 (by simpa using hr)
    have hne1 : headAddr regs ≠ 0 := Linked_headAddr_ne_zero _ _ _ k4 hr
    have hneg : ¬ who < 0 := by omega
    have hrr : regs.reverse ≠ [] := by simpa using hr
    have p1 := prepareLoop_linked regs.reverse fuel1 (s.log ForkEvent.lock) k3 (by simpa using hf1)
    rw [← k2, List.reverse_reverse, if_neg hrr] at p1
    have p2 := resumeLoop_linked who regs fuel2
      (State.mk (headAddr regs) (s.log ForkEvent.lock).heap
        ((s.log ForkEvent.lock).trace ++ calls (List.map (fun r => r.prepare) regs.reverse)))
      k4 hf2
    rw [if_neg hr] at p2
    refine ⟨State.mk (headAddr regs) (s.log ForkEvent.lock).heap
        ((s.log ForkEvent.lock).trace ++ calls (List.map (fun r => r.prepare) regs.reverse)),
      (State.mk (headAddr regs.reverse) (s.log ForkEvent.lock).heap
        ((s.log ForkEvent.lock).trace ++ calls (List.map (fun r => r.prepare) regs.reverse) ++
          calls (List.map (fun r => if who = 0 then r.parent else r.child) regs))).log
        ForkEvent.unlock, ?_, ?_, ?_, ?_, ?_, ?_⟩
    · simp only [__fork_handler, if_neg hne, show ((-1 : Int) < 0) from by decide, if_true]
      exact p1
    · simp only [__fork_handler, if_neg hne1, if_neg hneg]
      rw [p2]
      rfl
    · simp [State.log, if_neg hr]
    · simp [State.log, if_neg hr]
    · exact k2.symm
    · rfl

/-- C20 on two registrations, the second without a parent callback: the prepare
callbacks are called newest first (4, then 1), the parent callback of the first
alone (2), and `funcs` points at the second record again. -/
theorem fork_handlers_run_in_registration_order_witness :
    (State.start.funcs = 0 ∧ (∀ r ∈ twoHandlers, r.addr ≠ 0) ∧
      (twoHandlers.map (fun r => r.addr)).Nodup ∧ (0 : Int) ≤ 0 ∧
      twoHandlers.length < 3) ∧
    (registerAll twoHandlers State.start).2.funcs = 32 ∧
    ∃ s1 s2, __fork_handler (-1) 3 (registerAll twoHandlers State.start).2 = some s1 ∧
      __fork_handler 0 3 s1 = some s2 ∧
      s1.trace = (registerAll twoHandlers State.start).2.trace ++
        [ForkEvent.lock, ForkEvent.call 4, ForkEvent.call 1] ∧
      s2.trace = s1.trace ++ [ForkEvent.call 2, ForkEvent.unlock] ∧
      s2.funcs = 32 :=
  ⟨⟨rfl, by decide, by decide, by decide, by decide⟩, rfl,
    (fork_handlers_run_in_registration_order twoHandlers State.start
      (registerAll twoHandlers State.start).2 0 3 3 rfl (by decide) (by decide) (by decide)
      rfl rfl (by decide) (by decide)).2.2.imp
      (fun _ h1 => h1.imp (fun _ h2 => ⟨h2.1, h2.2.1, h2.2.2.1, h2.2.2.2.1, h2.2.2.2.2.1⟩))⟩

end Atfork
